import Mathlib

/-
Verification development for src/src/libslic3r/ShapeDiameterFunction.cpp
(PrusaSlicer, ShapeDiameterFunction namespace).

Embedding conventions.
* Scalars: the C++ float/double arithmetic is embedded as exact rational
  arithmetic over ℚ.
* Irrational kernels: the code calls sqrt, cos, sin, acos and uses M_PI.
  These have no exact rational counterpart, so
  - wherever the source only COMPARES a Euclidean norm (or a standard
    deviation) with another such quantity, the embedding tracks the SQUARE
    of the quantity and compares squares, which is order-isomorphic for
    nonnegative operands in exact arithmetic;
  - wherever the source uses the VALUE of sqrt/cos/sin or M_PI (the
    Fibonacci sphere point coordinates, triangle areas, normalization),
    the embedding takes the numeric kernel (sqrtf, cosf, sinf, pi) as an
    explicit function parameter and theorems quantify over it.
* External collaborators (AABB tree ray casting, Eigen rotation): the
  composite per-ray query of calc_width is an Option-valued parameter.
* std::mt19937 with uniform_real_distribution: modelled as a draw stream
  rng : ℕ → ℚ together with a position counter; each distribution call
  reads one stream element and advances the position by one.
* Fallible code (out-of-range vector reads that are undefined behavior in
  C++) is modelled with Option where the claims depend on it.
-/

namespace SDF

/-- Vec3f of the source, with exact rational components. -/
structure Vec3 where
  x : ℚ
  y : ℚ
  z : ℚ
deriving DecidableEq

instance : Inhabited Vec3 := ⟨⟨0, 0, 0⟩⟩

instance : Add Vec3 := ⟨fun a b => ⟨a.x + b.x, a.y + b.y, a.z + b.z⟩⟩

instance : Sub Vec3 := ⟨fun a b => ⟨a.x - b.x, a.y - b.y, a.z - b.z⟩⟩

/-- Scalar multiple of a vector. -/
def smul (t : ℚ) (v : Vec3) : Vec3 := ⟨t * v.x, t * v.y, t * v.z⟩

/-- Dot product. -/
def dot (a b : Vec3) : ℚ := a.x * b.x + a.y * b.y + a.z * b.z

/-- Cross product, as Vec3f::cross. -/
def cross (a b : Vec3) : Vec3 :=
  ⟨a.y * b.z - a.z * b.y, a.z * b.x - a.x * b.z, a.x * b.y - a.y * b.x⟩

/-- Squared Euclidean norm: the square of Vec3f::norm. -/
def normSq (v : Vec3) : ℚ := v.x * v.x + v.y * v.y + v.z * v.z

@[simp] theorem add_x (a b : Vec3) : (a + b).x = a.x + b.x := rfl

@[simp] theorem add_y (a b : Vec3) : (a + b).y = a.y + b.y := rfl

@[simp] theorem add_z (a b : Vec3) : (a + b).z = a.z + b.z := rfl

@[simp] theorem sub_x (a b : Vec3) : (a - b).x = a.x - b.x := rfl

@[simp] theorem sub_y (a b : Vec3) : (a - b).y = a.y - b.y := rfl

@[simp] theorem sub_z (a b : Vec3) : (a - b).z = a.z - b.z := rfl

@[simp] theorem smul_x (t : ℚ) (v : Vec3) : (smul t v).x = t * v.x := rfl

@[simp] theorem smul_y (t : ℚ) (v : Vec3) : (smul t v).y = t * v.y := rfl

@[simp] theorem smul_z (t : ℚ) (v : Vec3) : (smul t v).z = t * v.z := rfl

theorem normSq_nonneg (v : Vec3) : 0 ≤ normSq v := by
  have hx : 0 ≤ v.x * v.x := mul_self_nonneg _
  have hy : 0 ≤ v.y * v.y := mul_self_nonneg _
  have hz : 0 ≤ v.z * v.z := mul_self_nonneg _
  unfold normSq
  linarith

theorem normSq_neg_sub (a b : Vec3) : normSq (a - b) = normSq (b - a) := by
  simp only [normSq, sub_x, sub_y, sub_z]
  ring

/-- Direction of the source: a unit direction with a scalar weight. -/
structure Direction where
  dir : Vec3
  weight : ℚ
deriving DecidableEq

/-- PointRadius of the source: a support point candidate with its
required clearance radius. -/
structure PointRadius where
  point : Vec3
  radius : ℚ
deriving DecidableEq

/-- Modelled from the spec: PointGrid3D is declared in the missing header
ShapeDiameterFunction.hpp.  Per the spec (Data Model) it is a uniform-cell
spatial hash of already-accepted points, queried for whether any stored
point lies within radius r of the query point.  The cell size only
accelerates the query, so the model keeps the stored points as a list and
the cell size as passive data.  The spec flags the exact collision rule as
an open policy question; the model fixes it as squared distance strictly
below the squared radius. -/
structure PointGrid3D where
  cell_size : Vec3
  points : List Vec3

/-- Modelled from the spec: the collision predicate of PointGrid3D. -/
def collides_with (g : PointGrid3D) (p : Vec3) (r : ℚ) : Bool :=
  g.points.any (fun q => decide (normSq (q - p) < r * r))

/-- Modelled from the spec: inserting a point into a PointGrid3D. -/
def grid_insert (g : PointGrid3D) (p : Vec3) : PointGrid3D :=
  ⟨g.cell_size, p :: g.points⟩

/-- Acceptance loop of poisson_sphere_from_samples: each candidate is
rejected when it collides with the local acceptance grid or with the
externally supplied grid, otherwise it is accepted into the result and
into the local grid (lines 242-248 of the source). -/
def poisson_loop (grid : PointGrid3D) : List PointRadius → PointGrid3D → List PointRadius
  | [], _ => []
  | s :: rest, actGrid =>
    if collides_with actGrid s.point s.radius then poisson_loop grid rest actGrid
    else if collides_with grid s.point s.radius then poisson_loop grid rest actGrid
    else s :: poisson_loop grid rest (grid_insert actGrid s.point)

/-- Comparator of the std::sort call (line 235): ascending radius.
std::sort guarantees only sortedness, which mergeSort provides. -/
def radius_le (a b : PointRadius) : Bool := decide (a.radius ≤ b.radius)

/-- ShapeDiameterFunction::poisson_sphere_from_samples (lines 228-250).
The source reads samples.back() to size the local grid cells; on an empty
candidate vector that read is out of bounds, which the model maps to none. -/
def poisson_sphere_from_samples (samples : List PointRadius) (grid : PointGrid3D) :
    Option (List PointRadius) :=
  let sorted := samples.mergeSort radius_le
  match sorted.getLast? with
  | none => none
  | some last =>
    let max_r := last.radius
    let actGrid : PointGrid3D := ⟨⟨max_r, max_r, max_r⟩, []⟩
    some (poisson_loop grid sorted actGrid)

/-- Iteration values z of create_fibonacci_sphere_samples:
z = 1 - i / (count - 1) (line 272). -/
def fib_z (count i : ℕ) : ℚ := 1 - (i : ℚ) / ((count : ℚ) - 1)

/-- Body of the emission loop of create_fibonacci_sphere_samples
(lines 274-282): coordinates from the golden-angle spiral, weight equal to
the polar component.  cosf, sinf, sqrtf abstract the float kernels, phi
abstracts the golden angle constant. -/
def fib_dir (cosf sinf sqrtf : ℚ → ℚ) (phi : ℚ) (count i : ℕ) : Direction :=
  let z := fib_z count i
  let radius := sqrtf (1 - z * z)
  let theta := phi * (i : ℚ)
  ⟨⟨cosf theta * radius, sinf theta * radius, z⟩, z⟩

/-- ShapeDiameterFunction::create_fibonacci_sphere_samples (lines 253-286).
min_z abstracts cos(angle / 2 * pi / 180) of line 265.  The loop breaks at
the first i with z < min_z, which is exactly a takeWhile over the
iteration range. -/
def create_fibonacci_sphere_samples (cosf sinf sqrtf : ℚ → ℚ) (phi min_z : ℚ)
    (count_samples : ℕ) : List Direction :=
  if count_samples ≤ 1 then [⟨⟨0, 0, 1⟩, 1⟩]
  else
    ((List.range count_samples).takeWhile
      (fun i => ! decide (fib_z count_samples i < min_z))).map
      (fib_dir cosf sinf sqrtf phi count_samples)

/-- RaysConfig of the missing header, as used by calc_width and
calc_widths: the Direction Set, the safe-move offset, the orientation
ceiling, the deviation multiplier and the two filter switches.  The
allowed-angle filter itself is an external, transcendental computation
(acos over AABB data) and is abstracted into the per-ray cast parameter. -/
structure RaysConfig where
  dirs : List Direction
  safe_move : ℚ
  normal_z_max : ℚ
  allowed_deviation : ℚ
  deviation_filtering : Bool

/-- Surviving rays of calc_width: for each direction of the set, the cast
parameter yields some hit distance when intersect_ray_first_hit succeeds
and the optional angle filter keeps the hit (lines 69-98); survivors carry
the hit distance paired with the weight of their direction. -/
def survivors (cast : Direction → Option ℚ) (dirs : List Direction) : List (ℚ × ℚ) :=
  dirs.filterMap (fun d => (cast d).map (fun t => (t, d.weight)))

/-- Deviation filter of the second loop of calc_width (lines 108-116): an
entry is kept unless deviation filtering is on and its distance is farther
from the mean than standard_deviation * allowed_deviation.  The source
compares fabs(width - mean) with sqrt(variance) * allowed_deviation; for a
nonnegative allowed_deviation this is equivalent, in exact arithmetic, to
comparing (width - mean)^2 with variance * allowed_deviation^2, which is
the rational form used here. -/
def dev_keep (devFiltering : Bool) (mean variance allowed_deviation : ℚ)
    (l : List (ℚ × ℚ)) : List (ℚ × ℚ) :=
  l.filter (fun h =>
    ! (devFiltering && decide ((h.1 - mean) * (h.1 - mean) >
        variance * (allowed_deviation * allowed_deviation))))

/-- ShapeDiameterFunction::calc_width (lines 40-119).  The ray origin
offset, rotation and AABB query (lines 50-75) and the angle filter
(lines 78-91) are composed into the cast parameter; normal_z is the z
component of the vertex normal checked on line 48. -/
def calc_width (cast : Direction → Option ℚ) (normal_z : ℚ) (config : RaysConfig) : ℚ :=
  let no_width : ℚ := -1
  if normal_z > config.normal_z_max then no_width
  else
    let hits := survivors cast config.dirs
    let widths := hits.map Prod.fst
    if hits = [] then no_width
    else if hits.length = 1 then widths.headI
    else
      let sum_width := widths.sum
      let sq_sum_width := (widths.map (fun w => w * w)).sum
      let mean := sum_width / (widths.length : ℚ)
      let variance := sq_sum_width / (widths.length : ℚ) - mean * mean
      let keep := dev_keep config.deviation_filtering mean variance
        config.allowed_deviation hits
      let sum_width2 := (keep.map (fun h => h.1 * h.2)).sum
      let sum_weight := (keep.map Prod.snd).sum
      if sum_weight ≤ 0 then mean
      else sum_width2 / sum_weight + config.safe_move

/-- ShapeDiameterFunction::calc_widths (lines 121-147).  The defensive
checks of lines 131-132 return an empty vector; the tbb parallel map over
the index range is a pure map over the zipped inputs.  The cast parameter
receives the probed point and its normal. -/
def calc_widths (cast : Vec3 → Vec3 → Direction → Option ℚ)
    (points normals : List Vec3) (config : RaysConfig) : List ℚ :=
  if points = [] ∨ config.dirs = [] ∨ points.length ≠ normals.length then []
  else (points.zip normals).map (fun pn => calc_width (cast pn.1 pn.2) pn.2.z config)

/-- Triangle of an indexed mesh: three vertex indices (Vec3crd). -/
abbrev Tri : Type := ℕ × ℕ × ℕ

/-- Component access for an index triple, following Vec3crd operator[]
with the index taken modulo 3 as in the source arithmetic. -/
def tri_get (t : Tri) : ℕ → ℕ := fun i =>
  match i % 3 with
  | 0 => t.1
  | 1 => t.2.1
  | _ => t.2.2

/-- indexed_triangle_set of libslic3r: vertex positions plus index
triples. -/
structure indexed_triangle_set where
  vertices : List Vec3
  indices : List Tri

/-- SampleConfig of the missing header, as read by
generate_support_points. -/
structure SampleConfig where
  min_width : ℚ
  max_width : ℚ
  min_radius : ℚ
  max_radius : ℚ
  multiplicator : ℚ
  normal_z_max : ℚ

/-- Width-to-radius mapping of lines 158-162. -/
def width_to_radius (cfg : SampleConfig) (width : ℚ) : ℚ :=
  (width - cfg.min_width) / (cfg.max_width - cfg.min_width) *
    (cfg.max_radius - cfg.min_radius) + cfg.min_radius

/-- Truncation toward zero, as C modf on the integer part. -/
def truncQ (q : ℚ) : ℤ := q.num.tdiv (q.den : ℤ)

/-- ShapeDiameterFunction::triangle_area (lines 583-590), with sqrtf
abstracting the float sqrt inside Vec3f::norm. -/
def triangle_area (sqrtf : ℚ → ℚ) (v0 v1 v2 : Vec3) : ℚ :=
  sqrtf (normSq (cross (v1 - v0) (v2 - v0))) / 2

/-- Barycentric sampling body of generate_support_points (lines 208-222):
two uniform draws, reflection into the triangle, interpolation of position
and radius. -/
def gsp_point (v0 v1 v2 : Vec3) (r0 r1 r2 : ℚ) (u v : ℚ) : PointRadius :=
  let b0 := if u + v > 1 then 1 - u else u
  let b1 := if u + v > 1 then 1 - v else v
  let b2 := 1 - b0 - b1
  ⟨⟨b0 * v0.x + b1 * v1.x + b2 * v2.x,
    b0 * v0.y + b1 * v1.y + b2 * v2.y,
    b0 * v0.z + b1 * v1.z + b2 * v2.z⟩,
   b0 * r0 + b1 * r1 + b2 * r2⟩

/-- Point emission loop of generate_support_points (lines 208-223): count
iterations, each consuming two stream draws.  C++ leaves the evaluation
order of the two constructor arguments unspecified; the model fixes x
before y, which only renames the draws. -/
def gsp_points_loop (rng : ℕ → ℚ) (v0 v1 v2 : Vec3) (r0 r1 r2 : ℚ) :
    ℕ → ℕ → List PointRadius
  | 0, _ => []
  | n + 1, pos =>
    gsp_point v0 v1 v2 r0 r1 r2 (rng pos) (rng (pos + 1)) ::
      gsp_points_loop rng v0 v1 v2 r0 r1 r2 n (pos + 2)

/-- Per-triangle body of generate_support_points (lines 170-224).  Returns
the points emitted for this triangle and the new draw-stream position.
A triangle with any vertex width above max_width or below zero is skipped
before any draw; otherwise the rounding draw is taken, then the zero-count
check and the orientation filter may drop the triangle, and finally count
points are emitted with two draws each. -/
def gsp_triangle (sqrtf : ℚ → ℚ) (pi : ℚ) (cfg : SampleConfig)
    (vertices : List Vec3) (widths : List ℚ) (rng : ℕ → ℚ)
    (t : Tri) (pos : ℕ) : List PointRadius × ℕ :=
  let w0 := widths.getD t.1 0
  let w1 := widths.getD t.2.1 0
  let w2 := widths.getD t.2.2 0
  let bad := fun w => w > cfg.max_width ∨ w < 0
  if bad w0 ∨ bad w1 ∨ bad w2 then ([], pos)
  else
    let r0 := width_to_radius cfg w0
    let r1 := width_to_radius cfg w1
    let r2 := width_to_radius cfg w2
    let area_for_one_support := (r0 * r0 * pi + r1 * r1 * pi + r2 * r2 * pi) / 3
    let v0 := vertices.getD t.1 default
    let v1 := vertices.getD t.2.1 default
    let v2 := vertices.getD t.2.2 default
    let area := triangle_area sqrtf v0 v1 v2
    let countf := area / area_for_one_support * cfg.multiplicator
    let int_part_of_count := truncQ countf
    let fraction := countf - (int_part_of_count : ℚ)
    let generate := rng pos
    let count : ℤ := if generate < fraction then int_part_of_count + 1 else int_part_of_count
    if count = 0 then ([], pos + 1)
    else
      let n := cross (v1 - v0) (v2 - v0)
      let nz := n.z / sqrtf (normSq n)
      if nz > cfg.normal_z_max then ([], pos + 1)
      else (gsp_points_loop rng v0 v1 v2 r0 r1 r2 count.toNat (pos + 1),
            pos + 1 + 2 * count.toNat)

/-- Triangle traversal of generate_support_points (line 170): sequential
fold threading the draw-stream position, concatenating per-triangle
emissions in order. -/
def gsp_fold (sqrtf : ℚ → ℚ) (pi : ℚ) (cfg : SampleConfig)
    (vertices : List Vec3) (widths : List ℚ) (rng : ℕ → ℚ) :
    List Tri → ℕ → List PointRadius
  | [], _ => []
  | t :: ts, pos =>
    let step := gsp_triangle sqrtf pi cfg vertices widths rng t pos
    step.1 ++ gsp_fold sqrtf pi cfg vertices widths rng ts step.2

/-- ShapeDiameterFunction::generate_support_points (lines 149-226). -/
def generate_support_points (sqrtf : ℚ → ℚ) (pi : ℚ)
    (its : indexed_triangle_set) (widths : List ℚ) (cfg : SampleConfig)
    (rng : ℕ → ℚ) : List PointRadius :=
  gsp_fold sqrtf pi cfg its.vertices widths rng its.indices 0

/-
Theorems.
-/

theorem radius_le_trans (a b c : PointRadius) (hab : radius_le a b = true)
    (hbc : radius_le b c = true) : radius_le a c = true := by
  simp only [radius_le, decide_eq_true_eq] at *
  exact le_trans hab hbc

theorem radius_le_total (a b : PointRadius) : (radius_le a b || radius_le b a) = true := by
  simp only [radius_le, Bool.or_eq_true, decide_eq_true_eq]
  exact le_total a.radius b.radius

theorem collides_with_false_iff (g : PointGrid3D) (p : Vec3) (r : ℚ) :
    collides_with g p r = false ↔ ∀ q ∈ g.points, ¬ normSq (q - p) < r * r := by
  simp [collides_with]

/-- Soundness of the acceptance loop: every emitted candidate is free of
collisions with the external grid, with every point of the incoming local
grid, and with every earlier emitted candidate, always at its own radius. -/
theorem poisson_loop_sound (grid : PointGrid3D) (l : List PointRadius) (act : PointGrid3D) :
    (∀ pr ∈ poisson_loop grid l act, collides_with grid pr.point pr.radius = false) ∧
    (∀ pr ∈ poisson_loop grid l act, ∀ q ∈ act.points,
      ¬ normSq (q - pr.point) < pr.radius * pr.radius) ∧
    (poisson_loop grid l act).Pairwise
      (fun a b => ¬ normSq (a.point - b.point) < b.radius * b.radius) := by
  induction l generalizing act with
  | nil => simp [poisson_loop]
  | cons s rest ih =>
    by_cases h1 : collides_with act s.point s.radius = true
    · simpa [poisson_loop, h1] using ih act
    · by_cases h2 : collides_with grid s.point s.radius = true
      · simpa [poisson_loop, h1, h2] using ih act
      · have h1f : collides_with act s.point s.radius = false := by
          simpa using h1
        have h2f : collides_with grid s.point s.radius = false := by
          simpa using h2
        have loop_eq : poisson_loop grid (s :: rest) act =
            s :: poisson_loop grid rest (grid_insert act s.point) := by
          simp [poisson_loop, h1f, h2f]
        obtain ⟨ihg, iha, ihp⟩ := ih (grid_insert act s.point)
        have hins : (grid_insert act s.point).points = s.point :: act.points := rfl
        refine ⟨?_, ?_, ?_⟩
        · intro pr hpr
          rw [loop_eq] at hpr
          rcases List.mem_cons.mp hpr with rfl | hpr
          · exact h2f
          · exact ihg pr hpr
        · intro pr hpr q hq
          rw [loop_eq] at hpr
          rcases List.mem_cons.mp hpr with rfl | hpr
          · exact (collides_with_false_iff act pr.point pr.radius).mp h1f q hq
          · exact iha pr hpr q (by rw [hins]; exact List.mem_cons_of_mem _ hq)
        · rw [loop_eq]
          refine List.Pairwise.cons ?_ ihp
          intro b hb
          exact iha b hb s.point (by rw [hins]; exact List.mem_cons_self _ _)

/-- Claim C5: every point accepted by poisson_sphere_from_samples collides,
under the grid collision predicate at its own radius, neither with the
externally supplied grid nor with any point accepted earlier in the same
call, and candidates are processed in ascending order of radius. -/
theorem C5_poisson_accepted_points_clean (samples : List PointRadius) (grid : PointGrid3D)
    (res : List PointRadius)
    (h : poisson_sphere_from_samples samples grid = some res) :
    (samples.mergeSort radius_le).Pairwise (fun a b => a.radius ≤ b.radius) ∧
    (∀ pr ∈ res, collides_with grid pr.point pr.radius = false) ∧
    res.Pairwise (fun a b => ¬ normSq (a.point - b.point) < b.radius * b.radius) := by
  have hsorted : (samples.mergeSort radius_le).Pairwise (fun a b => a.radius ≤ b.radius) := by
    have := List.sorted_mergeSort radius_le_trans radius_le_total samples
    exact this.imp (fun {a b} hab => by simpa [radius_le] using hab)
  unfold poisson_sphere_from_samples at h
  rcases hl : (samples.mergeSort radius_le).getLast? with _ | last
  · simp only [hl] at h
    simp at h
  · simp only [hl, Option.some.injEq] at h
    subst h
    obtain ⟨hg, _, hp⟩ := poisson_loop_sound grid (samples.mergeSort radius_le)
      ⟨⟨last.radius, last.radius, last.radius⟩, []⟩
    exact ⟨hsorted, hg, hp⟩

/-- Witness for C5 at a concrete input: a single candidate against an
empty external grid is accepted and satisfies the claimed properties. -/
theorem C5_poisson_witness :
    poisson_sphere_from_samples [⟨⟨0, 0, 0⟩, 1⟩] ⟨⟨1, 1, 1⟩, []⟩ =
      some [⟨⟨0, 0, 0⟩, 1⟩] ∧
    ((([⟨⟨0, 0, 0⟩, 1⟩] : List PointRadius).mergeSort radius_le).Pairwise
      (fun a b => a.radius ≤ b.radius) ∧
    (∀ pr ∈ [(⟨⟨0, 0, 0⟩, 1⟩ : PointRadius)],
      collides_with ⟨⟨1, 1, 1⟩, []⟩ pr.point pr.radius = false) ∧
    ([(⟨⟨0, 0, 0⟩, 1⟩ : PointRadius)]).Pairwise
      (fun a b => ¬ normSq (a.point - b.point) < b.radius * b.radius)) := by
  have h : poisson_sphere_from_samples [⟨⟨0, 0, 0⟩, 1⟩] ⟨⟨1, 1, 1⟩, []⟩ =
      some [⟨⟨0, 0, 0⟩, 1⟩] := by
    simp [poisson_sphere_from_samples, poisson_loop, collides_with]
  exact ⟨h, C5_poisson_accepted_points_clean _ _ _ h⟩

/-- Claim C9: poisson_sphere_from_samples reads the last element of the
sorted candidate vector, so it is total exactly for non-empty candidate
lists; on an empty list the read is out of bounds (modelled as none)
instead of yielding an empty result. -/
theorem C9_poisson_empty_input_out_of_bounds (samples : List PointRadius)
    (grid : PointGrid3D) :
    poisson_sphere_from_samples samples grid = none ↔ samples = [] := by
  have hperm := List.mergeSort_perm samples radius_le
  unfold poisson_sphere_from_samples
  rcases hl : (samples.mergeSort radius_le).getLast? with _ | last
  · have hnil : samples.mergeSort radius_le = [] := List.getLast?_eq_none_iff.mp hl
    rw [hnil] at hperm
    simp only [hl]
    simpa using (List.Perm.nil_eq hperm).symm
  · have hsne : samples ≠ [] := by
      intro hnil
      subst hnil
      simp [List.mergeSort_nil] at hl
    simp only [hl]
    simp [hsne]

theorem fib_z_zero (count : ℕ) : fib_z count 0 = 1 := by
  simp [fib_z]

theorem fib_z_strict_anti (count : ℕ) (hc : 2 ≤ count) (i j : ℕ) (hij : i < j) :
    fib_z count j < fib_z count i := by
  unfold fib_z
  have hden : (0 : ℚ) < (count : ℚ) - 1 := by
    have : (2 : ℚ) ≤ (count : ℚ) := by exact_mod_cast hc
    linarith
  have hnum : (i : ℚ) < (j : ℚ) := by exact_mod_cast hij
  have hlt : (i : ℚ) / ((count : ℚ) - 1) < (j : ℚ) / ((count : ℚ) - 1) := by
    gcongr
  linarith

/-- Claim C6: for a sample count above one and a cone half-angle strictly
between 1 and 180 degrees (so that min_z, standing for the cosine of half
the half-angle, lies strictly between 0 and 1),
create_fibonacci_sphere_samples returns between 1 and count directions,
every returned polar component is at least min_z, the polar components
strictly decrease along the sequence, and each weight equals the polar
component of its direction. -/
theorem C6_create_fibonacci_sphere_samples_cone (cosf sinf sqrtf : ℚ → ℚ)
    (phi min_z : ℚ) (count : ℕ) (hc : 1 < count) (hmz0 : 0 < min_z) (hmz1 : min_z < 1) :
    1 ≤ (create_fibonacci_sphere_samples cosf sinf sqrtf phi min_z count).length ∧
    (create_fibonacci_sphere_samples cosf sinf sqrtf phi min_z count).length ≤ count ∧
    (∀ d ∈ create_fibonacci_sphere_samples cosf sinf sqrtf phi min_z count,
      min_z ≤ d.dir.z ∧ d.weight = d.dir.z) ∧
    (create_fibonacci_sphere_samples cosf sinf sqrtf phi min_z count).Pairwise
      (fun a b => b.dir.z < a.dir.z) := by
  have hc2 : 2 ≤ count := hc
  have hnle : ¬ count ≤ 1 := by omega
  unfold create_fibonacci_sphere_samples
  simp only [hnle, if_false]
  set tw := (List.range count).takeWhile
      (fun i => ! decide (fib_z count i < min_z)) with htw
  have hsub : tw.Sublist (List.range count) := List.takeWhile_sublist _
  refine ⟨?_, ?_, ?_, ?_⟩
  · -- at least one direction: index 0 survives since fib_z count 0 = 1 ≥ min_z
    have hr : List.range count = 0 :: List.drop 1 (List.range count) := by
      obtain ⟨m, rfl⟩ : ∃ m, count = m + 1 := ⟨count - 1, by omega⟩
      simp [List.range_succ_eq_map]
    have hp0 : (! decide (fib_z count 0 < min_z)) = true := by
      simp [fib_z_zero]
      linarith
    have : tw = 0 :: (List.drop 1 (List.range count)).takeWhile
        (fun i => ! decide (fib_z count i < min_z)) := by
      rw [htw, hr, List.takeWhile_cons, hp0]
      simp
    simp [this, List.length_map]
  · calc (tw.map (fib_dir cosf sinf sqrtf phi count)).length
        = tw.length := List.length_map _ _
      _ ≤ (List.range count).length := hsub.length_le
      _ = count := List.length_range count
  · intro d hd
    obtain ⟨i, hi, rfl⟩ := List.mem_map.mp hd
    have hpi := List.mem_takeWhile_imp hi
    simp only [Bool.not_eq_eq_eq_not, Bool.not_true, decide_eq_false_iff_not, not_lt] at hpi
    constructor
    · simpa [fib_dir] using hpi
    · rfl
  · rw [List.pairwise_map]
    have hrange : (List.range count).Pairwise (· < ·) := List.pairwise_lt_range count
    have htwp : tw.Pairwise (· < ·) := hrange.sublist hsub
    refine htwp.imp ?_
    intro i j hij
    simpa [fib_dir] using fib_z_strict_anti count hc2 i j hij

/-- Witness for C6 at a concrete input: three samples with min_z a half. -/
theorem C6_create_fibonacci_witness :
    1 ≤ (create_fibonacci_sphere_samples id id id 0 (1/2) 3).length ∧
    (create_fibonacci_sphere_samples id id id 0 (1/2) 3).length ≤ 3 ∧
    (∀ d ∈ create_fibonacci_sphere_samples id id id 0 (1/2) 3,
      (1/2 : ℚ) ≤ d.dir.z ∧ d.weight = d.dir.z) ∧
    (create_fibonacci_sphere_samples id id id 0 (1/2) 3).Pairwise
      (fun a b => b.dir.z < a.dir.z) :=
  C6_create_fibonacci_sphere_samples_cone id id id 0 (1/2) 3
    (by norm_num) (by norm_num) (by norm_num)

/-- Claim C3: calc_width returns the sentinel when no ray survives, the
single surviving hit distance unmodified when exactly one survives, and
otherwise the weighted mean over the deviation-filtered survivors with the
safe-move offset added back, falling back to the unfiltered arithmetic
mean when the surviving weights sum to zero or below. -/
theorem C3_calc_width_aggregation (cast : Direction → Option ℚ) (normal_z : ℚ)
    (config : RaysConfig) (hnz : ¬ normal_z > config.normal_z_max) :
    (survivors cast config.dirs = [] → calc_width cast normal_z config = -1) ∧
    (∀ w wt, survivors cast config.dirs = [(w, wt)] →
      calc_width cast normal_z config = w) ∧
    (2 ≤ (survivors cast config.dirs).length →
      (fun hits =>
        (fun mean variance =>
          (fun keep =>
            ((keep.map Prod.snd).sum ≤ 0 → calc_width cast normal_z config = mean) ∧
            (¬ (keep.map Prod.snd).sum ≤ 0 → calc_width cast normal_z config =
              (keep.map (fun h => h.1 * h.2)).sum / (keep.map Prod.snd).sum +
                config.safe_move))
          (dev_keep config.deviation_filtering mean variance
            config.allowed_deviation hits))
        ((hits.map Prod.fst).sum / ((hits.map Prod.fst).length : ℚ))
        (((hits.map Prod.fst).map (fun w => w * w)).sum /
            ((hits.map Prod.fst).length : ℚ) -
          (hits.map Prod.fst).sum / ((hits.map Prod.fst).length : ℚ) *
            ((hits.map Prod.fst).sum / ((hits.map Prod.fst).length : ℚ))))
      (survivors cast config.dirs)) := by
  refine ⟨?_, ?_, ?_⟩
  · intro h
    simp [calc_width, h, hnz]
  · intro w wt h
    simp [calc_width, h, hnz]
  · intro hlen
    have hne : survivors cast config.dirs ≠ [] := by
      intro h0
      rw [h0] at hlen
      simp at hlen
    have hne1 : (survivors cast config.dirs).length ≠ 1 := by omega
    constructor <;> intro hsw
    · simp only [calc_width]
      rw [if_neg hnz, if_neg hne, if_neg hne1, if_pos hsw]
    · simp only [calc_width]
      rw [if_neg hnz, if_neg hne, if_neg hne1, if_neg hsw]

/-- Witness for C3 at a concrete input: two directions with weights one
and two, hit distances six and eight, no normal rejection. -/
theorem C3_calc_width_witness :
    (¬ (0 : ℚ) > (RaysConfig.mk [⟨⟨0, 0, 1⟩, 1⟩, ⟨⟨0, 0, 1⟩, 2⟩] 2 1 10 true).normal_z_max) ∧
    (survivors (fun d => some (if d.weight = 1 then 6 else 8))
        (RaysConfig.mk [⟨⟨0, 0, 1⟩, 1⟩, ⟨⟨0, 0, 1⟩, 2⟩] 2 1 10 true).dirs = [] →
      calc_width (fun d => some (if d.weight = 1 then 6 else 8)) 0
        (RaysConfig.mk [⟨⟨0, 0, 1⟩, 1⟩, ⟨⟨0, 0, 1⟩, 2⟩] 2 1 10 true) = -1) := by
  have hnz : ¬ (0 : ℚ) > (RaysConfig.mk [⟨⟨0, 0, 1⟩, 1⟩, ⟨⟨0, 0, 1⟩, 2⟩] 2 1 10 true).normal_z_max := by
    norm_num
  exact ⟨hnz, (C3_calc_width_aggregation (fun d => some (if d.weight = 1 then 6 else 8))
    0 (RaysConfig.mk [⟨⟨0, 0, 1⟩, 1⟩, ⟨⟨0, 0, 1⟩, 2⟩] 2 1 10 true) hnz).1⟩

theorem gsp_points_loop_length (rng : ℕ → ℚ) (v0 v1 v2 : Vec3) (r0 r1 r2 : ℚ)
    (n pos : ℕ) : (gsp_points_loop rng v0 v1 v2 r0 r1 r2 n pos).length = n := by
  induction n generalizing pos with
  | zero => rfl
  | succ m ih => simp [gsp_points_loop, ih]

/-- Skip condition of the per-triangle loop of generate_support_points:
some vertex width above max_width or below zero. -/
def width_out_of_range (cfg : SampleConfig) (widths : List ℚ) (t : Tri) : Prop :=
  widths.getD t.1 0 > cfg.max_width ∨ widths.getD t.1 0 < 0 ∨
  widths.getD t.2.1 0 > cfg.max_width ∨ widths.getD t.2.1 0 < 0 ∨
  widths.getD t.2.2 0 > cfg.max_width ∨ widths.getD t.2.2 0 < 0

instance (cfg : SampleConfig) (widths : List ℚ) (t : Tri) :
    Decidable (width_out_of_range cfg widths t) := by
  unfold width_out_of_range
  infer_instance

theorem gsp_triangle_skip (sqrtf : ℚ → ℚ) (pi : ℚ) (cfg : SampleConfig)
    (vertices : List Vec3) (widths : List ℚ) (rng : ℕ → ℚ) (t : Tri) (pos : ℕ)
    (hbad : width_out_of_range cfg widths t) :
    gsp_triangle sqrtf pi cfg vertices widths rng t pos = ([], pos) := by
  unfold gsp_triangle width_out_of_range at *
  have : (widths.getD t.1 0 > cfg.max_width ∨ widths.getD t.1 0 < 0) ∨
      (widths.getD t.2.1 0 > cfg.max_width ∨ widths.getD t.2.1 0 < 0) ∨
      (widths.getD t.2.2 0 > cfg.max_width ∨ widths.getD t.2.2 0 < 0) := by
    tauto
  simp only [this, if_true]

/-- Claim C10: a triangle whose three vertex widths all lie inside the
accepted range advances the draw stream by exactly one rounding draw plus
two draws per emitted point, hence exactly one draw when it contributes no
points; a triangle with a width out of range advances the stream not at
all. -/
theorem C10_rng_draw_discipline (sqrtf : ℚ → ℚ) (pi : ℚ) (cfg : SampleConfig)
    (vertices : List Vec3) (widths : List ℚ) (rng : ℕ → ℚ) (t : Tri) (pos : ℕ) :
    (width_out_of_range cfg widths t →
      gsp_triangle sqrtf pi cfg vertices widths rng t pos = ([], pos)) ∧
    (¬ width_out_of_range cfg widths t →
      (gsp_triangle sqrtf pi cfg vertices widths rng t pos).2 =
        pos + 1 + 2 * (gsp_triangle sqrtf pi cfg vertices widths rng t pos).1.length) := by
  constructor
  · exact gsp_triangle_skip sqrtf pi cfg vertices widths rng t pos
  · intro hgood
    unfold width_out_of_range at hgood
    have hcond : ¬ ((widths.getD t.1 0 > cfg.max_width ∨ widths.getD t.1 0 < 0) ∨
        (widths.getD t.2.1 0 > cfg.max_width ∨ widths.getD t.2.1 0 < 0) ∨
        (widths.getD t.2.2 0 > cfg.max_width ∨ widths.getD t.2.2 0 < 0)) := by
      tauto
    unfold gsp_triangle
    simp only [hcond, if_false]
    repeat' split
    all_goals simp [gsp_points_loop_length]

/-- Witness for C10 at a concrete input: all widths in range, two points
emitted, stream advanced by five. -/
theorem C10_rng_draw_witness :
    ¬ width_out_of_range ⟨0, 10, 1, 1, 22/7, 2⟩ [5, 5, 5] ((0, 1, 2) : Tri) ∧
    (gsp_triangle (fun q => if q = 144 then 12 else 0) (22/7) ⟨0, 10, 1, 1, 22/7, 2⟩
        [⟨0, 0, 0⟩, ⟨3, 0, 0⟩, ⟨0, 4, 0⟩] [5, 5, 5] (fun _ => 1/2) ((0, 1, 2) : Tri) 0).2 =
      0 + 1 + 2 * (gsp_triangle (fun q => if q = 144 then 12 else 0) (22/7)
        ⟨0, 10, 1, 1, 22/7, 2⟩ [⟨0, 0, 0⟩, ⟨3, 0, 0⟩, ⟨0, 4, 0⟩] [5, 5, 5]
        (fun _ => 1/2) ((0, 1, 2) : Tri) 0).1.length := by
  have hgood : ¬ width_out_of_range ⟨0, 10, 1, 1, 22/7, 2⟩ [5, 5, 5] ((0, 1, 2) : Tri) := by
    unfold width_out_of_range
    norm_num [List.getD]
  exact ⟨hgood, (C10_rng_draw_discipline (fun q => if q = 144 then 12 else 0) (22/7)
    ⟨0, 10, 1, 1, 22/7, 2⟩ [⟨0, 0, 0⟩, ⟨3, 0, 0⟩, ⟨0, 4, 0⟩] [5, 5, 5]
    (fun _ => 1/2) ((0, 1, 2) : Tri) 0).2 hgood⟩

theorem gsp_fold_erase_skipped (sqrtf : ℚ → ℚ) (pi : ℚ) (cfg : SampleConfig)
    (vertices : List Vec3) (widths : List ℚ) (rng : ℕ → ℚ) (t : Tri)
    (hbad : width_out_of_range cfg widths t) (pre post : List Tri) (pos : ℕ) :
    gsp_fold sqrtf pi cfg vertices widths rng (pre ++ t :: post) pos =
    gsp_fold sqrtf pi cfg vertices widths rng (pre ++ post) pos := by
  induction pre generalizing pos with
  | nil =>
    simp [gsp_fold, gsp_triangle_skip sqrtf pi cfg vertices widths rng t pos hbad]
  | cons p ps ih =>
    simp only [List.cons_append, gsp_fold]
    exact congrArg _ (ih _)

/-- Claim C7: a triangle with any vertex width outside the accepted range
contributes no point at all: generate_support_points on a mesh containing
it equals generate_support_points on the same mesh with that triangle
removed, draws included. -/
theorem C7_out_of_range_triangle_skipped (sqrtf : ℚ → ℚ) (pi : ℚ)
    (vertices : List Vec3) (widths : List ℚ) (cfg : SampleConfig) (rng : ℕ → ℚ)
    (pre post : List Tri) (t : Tri)
    (hbad : width_out_of_range cfg widths t) :
    generate_support_points sqrtf pi ⟨vertices, pre ++ t :: post⟩ widths cfg rng =
    generate_support_points sqrtf pi ⟨vertices, pre ++ post⟩ widths cfg rng := by
  unfold generate_support_points
  exact gsp_fold_erase_skipped sqrtf pi cfg vertices widths rng t hbad pre post 0

/-- Witness for C7 at a concrete input: a width of eleven above the limit
of ten makes the triangle contribute nothing. -/
theorem C7_skip_witness :
    width_out_of_range ⟨0, 10, 1, 1, 22/7, 2⟩ [5, 5, 11] ((0, 1, 2) : Tri) ∧
    generate_support_points (fun q => if q = 144 then 12 else 0) (22/7)
        ⟨[⟨0, 0, 0⟩, ⟨3, 0, 0⟩, ⟨0, 4, 0⟩], [((0, 1, 2) : Tri)]⟩ [5, 5, 11]
        ⟨0, 10, 1, 1, 22/7, 2⟩ (fun _ => 1/2) =
      generate_support_points (fun q => if q = 144 then 12 else 0) (22/7)
        ⟨[⟨0, 0, 0⟩, ⟨3, 0, 0⟩, ⟨0, 4, 0⟩], []⟩ [5, 5, 11]
        ⟨0, 10, 1, 1, 22/7, 2⟩ (fun _ => 1/2) := by
  have hbad : width_out_of_range ⟨0, 10, 1, 1, 22/7, 2⟩ [5, 5, 11] ((0, 1, 2) : Tri) := by
    unfold width_out_of_range
    norm_num [List.getD]
  exact ⟨hbad, C7_out_of_range_triangle_skipped (fun q => if q = 144 then 12 else 0)
    (22/7) [⟨0, 0, 0⟩, ⟨3, 0, 0⟩, ⟨0, 4, 0⟩] [5, 5, 11] ⟨0, 10, 1, 1, 22/7, 2⟩
    (fun _ => 1/2) [] [] ((0, 1, 2) : Tri) hbad⟩

theorem truncQ_one : truncQ 1 = 1 := by
  unfold truncQ
  simp [Int.tdiv_one]

/-- Claim C4 (amended): calc_widths returns an empty result on each of its
checked precondition violations (empty vertex list, empty Direction Set,
mismatched point and normal counts), and generate_support_points returns
an empty result on an empty triangle list; a vertices-versus-widths length
mismatch in generate_support_points, however, is only guarded by an
assert and is not defensively handled. -/
theorem C4_defensive_empty_results (cast : Vec3 → Vec3 → Direction → Option ℚ)
    (points normals : List Vec3) (config : RaysConfig)
    (sqrtf : ℚ → ℚ) (pi : ℚ) (its : indexed_triangle_set) (widths : List ℚ)
    (cfg : SampleConfig) (rng : ℕ → ℚ) :
    (points = [] ∨ config.dirs = [] ∨ points.length ≠ normals.length →
      calc_widths cast points normals config = []) ∧
    (its.indices = [] →
      generate_support_points sqrtf pi its widths cfg rng = []) := by
  constructor
  · intro h
    unfold calc_widths
    rw [if_pos h]
  · intro h
    unfold generate_support_points
    rw [h]
    rfl

/-- Witness for C4 at concrete inputs: a point list of length one against
a normal list of length two is rejected by calc_widths, and an empty
triangle list yields no support points. -/
theorem C4_defensive_witness :
    (([⟨0, 0, 0⟩] : List Vec3) = [] ∨
      (RaysConfig.mk [⟨⟨0, 0, 1⟩, 1⟩] 0 1 1 false).dirs = [] ∨
      ([⟨0, 0, 0⟩] : List Vec3).length ≠ ([⟨0, 0, 1⟩, ⟨0, 1, 0⟩] : List Vec3).length) ∧
    calc_widths (fun _ _ _ => none) [⟨0, 0, 0⟩] [⟨0, 0, 1⟩, ⟨0, 1, 0⟩]
      (RaysConfig.mk [⟨⟨0, 0, 1⟩, 1⟩] 0 1 1 false) = [] := by
  have h : ([⟨0, 0, 0⟩] : List Vec3) = [] ∨
      (RaysConfig.mk [⟨⟨0, 0, 1⟩, 1⟩] 0 1 1 false).dirs = [] ∨
      ([⟨0, 0, 0⟩] : List Vec3).length ≠ ([⟨0, 0, 1⟩, ⟨0, 1, 0⟩] : List Vec3).length := by
    right
    right
    simp
  exact ⟨h, (C4_defensive_empty_results (fun _ _ _ => none) [⟨0, 0, 0⟩]
    [⟨0, 0, 1⟩, ⟨0, 1, 0⟩] (RaysConfig.mk [⟨⟨0, 0, 1⟩, 1⟩] 0 1 1 false)
    (fun _ => 0) 0 ⟨[], []⟩ [] ⟨0, 0, 0, 0, 0, 0⟩ (fun _ => 0)).1 h⟩

/-- Counterexample for C4 as frozen: generate_support_points called with
three vertices but four widths (a length mismatch, hence a precondition
violation) still returns a non-empty result, because the source only
asserts the length equality and performs no defensive check there. -/
theorem C4_mismatch_counterexample :
    ([⟨0, 0, 0⟩, ⟨3, 0, 0⟩, ⟨0, 4, 0⟩] : List Vec3).length ≠
      ([5, 5, 5, 5] : List ℚ).length ∧
    generate_support_points (fun q => if q = 144 then 12 else 0) (22/7)
      ⟨[⟨0, 0, 0⟩, ⟨3, 0, 0⟩, ⟨0, 4, 0⟩], [((0, 1, 2) : Tri)]⟩ [5, 5, 5, 5]
      ⟨0, 10, 1, 1, 11/21, 2⟩ (fun _ => 1/2) ≠ [] := by
  constructor
  · simp
  · have hstep : gsp_triangle (fun q => if q = 144 then 12 else 0) (22/7)
        ⟨0, 10, 1, 1, 11/21, 2⟩ [⟨0, 0, 0⟩, ⟨3, 0, 0⟩, ⟨0, 4, 0⟩] [5, 5, 5, 5]
        (fun _ => 1/2) ((0, 1, 2) : Tri) 0 = ([⟨⟨3/2, 0, 0⟩, 1⟩], 3) := by
      unfold gsp_triangle
      norm_num [List.getD, width_to_radius, triangle_area, cross, normSq, truncQ_one,
        gsp_points_loop, gsp_point]
    unfold generate_support_points gsp_fold
    rw [hstep]
    simp [gsp_fold]

/-
Model of ShapeDiameterFunction::subdivide (lines 288-498).

Edge lengths are irrational (Vec3f::norm takes a square root), but the
source only ever compares lengths with each other or with max_length, and
takes floor(length / max_length).  The model therefore tracks SQUARED
lengths: every comparison of lengths becomes the same comparison of their
squares (order-isomorphic for nonnegative values and a positive
max_length), and floor(length / max_length) becomes
Nat.sqrt (floor (length_sq / max_length_sq)), which agrees exactly.
msq always denotes max_length * max_length.
-/

/-- floor(length / max_length) of line 386, computed from the squared
length and the squared max length. -/
def edge_count (lsq msq : ℚ) : ℕ := Nat.sqrt (Rat.floor (lsq / msq)).toNat

/-- VerticesSequence of line 292: first inserted vertex index of a
subdivided edge plus the traversal direction relative to the canonical
(small index, big index) key order. -/
structure VerticesSequence where
  start_index : ℕ
  positive_order : Bool
deriving DecidableEq

/-- EdgeDivides of line 300: the std::map from canonicalized edge keys to
vertex sequences, as an association list (keys are inserted at most once,
so lookup order is immaterial). -/
abbrev EdgeDivides : Type := List ((ℕ × ℕ) × VerticesSequence)

/-- Lookup of a key in the edge registry (std::map::find). -/
def ed_find : EdgeDivides → ℕ × ℕ → Option VerticesSequence
  | [], _ => none
  | e :: rest, key => if e.1 = key then some e.2 else ed_find rest key

/-- TriangleLengths of line 348: an index triple together with the
lengths of its three edges; edge i joins corner i and corner (i+1) mod 3.
The l field stores squared lengths. -/
structure TriangleLengths where
  indices : Tri
  l : ℚ × ℚ × ℚ
deriving DecidableEq

/-- Component access for a rational triple, index taken modulo 3. -/
def get3 (v : ℚ × ℚ × ℚ) : ℕ → ℚ := fun i =>
  match i % 3 with
  | 0 => v.1
  | 1 => v.2.1
  | _ => v.2.2

/-- TriangleLengths::get_divide_index (lines 356-365): the index of the
longest edge when it exceeds max_length, otherwise none (the source
returns -1).  Squared-length comparisons replace length comparisons. -/
def get_divide_index (l : ℚ × ℚ × ℚ) (msq : ℚ) : Option ℕ :=
  if l.1 > l.2.1 ∧ l.1 > l.2.2 then (if l.1 > msq then some 0 else none)
  else if l.2.1 > l.2.2 then (if l.2.1 > msq then some 1 else none)
  else (if l.2.2 > msq then some 2 else none)

/-- Edge-vertex creation and registration of lines 389-403: look the
canonical key up; when absent, append the evenly spaced interior vertices
and register the new sequence.  Returns the sequence to use, the vertex
list and the registry. -/
def ensure_seq (key : ℕ × ℕ) (count : ℕ) (vertices : List Vec3) (ed : EdgeDivides) :
    VerticesSequence × List Vec3 × EdgeDivides :=
  match ed_find ed key with
  | some vs => (vs, vertices, ed)
  | none =>
    let vf := vertices.getD key.1 default
    let dirv := vertices.getD key.2 default - vf
    (⟨vertices.length, true⟩,
     vertices ++ (List.range count).map (fun (i : ℕ) =>
       vf + smul (((i : ℚ) + 1) / ((count : ℚ) + 1)) dirv),
     (key, (⟨vertices.length, true⟩ : VerticesSequence)) :: ed)

/-- The split offset of lines 406-410: half the vertex count, decremented
when the count is even and the key swap agrees with the comparison of the
two other edge lengths. -/
def mid_offset (count : ℕ) (key_swap : Bool) (l1 l2 : ℚ) : ℤ :=
  if count % 2 = 0 ∧ key_swap = decide (l1 < l2)
  then (count : ℤ) / 2 - 1
  else (count : ℤ) / 2

/-- Guarded registry insertion of lines 438-443 and 454-458: insert only
when the key is absent. -/
def ed_insert_new (ed : EdgeDivides) (key : ℕ × ℕ) (vs : VerticesSequence) : EdgeDivides :=
  if (ed_find ed key).isNone then (key, vs) :: ed else ed

/-- Body of TriangleLengths::divide (lines 368-463) expressed on the
corner indices vi0, vi1, vi2 = indices[i0], indices[i1], indices[i2] and
the squared lengths lsq, l1, l2 = l[i0], l[i1], l[i2] selected by the
divide index.  Splits the triangle at the midmost inserted vertex of the
selected edge, creating the evenly spaced edge vertices when the
canonical key is not yet registered, and recording the two sub-edge
sequences.  All size_t index arithmetic is carried out in ℤ and clamped
with toNat; negative values only arise in states the subdivide loop never
produces. -/
def divide_core (vi0 vi1 vi2 : ℕ) (lsq l1 l2 : ℚ) (msq : ℚ)
    (vertices : List Vec3) (edge_divides : EdgeDivides) :
    (TriangleLengths × TriangleLengths) × List Vec3 × EdgeDivides :=
  let key_swap : Bool := decide (vi0 > vi1)
  let key : ℕ × ℕ := if key_swap then (vi1, vi0) else (vi0, vi1)
  let count_edge_vertices := edge_count lsq msq
  let es := ensure_seq key count_edge_vertices vertices edge_divides
  let vs := es.1
  let vertices2 := es.2.1
  let ed2 := es.2.2
  let index_offset : ℤ := mid_offset count_edge_vertices key_swap l1 l2
  let sign : ℤ := if vs.positive_order then 1 else -1
  let new_index : ℕ := ((vs.start_index : ℤ) + sign * index_offset).toNat
  let v2 := vertices2.getD vi2 default
  let new_len_sq := normSq (v2 - vertices2.getD new_index default)
  let rt : ℚ := (1 + (index_offset : ℚ)) / ((count_edge_vertices : ℚ) + 1)
  let len1_sq := lsq * (rt * rt)
  let len2_sq := lsq * ((1 - rt) * (1 - rt))
  let lens := if key_swap then (len2_sq, len1_sq) else (len1_sq, len2_sq)
  let indices1 : Tri := (vi0, new_index, vi2)
  let lengths1 := (lens.1, new_len_sq, l2)
  let indices2 : Tri := (new_index, vi1, vi2)
  let lengths2 := (lens.2, l1, new_len_sq)
  let ed3 :=
    if 0 < index_offset then
      (if key.1 > new_index then
        ed_insert_new ed2 (new_index, key.1)
          ⟨((new_index : ℤ) - sign).toNat, ! vs.positive_order⟩
       else ed_insert_new ed2 (key.1, new_index) vs)
    else ed2
  let ed4 :=
    if index_offset < (count_edge_vertices : ℤ) - 1 then
      (if new_index > key.2 then
        ed_insert_new ed3 (key.2, new_index)
          ⟨((vs.start_index : ℤ) + sign * ((count_edge_vertices : ℤ) - 1)).toNat,
            ! vs.positive_order⟩
       else ed_insert_new ed3 (new_index, key.2)
          ⟨((new_index : ℤ) + sign).toNat, vs.positive_order⟩)
    else ed3
  ((⟨indices1, lengths1⟩, ⟨indices2, lengths2⟩), vertices2, ed4)

/-- TriangleLengths::divide (lines 368-463): selects the corners and
lengths for the divide index (i0, i1 = i0+1, i2 = i0+2, modulo 3) and
runs the body. -/
def divide (tl : TriangleLengths) (divide_index : ℕ) (msq : ℚ)
    (vertices : List Vec3) (edge_divides : EdgeDivides) :
    (TriangleLengths × TriangleLengths) × List Vec3 × EdgeDivides :=
  divide_core (tri_get tl.indices divide_index) (tri_get tl.indices (divide_index + 1))
    (tri_get tl.indices (divide_index + 2)) (get3 tl.l divide_index)
    (get3 tl.l (divide_index + 1)) (get3 tl.l (divide_index + 2)) msq
    vertices edge_divides

/-- The L1 pre-filter quantity of Edges::abs_sum (lines 315-318). -/
def abs_sum (v : Vec3) : ℚ := |v.x| + |v.y| + |v.z|

/-- The nested conditional of lines 321-331 ordering the three edge sums
descending. -/
def biggest_index (s : ℚ × ℚ × ℚ) : ℕ × ℕ × ℕ :=
  if s.1 > s.2.1 then
    (if s.1 > s.2.2 then (if s.2.2 > s.2.1 then (0, 2, 1) else (0, 1, 2)) else (2, 0, 1))
  else
    (if s.2.1 > s.2.2 then (if s.2.2 > s.1 then (1, 2, 0) else (1, 0, 2)) else (2, 1, 0))

/-- Edge difference vectors of the Edges constructor (lines 305-314):
data 0 = v0 - v1, data 1 = v1 - v2, data 2 = v2 - v0. -/
def edges_data (indices : Tri) (vertices : List Vec3) : Vec3 × Vec3 × Vec3 :=
  let v0 := vertices.getD indices.1 default
  let v1 := vertices.getD indices.2.1 default
  let v2 := vertices.getD indices.2.2 default
  (v0 - v1, v1 - v2, v2 - v0)

/-- Component access for a vector triple, index taken modulo 3. -/
def getV3 (d : Vec3 × Vec3 × Vec3) : ℕ → Vec3 := fun i =>
  match i % 3 with
  | 0 => d.1
  | 1 => d.2.1
  | _ => d.2.2

/-- Edges::is_dividable (lines 319-346), with the lazy element-filling
loop unrolled; on the true path the source has filled all three lengths
with the exact norms, so the caller reads them all as norms.  Sum
comparisons stay first order; norm comparisons become squared. -/
def is_dividable (data : Vec3 × Vec3 × Vec3) (max_length msq : ℚ) : Bool :=
  let s := (abs_sum data.1, abs_sum data.2.1, abs_sum data.2.2)
  let b := biggest_index s
  if get3 s b.1 ≤ max_length then false
  else if normSq (getV3 data b.1) ≤ msq then
    if get3 s b.2.1 ≤ max_length then false
    else if normSq (getV3 data b.2.1) ≤ msq then
      if get3 s b.2.2 ≤ max_length then false
      else if normSq (getV3 data b.2.2) ≤ msq then false
      else true
    else true
  else true

/-- The queue-driven inner loop of subdivide (lines 481-495), with
explicit fuel; exhausted fuel maps to none.  Emits the indices of
triangles whose divide index is none, in source order. -/
def subdivide_one (msq : ℚ) : ℕ → TriangleLengths → List TriangleLengths →
    List Vec3 → EdgeDivides → Option (List Tri × List Vec3 × EdgeDivides)
  | 0, _, _, _, _ => none
  | fuel + 1, tl, queue, vertices, ed =>
    match get_divide_index tl.l msq with
    | none =>
      match queue with
      | [] => some ([tl.indices], vertices, ed)
      | q :: qs =>
        (subdivide_one msq fuel q qs vertices ed).map
          (fun r => (tl.indices :: r.1, r.2))
    | some di =>
      let d := divide tl di msq vertices ed
      subdivide_one msq fuel d.1.1 (queue ++ [d.1.2]) d.2.1 d.2.2

/-- The outer triangle traversal of subdivide (lines 472-496): triangles
that fail the cheap dividability test are emitted unchanged; the others
run the inner loop, threading vertices and the edge registry. -/
def subdivide_go (msq max_length : ℚ) (fuel : ℕ) :
    List Tri → List Vec3 → EdgeDivides → Option (List Tri × List Vec3 × EdgeDivides)
  | [], vertices, ed => some ([], vertices, ed)
  | t :: ts, vertices, ed =>
    let data := edges_data t vertices
    if is_dividable data max_length msq = false then
      (subdivide_go msq max_length fuel ts vertices ed).map (fun r => (t :: r.1, r.2))
    else
      let tl : TriangleLengths := ⟨t, (normSq data.1, normSq data.2.1, normSq data.2.2)⟩
      (subdivide_one msq fuel tl [] vertices ed).bind (fun r =>
        (subdivide_go msq max_length fuel ts r.2.1 r.2.2).map
          (fun r2 => (r.1 ++ r2.1, r2.2)))

/-- ShapeDiameterFunction::subdivide (lines 288-498), with fuel for the
inner loops. -/
def subdivide (fuel : ℕ) (its : indexed_triangle_set) (max_length : ℚ) :
    Option indexed_triangle_set :=
  (subdivide_go (max_length * max_length) max_length fuel its.indices its.vertices []).map
    (fun r => ⟨r.2.1, r.1⟩)

/-
Arithmetic facts about edge_count: it computes floor(length / max_length)
from the squares.
-/

theorem edge_count_eq (lsq msq : ℚ) (c : ℕ) (h0 : 0 < msq)
    (h1 : (c : ℚ) * c * msq ≤ lsq) (h2 : lsq < ((c : ℚ) + 1) * ((c : ℚ) + 1) * msq) :
    edge_count lsq msq = c := by
  unfold edge_count
  have hx1 : ((c * c : ℕ) : ℤ) ≤ Rat.floor (lsq / msq) := by
    rw [Rat.le_floor]
    rw [le_div_iff h0]
    push_cast
    linarith
  have hx2 : Rat.floor (lsq / msq) < (((c + 1) * (c + 1) : ℕ) : ℤ) := by
    by_contra hcon
    push_neg at hcon
    rw [Rat.le_floor] at hcon
    rw [le_div_iff h0] at hcon
    push_cast at hcon
    linarith
  have ht1 : c * c ≤ (Rat.floor (lsq / msq)).toNat := by omega
  have ht2 : (Rat.floor (lsq / msq)).toNat < (c + 1) * (c + 1) := by omega
  have hs1 : c ≤ Nat.sqrt (Rat.floor (lsq / msq)).toNat := Nat.le_sqrt.mpr ht1
  have hs2 : Nat.sqrt (Rat.floor (lsq / msq)).toNat < c + 1 := Nat.sqrt_lt.mpr ht2
  omega

theorem edge_count_bounds (lsq msq : ℚ) (h0 : 0 < msq) (hl : 0 ≤ lsq) :
    ((edge_count lsq msq : ℚ) * (edge_count lsq msq) * msq ≤ lsq) ∧
    (lsq < ((edge_count lsq msq : ℚ) + 1) * ((edge_count lsq msq : ℚ) + 1) * msq) := by
  have hq : (0 : ℚ) ≤ lsq / msq := div_nonneg hl (le_of_lt h0)
  have hfl : (0 : ℤ) ≤ Rat.floor (lsq / msq) := by
    rw [Rat.le_floor]
    exact_mod_cast hq
  set n := (Rat.floor (lsq / msq)).toNat with hn
  have hfn : Rat.floor (lsq / msq) = (n : ℤ) := by omega
  have h1 : (Nat.sqrt n) * (Nat.sqrt n) ≤ n := by
    have := Nat.sqrt_le' n
    rw [pow_two] at this
    exact this
  have h2 : n < (Nat.sqrt n + 1) * (Nat.sqrt n + 1) := by
    have h := Nat.lt_succ_sqrt n
    rw [Nat.succ_eq_add_one] at h
    exact h
  constructor
  · have hle : ((Nat.sqrt n * Nat.sqrt n : ℕ) : ℤ) ≤ Rat.floor (lsq / msq) := by omega
    rw [Rat.le_floor] at hle
    rw [le_div_iff h0] at hle
    unfold edge_count
    rw [← hn]
    push_cast at hle ⊢
    linarith
  · have hlt : lsq / msq < ((n : ℚ) + 1) := by
      by_contra hcon
      push_neg at hcon
      have h3 : ((n : ℤ) + 1 : ℤ) ≤ Rat.floor (lsq / msq) := by
        rw [Rat.le_floor]
        push_cast
        exact hcon
      omega
    have hn1 : ((n : ℚ) + 1) ≤ ((Nat.sqrt n : ℚ) + 1) * ((Nat.sqrt n : ℚ) + 1) := by
      exact_mod_cast h2
    unfold edge_count
    rw [← hn]
    rw [div_lt_iff h0] at hlt
    nlinarith [le_of_lt h0]

theorem edge_count_pos (lsq msq : ℚ) (h0 : 0 < msq) (hgt : msq < lsq) :
    1 ≤ edge_count lsq msq := by
  by_contra hcon
  push_neg at hcon
  interval_cases h : edge_count lsq msq
  · have := (edge_count_bounds lsq msq h0 (le_of_lt (lt_trans h0 hgt))).2
    rw [h] at this
    push_cast at this
    linarith

/-
Grid points of an edge divided into k+1 even segments: position p runs
from 0 (the first endpoint) to k+1 (the second endpoint); interior vertex
j of the source sits at position j+1.
-/

theorem Vec3.ext3 (a b : Vec3) (hx : a.x = b.x) (hy : a.y = b.y) (hz : a.z = b.z) :
    a = b := by
  cases a
  cases b
  simp only [Vec3.mk.injEq]
  exact ⟨hx, hy, hz⟩

/-- Evenly spaced point at grid position p of an edge divided into k+1
segments. -/
def grid_point (va vb : Vec3) (k p : ℕ) : Vec3 :=
  va + smul ((p : ℚ) / ((k : ℚ) + 1)) (vb - va)

theorem grid_point_zero (va vb : Vec3) (k : ℕ) : grid_point va vb k 0 = va := by
  apply Vec3.ext3 <;>
    simp [grid_point, smul_x, smul_y, smul_z]

theorem grid_point_top (va vb : Vec3) (k : ℕ) : grid_point va vb k (k + 1) = vb := by
  have hk : ((k : ℚ) + 1) ≠ 0 := by positivity
  apply Vec3.ext3 <;>
    (unfold grid_point
     simp only [add_x, add_y, add_z, sub_x, sub_y, sub_z, smul_x, smul_y, smul_z]
     push_cast
     field_simp)

theorem grid_point_chordSq (va vb : Vec3) (k p q : ℕ) :
    normSq (grid_point va vb k p - grid_point va vb k q) =
    (((p : ℚ) - q) / ((k : ℚ) + 1)) * (((p : ℚ) - q) / ((k : ℚ) + 1)) * normSq (vb - va) := by
  have hk : ((k : ℚ) + 1) ≠ 0 := by positivity
  unfold grid_point normSq
  simp only [add_x, add_y, add_z, sub_x, sub_y, sub_z, smul_x, smul_y, smul_z]
  field_simp
  ring

theorem grid_point_sub (va vb : Vec3) (k s t p : ℕ) (hst : s < t) :
    grid_point (grid_point va vb k s) (grid_point va vb k t) (t - s - 1) p =
    grid_point va vb k (s + p) := by
  have hk : ((k : ℚ) + 1) ≠ 0 := by positivity
  obtain ⟨m, hm⟩ : ∃ m, t - s - 1 = m := ⟨_, rfl⟩
  have hmq : (m : ℚ) + 1 = (t : ℚ) - s := by
    have hms : m + 1 + s = t := by omega
    have : ((m + 1 + s : ℕ) : ℚ) = (t : ℚ) := by exact_mod_cast congrArg (Nat.cast : ℕ → ℚ) hms
    push_cast at this
    linarith
  have hts0 : ((t : ℚ) - s) ≠ 0 := by
    have : (s : ℚ) < t := by exact_mod_cast hst
    linarith
  rw [hm]
  apply Vec3.ext3 <;>
    (unfold grid_point
     simp only [add_x, add_y, add_z, sub_x, sub_y, sub_z, smul_x, smul_y, smul_z]
     rw [show ((m : ℚ) + 1) = (t : ℚ) - s from hmq]
     push_cast
     field_simp
     ring)

theorem grid_point_rev (va vb : Vec3) (k p q : ℕ) (h : p + q = k + 1) :
    grid_point vb va k p = grid_point va vb k q := by
  have hk : ((k : ℚ) + 1) ≠ 0 := by positivity
  have hq : (q : ℚ) = (k : ℚ) + 1 - p := by
    have : ((p : ℚ)) + q = (k : ℚ) + 1 := by exact_mod_cast h
    linarith
  apply Vec3.ext3 <;>
    (unfold grid_point
     simp only [add_x, add_y, add_z, sub_x, sub_y, sub_z, smul_x, smul_y, smul_z]
     rw [hq]
     field_simp
     ring)

/-
State invariant of the subdivision: every registry entry describes the
evenly spaced interior vertices of its edge, and every live triangle
tracks exactly the squared geometric lengths of its edges.
-/

/-- Index of the j-th vertex of a sequence, before clamping to ℕ. -/
def seqIdx (vs : VerticesSequence) (j : ℕ) : ℤ :=
  (vs.start_index : ℤ) + (if vs.positive_order then 1 else -1) * j

/-- Number of interior vertices the geometry of a registered edge
requires. -/
def key_count (verts : List Vec3) (msq : ℚ) (key : ℕ × ℕ) : ℕ :=
  edge_count (normSq (verts.getD key.2 default - verts.getD key.1 default)) msq

/-- A well-formed registry entry: ordered key, both endpoints in range,
and for every interior slot a vertex in range sitting at its grid
position. -/
structure EntryGood (verts : List Vec3) (msq : ℚ) (key : ℕ × ℕ)
    (vs : VerticesSequence) : Prop where
  a_lt_b : key.1 < key.2
  a_lt : key.1 < verts.length
  b_lt : key.2 < verts.length
  idx_nonneg : ∀ j < key_count verts msq key, 0 ≤ seqIdx vs j
  idx_lt : ∀ j < key_count verts msq key, (seqIdx vs j).toNat < verts.length
  pos : ∀ j < key_count verts msq key,
    verts.getD (seqIdx vs j).toNat default =
      grid_point (verts.getD key.1 default) (verts.getD key.2 default)
        (key_count verts msq key) (j + 1)

/-- All registry entries are well formed. -/
def RegGood (verts : List Vec3) (msq : ℚ) (ed : EdgeDivides) : Prop :=
  ∀ e ∈ ed, EntryGood verts msq e.1 e.2

/-- A live triangle: indices in range and tracked squared lengths equal
to the squared geometric edge lengths. -/
def TriGood (verts : List Vec3) (tl : TriangleLengths) : Prop :=
  tl.indices.1 < verts.length ∧ tl.indices.2.1 < verts.length ∧
  tl.indices.2.2 < verts.length ∧
  tl.l.1 = normSq (verts.getD tl.indices.1 default - verts.getD tl.indices.2.1 default) ∧
  tl.l.2.1 = normSq (verts.getD tl.indices.2.1 default - verts.getD tl.indices.2.2 default) ∧
  tl.l.2.2 = normSq (verts.getD tl.indices.2.2 default - verts.getD tl.indices.1 default)

theorem getD_append_left (l tail : List Vec3) (i : ℕ) (hi : i < l.length) :
    (l ++ tail).getD i default = l.getD i default :=
  List.getD_append l tail default i hi

theorem key_count_append (verts tail : List Vec3) (msq : ℚ) (key : ℕ × ℕ)
    (ha : key.1 < verts.length) (hb : key.2 < verts.length) :
    key_count (verts ++ tail) msq key = key_count verts msq key := by
  unfold key_count
  rw [getD_append_left verts tail key.1 ha, getD_append_left verts tail key.2 hb]

theorem EntryGood_extend (verts tail : List Vec3) (msq : ℚ) (key : ℕ × ℕ)
    (vs : VerticesSequence) (h : EntryGood verts msq key vs) :
    EntryGood (verts ++ tail) msq key vs := by
  have hkc := key_count_append verts tail msq key h.a_lt h.b_lt
  refine ⟨h.a_lt_b, ?_, ?_, ?_, ?_, ?_⟩
  · calc key.1 < verts.length := h.a_lt
      _ ≤ (verts ++ tail).length := by simp
  · calc key.2 < verts.length := h.b_lt
      _ ≤ (verts ++ tail).length := by simp
  · intro j hj
    rw [hkc] at hj
    exact h.idx_nonneg j hj
  · intro j hj
    rw [hkc] at hj
    calc (seqIdx vs j).toNat < verts.length := h.idx_lt j hj
      _ ≤ (verts ++ tail).length := by simp
  · intro j hj
    rw [hkc] at hj
    rw [hkc, getD_append_left verts tail key.1 h.a_lt,
      getD_append_left verts tail key.2 h.b_lt,
      getD_append_left verts tail _ (h.idx_lt j hj)]
    exact h.pos j hj

theorem RegGood_extend (verts tail : List Vec3) (msq : ℚ) (ed : EdgeDivides)
    (h : RegGood verts msq ed) : RegGood (verts ++ tail) msq ed :=
  fun e he => EntryGood_extend verts tail msq e.1 e.2 (h e he)

theorem ed_find_mem (ed : EdgeDivides) (key : ℕ × ℕ) (vs : VerticesSequence)
    (h : ed_find ed key = some vs) : ((key, vs) : (ℕ × ℕ) × VerticesSequence) ∈ ed := by
  induction ed with
  | nil => simp [ed_find] at h
  | cons e rest ih =>
    unfold ed_find at h
    by_cases he : e.1 = key
    · rw [if_pos he] at h
      rw [Option.some.injEq] at h
      rw [← he, ← h]
      exact List.mem_cons_self _ _
    · rw [if_neg he] at h
      exact List.mem_cons_of_mem _ (ih h)

/-- Correctness of the lookup-or-create step: the returned sequence is a
well-formed entry for the key, the vertex list only grows, and the
registry stays well formed. -/
theorem ensure_seq_good (key : ℕ × ℕ) (msq : ℚ) (verts : List Vec3) (ed : EdgeDivides)
    (hreg : RegGood verts msq ed)
    (hab : key.1 < key.2) (ha : key.1 < verts.length) (hb : key.2 < verts.length)
    (hc1 : 1 ≤ key_count verts msq key) :
    (∃ tail, (ensure_seq key (key_count verts msq key) verts ed).2.1 = verts ++ tail) ∧
    RegGood (ensure_seq key (key_count verts msq key) verts ed).2.1 msq
      (ensure_seq key (key_count verts msq key) verts ed).2.2 ∧
    EntryGood (ensure_seq key (key_count verts msq key) verts ed).2.1 msq key
      (ensure_seq key (key_count verts msq key) verts ed).1 := by
  unfold ensure_seq
  rcases hf : ed_find ed key with _ | vs
  · -- fresh creation
    simp only
    set tail := (List.range (key_count verts msq key)).map (fun (i : ℕ) =>
      verts.getD key.1 default +
        smul (((i : ℚ) + 1) / ((key_count verts msq key : ℚ) + 1))
          (verts.getD key.2 default - verts.getD key.1 default)) with htail
    have hkc : key_count (verts ++ tail) msq key = key_count verts msq key :=
      key_count_append verts tail msq key ha hb
    have hlen : (verts ++ tail).length = verts.length + key_count verts msq key := by
      simp [htail]
    have hnew : EntryGood (verts ++ tail) msq key ⟨verts.length, true⟩ := by
      refine ⟨hab, ?_, ?_, ?_, ?_, ?_⟩
      · calc key.1 < verts.length := ha
          _ ≤ (verts ++ tail).length := by simp
      · calc key.2 < verts.length := hb
          _ ≤ (verts ++ tail).length := by simp
      · intro j _
        simp only [seqIdx, if_pos]
        omega
      · intro j hj
        rw [hkc] at hj
        have : seqIdx ⟨verts.length, true⟩ j = (verts.length : ℤ) + j := by
          simp [seqIdx]
        rw [this]
        have : ((verts.length : ℤ) + j).toNat = verts.length + j := by omega
        rw [this, hlen]
        omega
      · intro j hj
        rw [hkc] at hj
        have hsj : seqIdx ⟨verts.length, true⟩ j = (verts.length : ℤ) + j := by
          simp [seqIdx]
        have htn : ((verts.length : ℤ) + j).toNat = verts.length + j := by omega
        rw [hkc, hsj, htn]
        rw [getD_append_left verts tail key.1 ha, getD_append_left verts tail key.2 hb]
        have hget : (verts ++ tail).getD (verts.length + j) default = tail.getD j default := by
          rw [List.getD_append_right verts tail default (verts.length + j) (by omega)]
          congr 1
          omega
        rw [hget]
        have : tail.getD j default =
            verts.getD key.1 default +
              smul (((j : ℚ) + 1) / ((key_count verts msq key : ℚ) + 1))
                (verts.getD key.2 default - verts.getD key.1 default) := by
          rw [htail, List.getD_eq_getElem?_getD, List.getElem?_map,
            List.getElem?_range (by omega)]
          simp
        rw [this]
        unfold grid_point
        push_cast
        rfl
    refine ⟨⟨tail, rfl⟩, ?_, hnew⟩
    · intro e he
      rcases List.mem_cons.mp he with rfl | he2
      · exact hnew
      · exact (EntryGood_extend verts tail msq e.1 e.2 (hreg e he2))
  · -- found
    simp only
    exact ⟨⟨[], by simp⟩, hreg, hreg (key, vs) (ed_find_mem ed key vs hf)⟩

theorem mid_offset_bounds (count : ℕ) (ks : Bool) (l1 l2 : ℚ) (hc : 1 ≤ count) :
    0 ≤ mid_offset count ks l1 l2 ∧ mid_offset count ks l1 l2 < count ∧
    3 * (mid_offset count ks l1 l2 + 1) ≤ 2 * ((count : ℤ) + 1) ∧
    3 * ((count : ℤ) - mid_offset count ks l1 l2) ≤ 2 * ((count : ℤ) + 1) := by
  unfold mid_offset
  split
  · rename_i h
    have heven := h.1
    omega
  · omega

/-- Interior vertex count of a sub-span covering g of the c+1 segments of
an edge: g - 1. -/
theorem edge_count_span (lsq msq : ℚ) (c m g : ℕ) (h0 : 0 < msq)
    (hc : edge_count lsq msq = c) (hl : 0 ≤ lsq)
    (hg1 : 1 ≤ g) (hgc : g ≤ c + 1) (hm : m + 1 = g) :
    edge_count (lsq * (((g : ℚ) / ((c : ℚ) + 1)) * ((g : ℚ) / ((c : ℚ) + 1)))) msq = m := by
  have hb := edge_count_bounds lsq msq h0 hl
  rw [hc] at hb
  obtain ⟨hb1, hb2⟩ := hb
  have hD : (0 : ℚ) < (c : ℚ) + 1 := by positivity
  have hmq : (m : ℚ) + 1 = (g : ℚ) := by exact_mod_cast hm
  have hgcq : (g : ℚ) ≤ (c : ℚ) + 1 := by exact_mod_cast hgc
  have hg1q : (1 : ℚ) ≤ (g : ℚ) := by exact_mod_cast hg1
  apply edge_count_eq _ _ _ h0
  · -- m * m * msq ≤ lsq * (g/(c+1))^2
    rw [div_mul_div_comm]
    rw [← mul_div_assoc]
    rw [le_div_iff (by positivity)]
    -- need m*m*msq*((c+1)*(c+1)) ≤ lsq*(g*g)
    have hkey : (m : ℚ) * ((c : ℚ) + 1) ≤ (c : ℚ) * g := by nlinarith
    have hm0 : (0 : ℚ) ≤ (m : ℚ) * ((c : ℚ) + 1) := by positivity
    nlinarith [mul_le_mul hkey hkey hm0 (by positivity : (0:ℚ) ≤ (c : ℚ) * g)]
  · rw [div_mul_div_comm]
    rw [← mul_div_assoc]
    rw [div_lt_iff (by positivity)]
    rw [hmq]
    have hgg : (0 : ℚ) < (g : ℚ) * g := by positivity
    nlinarith [mul_lt_mul_of_pos_right hb2 hgg]

theorem RegGood.insert_new (verts : List Vec3) (msq : ℚ) (ed : EdgeDivides)
    (key : ℕ × ℕ) (vs : VerticesSequence)
    (hreg : RegGood verts msq ed) (hgood : EntryGood verts msq key vs) :
    RegGood verts msq (ed_insert_new ed key vs) := by
  unfold ed_insert_new
  split
  · intro e he
    rcases List.mem_cons.mp he with rfl | he2
    · exact hgood
    · exact hreg e he2
  · exact hreg

theorem normSq_sub_self (a : Vec3) : normSq (a - a) = 0 := by
  unfold normSq
  simp

theorem getD_ne_of_chord (verts : List Vec3) (i j : ℕ)
    (h : normSq (verts.getD i default - verts.getD j default) ≠ 0) : i ≠ j := by
  intro hij
  rw [hij] at h
  exact h (normSq_sub_self _)

/-- Unfolded shape of divide_core, with the intermediate values named:
used to drive the case analysis of the main invariant lemma. -/
theorem divide_core_eq (vi0 vi1 vi2 : ℕ) (lsq l1 l2 msq : ℚ)
    (vertices : List Vec3) (ed : EdgeDivides) :
    divide_core vi0 vi1 vi2 lsq l1 l2 msq vertices ed =
    (let key_swap : Bool := decide (vi0 > vi1)
     let key : ℕ × ℕ := if key_swap then (vi1, vi0) else (vi0, vi1)
     let c := edge_count lsq msq
     let es := ensure_seq key c vertices ed
     let vs := es.1
     let vertices2 := es.2.1
     let ed2 := es.2.2
     let index_offset : ℤ := mid_offset c key_swap l1 l2
     let sign : ℤ := if vs.positive_order then 1 else -1
     let new_index : ℕ := ((vs.start_index : ℤ) + sign * index_offset).toNat
     let new_len_sq := normSq (vertices2.getD vi2 default - vertices2.getD new_index default)
     let rt : ℚ := (1 + (index_offset : ℚ)) / ((c : ℚ) + 1)
     let lens := if key_swap then (lsq * ((1 - rt) * (1 - rt)), lsq * (rt * rt))
                 else (lsq * (rt * rt), lsq * ((1 - rt) * (1 - rt)))
     let ed3 :=
       if 0 < index_offset then
         (if key.1 > new_index then
           ed_insert_new ed2 (new_index, key.1)
             ⟨((new_index : ℤ) - sign).toNat, ! vs.positive_order⟩
          else ed_insert_new ed2 (key.1, new_index) vs)
       else ed2
     let ed4 :=
       if index_offset < (c : ℤ) - 1 then
         (if new_index > key.2 then
           ed_insert_new ed3 (key.2, new_index)
             ⟨((vs.start_index : ℤ) + sign * ((c : ℤ) - 1)).toNat, ! vs.positive_order⟩
          else ed_insert_new ed3 (new_index, key.2)
             ⟨((new_index : ℤ) + sign).toNat, vs.positive_order⟩)
       else ed3
     ((⟨(vi0, new_index, vi2), (lens.1, new_len_sq, l2)⟩,
       ⟨(new_index, vi1, vi2), (lens.2, l1, new_len_sq)⟩), vertices2, ed4)) := rfl

/-- A registered sub-span of an edge is a good entry: forward
orientation (the key runs in the direction of the parent edge). The
parent edge has endpoints A and B with c interior grid slots; the span
covers grid positions s to t and its sequence w enumerates positions
s+1, ..., t-1 in order. -/
theorem entry_good_of_span_fwd (verts2 : List Vec3) (msq : ℚ) (h0 : 0 < msq)
    (A B c s t : ℕ)
    (hcp : key_count verts2 msq (A, B) = c)
    (X Y : ℕ) (hXY : X < Y) (hXl : X < verts2.length) (hYl : Y < verts2.length)
    (hst : s < t) (htc : t ≤ c + 1)
    (hX : verts2.getD X default =
      grid_point (verts2.getD A default) (verts2.getD B default) c s)
    (hY : verts2.getD Y default =
      grid_point (verts2.getD A default) (verts2.getD B default) c t)
    (w : VerticesSequence)
    (hw : ∀ j < t - s - 1, 0 ≤ seqIdx w j ∧ (seqIdx w j).toNat < verts2.length ∧
      verts2.getD (seqIdx w j).toNat default =
        grid_point (verts2.getD A default) (verts2.getD B default) c (s + 1 + j)) :
    EntryGood verts2 msq (X, Y) w := by
  have hkc : key_count verts2 msq (X, Y) = t - s - 1 := by
    unfold key_count at hcp ⊢
    simp only at hcp ⊢
    rw [hX, hY, grid_point_chordSq]
    have hg : ((t : ℚ) - s) = (((t - s : ℕ) : ℚ)) := by
      push_cast [Nat.cast_sub (le_of_lt hst)]
      ring
    rw [hg, mul_comm]
    exact edge_count_span _ msq c (t - s - 1) (t - s) h0 hcp
      (normSq_nonneg _) (by omega) (by omega) (by omega)
  refine ⟨hXY, hXl, hYl, ?_, ?_, ?_⟩
  · intro j hj
    rw [hkc] at hj
    exact (hw j hj).1
  · intro j hj
    rw [hkc] at hj
    exact (hw j hj).2.1
  · intro j hj
    rw [hkc] at hj
    obtain ⟨_, _, hpos⟩ := hw j hj
    rw [hkc, hpos]
    simp only
    rw [hX, hY]
    rw [grid_point_sub _ _ c s t (j + 1) hst]
    congr 1
    omega

/-- A registered sub-span of an edge is a good entry: reversed
orientation (the key runs against the direction of the parent edge, with
X at grid position t and Y at grid position s).  The sequence w
enumerates positions t-1, t-2, ..., s+1. -/
theorem entry_good_of_span_rev (verts2 : List Vec3) (msq : ℚ) (h0 : 0 < msq)
    (A B c s t : ℕ)
    (hcp : key_count verts2 msq (A, B) = c)
    (X Y : ℕ) (hXY : X < Y) (hXl : X < verts2.length) (hYl : Y < verts2.length)
    (hst : s < t) (htc : t ≤ c + 1)
    (hX : verts2.getD X default =
      grid_point (verts2.getD A default) (verts2.getD B default) c t)
    (hY : verts2.getD Y default =
      grid_point (verts2.getD A default) (verts2.getD B default) c s)
    (w : VerticesSequence)
    (hw : ∀ j < t - s - 1, 0 ≤ seqIdx w j ∧ (seqIdx w j).toNat < verts2.length ∧
      verts2.getD (seqIdx w j).toNat default =
        grid_point (verts2.getD A default) (verts2.getD B default) c (t - 1 - j)) :
    EntryGood verts2 msq (X, Y) w := by
  have hkc : key_count verts2 msq (X, Y) = t - s - 1 := by
    unfold key_count at hcp ⊢
    simp only at hcp ⊢
    rw [hX, hY, grid_point_chordSq]
    have hg : ((s : ℚ) - t) / ((c : ℚ) + 1) * (((s : ℚ) - t) / ((c : ℚ) + 1)) *
          normSq (verts2.getD B default - verts2.getD A default) =
        normSq (verts2.getD B default - verts2.getD A default) *
          ((((t - s : ℕ) : ℚ)) / ((c : ℚ) + 1) * ((((t - s : ℕ) : ℚ)) / ((c : ℚ) + 1))) := by
      have hg2 : (((t - s : ℕ) : ℚ)) = ((t : ℚ) - s) := by
        push_cast [Nat.cast_sub (le_of_lt hst)]
        ring
      rw [hg2]
      ring
    rw [hg]
    exact edge_count_span _ msq c (t - s - 1) (t - s) h0 hcp
      (normSq_nonneg _) (by omega) (by omega) (by omega)
  refine ⟨hXY, hXl, hYl, ?_, ?_, ?_⟩
  · intro j hj
    rw [hkc] at hj
    exact (hw j hj).1
  · intro j hj
    rw [hkc] at hj
    exact (hw j hj).2.1
  · intro j hj
    rw [hkc] at hj
    obtain ⟨_, _, hpos⟩ := hw j hj
    rw [hkc, hpos]
    simp only
    rw [hX, hY]
    rw [grid_point_rev _ _ (t - s - 1) (j + 1) (t - s - 1 - j) (by omega)]
    rw [grid_point_sub _ _ c s t (t - s - 1 - j) hst]
    congr 1
    omega

theorem seqIdx_rev (vs : VerticesSequence) (base j : ℕ) (hj : j ≤ base)
    (hb : 0 ≤ seqIdx vs base) :
    seqIdx ⟨(seqIdx vs base).toNat, ! vs.positive_order⟩ j = seqIdx vs (base - j) := by
  cases hord : vs.positive_order <;>
    (simp only [seqIdx, hord] at * <;> simp at * <;> omega)

theorem seqIdx_fwd (vs : VerticesSequence) (base j : ℕ) (hb : 0 ≤ seqIdx vs base) :
    seqIdx ⟨(seqIdx vs base).toNat, vs.positive_order⟩ j = seqIdx vs (base + j) := by
  cases hord : vs.positive_order <;>
    (simp only [seqIdx, hord] at * <;> simp at * <;> omega)

theorem seqIdx_succ (vs : VerticesSequence) (sgn : ℤ)
    (hs : sgn = if vs.positive_order = true then 1 else -1) (a : ℕ) :
    seqIdx vs a + sgn = seqIdx vs (a + 1) := by
  cases hord : vs.positive_order <;>
    (simp only [seqIdx, hord, hs] at * <;> simp at * <;> omega)

theorem seqIdx_pred (vs : VerticesSequence) (sgn : ℤ)
    (hs : sgn = if vs.positive_order = true then 1 else -1) (a : ℕ) (ha : 1 ≤ a) :
    seqIdx vs a - sgn = seqIdx vs (a - 1) := by
  cases hord : vs.positive_order <;>
    (simp only [seqIdx, hord, hs] at * <;> simp at * <;> omega)

theorem seqIdx_mul_form (vs : VerticesSequence) (sgn : ℤ)
    (hs : sgn = if vs.positive_order = true then 1 else -1) (a : ℕ) :
    (vs.start_index : ℤ) + sgn * (a : ℤ) = seqIdx vs a := by
  cases hord : vs.positive_order <;>
    (simp only [seqIdx, hord, hs] at * <;> simp at * <;> omega)

set_option maxHeartbeats 1000000 in
/-- Correctness of one divide step on good state: the vertex list only
grows, the registry stays good, both children carry their exact geometric
squared edge lengths, and the new vertex is an interior grid point of the
split edge whose offset keeps both child fractions at most 2/3. -/
theorem divide_core_good (msq : ℚ) (h0 : 0 < msq) (verts : List Vec3) (ed : EdgeDivides)
    (vi0 vi1 vi2 : ℕ) (lsq l1 l2 : ℚ)
    (hreg : RegGood verts msq ed)
    (h0a : vi0 < verts.length) (h0b : vi1 < verts.length) (h0c : vi2 < verts.length)
    (hlsq : lsq = normSq (verts.getD vi0 default - verts.getD vi1 default))
    (hl1 : l1 = normSq (verts.getD vi1 default - verts.getD vi2 default))
    (hl2 : l2 = normSq (verts.getD vi2 default - verts.getD vi0 default))
    (hgt : msq < lsq) :
    (∃ tail, (divide_core vi0 vi1 vi2 lsq l1 l2 msq verts ed).2.1 = verts ++ tail) ∧
    RegGood (divide_core vi0 vi1 vi2 lsq l1 l2 msq verts ed).2.1 msq
      (divide_core vi0 vi1 vi2 lsq l1 l2 msq verts ed).2.2 ∧
    TriGood (divide_core vi0 vi1 vi2 lsq l1 l2 msq verts ed).2.1
      (divide_core vi0 vi1 vi2 lsq l1 l2 msq verts ed).1.1 ∧
    TriGood (divide_core vi0 vi1 vi2 lsq l1 l2 msq verts ed).2.1
      (divide_core vi0 vi1 vi2 lsq l1 l2 msq verts ed).1.2 ∧
    (∃ (c oo newi : ℕ),
      c = edge_count lsq msq ∧ oo < c ∧
      3 * (oo + 1) ≤ 2 * (c + 1) ∧ 3 * (c - oo) ≤ 2 * (c + 1) ∧
      (divide_core vi0 vi1 vi2 lsq l1 l2 msq verts ed).1.1.indices = (vi0, newi, vi2) ∧
      (divide_core vi0 vi1 vi2 lsq l1 l2 msq verts ed).1.2.indices = (newi, vi1, vi2) ∧
      (divide_core vi0 vi1 vi2 lsq l1 l2 msq verts ed).2.1.getD newi default =
        grid_point (verts.getD vi0 default) (verts.getD vi1 default) c (oo + 1)) := by
  have hlsq0 : (0 : ℚ) < lsq := lt_trans h0 hgt
  have hne : vi0 ≠ vi1 := getD_ne_of_chord verts vi0 vi1 (by rw [← hlsq]; exact ne_of_gt hlsq0)
  by_cases hsw : vi0 > vi1
  · -- vi1 < vi0, canonical key (vi1, vi0)
    have hAB : vi1 < vi0 := hsw
    set c := edge_count lsq msq with hc
    have hc1 : 1 ≤ c := edge_count_pos lsq msq h0 hgt
    have hkc : key_count verts msq (vi1, vi0) = c := by
      unfold key_count
      simp only
      rw [← hlsq]
    have hesg := ensure_seq_good (vi1, vi0) msq verts ed hreg hAB h0b h0a (by rw [hkc]; exact hc1)
    rw [hkc] at hesg
    obtain ⟨⟨tail, htail⟩, hreg2, hent⟩ := hesg
    rw [divide_core_eq]
    simp only [hsw, decide_True, Bool.true_eq_false, if_true, ← hc]
    set es := ensure_seq (vi1, vi0) c verts ed with hes
    set vs := es.1 with hvs
    set verts2 := es.2.1 with hverts2
    set ed2 := es.2.2 with hed2
    obtain ⟨hmo0, hmoc, hmid1, hmid2⟩ := mid_offset_bounds c true l1 l2 hc1
    set offZ := mid_offset c true l1 l2 with hoZ0
    obtain ⟨offN, hoZ, hoffc⟩ : ∃ offN : ℕ, offZ = (offN : ℤ) ∧ offN < c :=
      ⟨offZ.toNat, by omega, by omega⟩
    set sgn : ℤ := if vs.positive_order = true then 1 else -1 with hsgn
    have hlen2 : verts.length ≤ verts2.length := by rw [htail]; simp
    have h2a : vi0 < verts2.length := by omega
    have h2b : vi1 < verts2.length := by omega
    have h2c : vi2 < verts2.length := by omega
    have hv0 : verts2.getD vi0 default = verts.getD vi0 default := by
      rw [htail]; exact getD_append_left _ _ _ h0a
    have hv1 : verts2.getD vi1 default = verts.getD vi1 default := by
      rw [htail]; exact getD_append_left _ _ _ h0b
    have hv2 : verts2.getD vi2 default = verts.getD vi2 default := by
      rw [htail]; exact getD_append_left _ _ _ h0c
    have hc2 : key_count verts2 msq (vi1, vi0) = c := by
      unfold key_count
      simp only
      rw [hv0, hv1, ← hkc]
      rfl
    have hseq_off : seqIdx vs offN = (vs.start_index : ℤ) + sgn * offZ := by
      rw [seqIdx, hoZ, hsgn]
    have hnn : 0 ≤ seqIdx vs offN := hent.idx_nonneg offN (by rw [hc2]; exact hoffc)
    have hltN : (seqIdx vs offN).toNat < verts2.length :=
      hent.idx_lt offN (by rw [hc2]; exact hoffc)
    have hnewi_eq : ((vs.start_index : ℤ) + sgn * offZ).toNat = (seqIdx vs offN).toNat := by
      rw [hseq_off]
    have hposN : verts2.getD (seqIdx vs offN).toNat default =
        grid_point (verts2.getD vi1 default) (verts2.getD vi0 default) c (offN + 1) := by
      have h := hent.pos offN (by rw [hc2]; exact hoffc)
      rw [hc2] at h
      exact h
    set newi := ((vs.start_index : ℤ) + sgn * offZ).toNat with hnewi
    have hnewi_lt : newi < verts2.length := by
      have h := hltN
      rw [← hnewi_eq] at h
      exact h
    have hkey0 : (newi : ℤ) = seqIdx vs offN := by
      have h1 : newi = (seqIdx vs offN).toNat := hnewi_eq
      rw [h1]
      exact Int.toNat_of_nonneg hnn
    have hposn2 : verts2.getD newi default =
        grid_point (verts2.getD vi1 default) (verts2.getD vi0 default) c (offN + 1) := by
      have h := hposN
      rw [← hnewi_eq] at h
      exact h
    have htop2 : verts2.getD vi0 default =
        grid_point (verts2.getD vi1 default) (verts2.getD vi0 default) c (c + 1) :=
      (grid_point_top _ _ _).symm
    have hLSQ2 : normSq (verts2.getD vi0 default - verts2.getD vi1 default) = lsq := by
      rw [hv0, hv1, hlsq]
    have hcne : ((c : ℚ) + 1) ≠ 0 := by positivity
    have hoq : ((offZ : ℚ)) = (offN : ℚ) := by
      rw [hoZ]
      push_cast
      ring
    have hchord1 : normSq (verts2.getD vi0 default - verts2.getD newi default) =
        lsq * ((1 - (1 + (offZ : ℚ)) / ((c : ℚ) + 1)) *
          (1 - (1 + (offZ : ℚ)) / ((c : ℚ) + 1))) := by
      have hsub : verts2.getD vi0 default - verts2.getD newi default =
          grid_point (verts2.getD vi1 default) (verts2.getD vi0 default) c (c + 1) -
          grid_point (verts2.getD vi1 default) (verts2.getD vi0 default) c (offN + 1) := by
        rw [grid_point_top, hposn2]
      rw [hsub, grid_point_chordSq, hLSQ2, hoq]
      push_cast
      field_simp
      ring
    have hchord2 : normSq (verts2.getD newi default - verts2.getD vi1 default) =
        lsq * ((1 + (offZ : ℚ)) / ((c : ℚ) + 1) * ((1 + (offZ : ℚ)) / ((c : ℚ) + 1))) := by
      have hsub : verts2.getD newi default - verts2.getD vi1 default =
          grid_point (verts2.getD vi1 default) (verts2.getD vi0 default) c (offN + 1) -
          grid_point (verts2.getD vi1 default) (verts2.getD vi0 default) c 0 := by
        rw [grid_point_zero, hposn2]
      rw [hsub, grid_point_chordSq, hLSQ2, hoq]
      push_cast
      field_simp
      ring
    have hne0 : vi0 ≠ newi := by
      apply getD_ne_of_chord verts2 vi0 newi
      rw [hchord1]
      have hlt2 : (1 + (offZ : ℚ)) / ((c : ℚ) + 1) < 1 := by
        rw [hoq]
        rw [div_lt_one (by positivity)]
        have h : (offN : ℚ) < c := by exact_mod_cast hoffc
        linarith
      have hpos1 : (0 : ℚ) < 1 - (1 + (offZ : ℚ)) / ((c : ℚ) + 1) := by linarith
      exact ne_of_gt (mul_pos hlsq0 (mul_pos hpos1 hpos1))
    have hnei1 : newi ≠ vi1 := by
      apply getD_ne_of_chord verts2 newi vi1
      rw [hchord2]
      have hpos1 : (0 : ℚ) < (1 + (offZ : ℚ)) / ((c : ℚ) + 1) := by
        rw [hoq]
        positivity
      exact ne_of_gt (mul_pos hlsq0 (mul_pos hpos1 hpos1))
    have hE1f : vi1 < newi → EntryGood verts2 msq (vi1, newi) vs := by
      intro hlt1
      apply entry_good_of_span_fwd verts2 msq h0 vi1 vi0 c 0 (offN + 1) hc2 vi1 newi hlt1
        h2b hnewi_lt (by omega) (by omega) ((grid_point_zero _ _ _).symm) hposn2 vs
      intro j hj
      have hjc : j < key_count verts2 msq (vi1, vi0) := by rw [hc2]; omega
      refine ⟨hent.idx_nonneg j hjc, hent.idx_lt j hjc, ?_⟩
      have h := hent.pos j hjc
      rw [hc2] at h
      rw [h]
      congr 1
      omega
    have hE1r : newi < vi1 → 0 < offZ → EntryGood verts2 msq (newi, vi1)
        ⟨((newi : ℤ) - sgn).toNat, ! vs.positive_order⟩ := by
      intro hlt1 hpos1
      have hoff1 : 1 ≤ offN := by omega
      have hstart : ((newi : ℤ) - sgn) = seqIdx vs (offN - 1) := by
        rw [hkey0]
        exact seqIdx_pred vs sgn hsgn offN hoff1
      have hwEq : (⟨((newi : ℤ) - sgn).toNat, ! vs.positive_order⟩ : VerticesSequence) =
          ⟨(seqIdx vs (offN - 1)).toNat, ! vs.positive_order⟩ := by rw [hstart]
      rw [hwEq]
      apply entry_good_of_span_rev verts2 msq h0 vi1 vi0 c 0 (offN + 1) hc2 newi vi1 hlt1
        hnewi_lt h2b (by omega) (by omega) hposn2 ((grid_point_zero _ _ _).symm)
      intro j hj
      have hb1 : 0 ≤ seqIdx vs (offN - 1) := hent.idx_nonneg _ (by rw [hc2]; omega)
      rw [seqIdx_rev vs (offN - 1) j (by omega) hb1]
      have hjc : offN - 1 - j < key_count verts2 msq (vi1, vi0) := by rw [hc2]; omega
      refine ⟨hent.idx_nonneg _ hjc, hent.idx_lt _ hjc, ?_⟩
      have h := hent.pos _ hjc
      rw [hc2] at h
      rw [h]
      congr 1
      omega
    have hE2f : newi < vi0 → EntryGood verts2 msq (newi, vi0)
        ⟨((newi : ℤ) + sgn).toNat, vs.positive_order⟩ := by
      intro hlt1
      have hstart : ((newi : ℤ) + sgn) = seqIdx vs (offN + 1) := by
        rw [hkey0]
        exact seqIdx_succ vs sgn hsgn offN
      have hwEq : (⟨((newi : ℤ) + sgn).toNat, vs.positive_order⟩ : VerticesSequence) =
          ⟨(seqIdx vs (offN + 1)).toNat, vs.positive_order⟩ := by rw [hstart]
      rw [hwEq]
      apply entry_good_of_span_fwd verts2 msq h0 vi1 vi0 c (offN + 1) (c + 1) hc2 newi vi0
        hlt1 hnewi_lt h2a (by omega) (by omega) hposn2 htop2
      intro j hj
      have hb1 : 0 ≤ seqIdx vs (offN + 1) := hent.idx_nonneg _ (by rw [hc2]; omega)
      rw [seqIdx_fwd vs (offN + 1) j hb1]
      have hjc : offN + 1 + j < key_count verts2 msq (vi1, vi0) := by rw [hc2]; omega
      refine ⟨hent.idx_nonneg _ hjc, hent.idx_lt _ hjc, ?_⟩
      have h := hent.pos _ hjc
      rw [hc2] at h
      rw [h]
      congr 1
      omega
    have hE2r : vi0 < newi → EntryGood verts2 msq (vi0, newi)
        ⟨((vs.start_index : ℤ) + sgn * ((c : ℤ) - 1)).toNat, ! vs.positive_order⟩ := by
      intro hlt1
      have hcast : ((c : ℤ) - 1) = ((c - 1 : ℕ) : ℤ) := by omega
      have hstart : ((vs.start_index : ℤ) + sgn * ((c : ℤ) - 1)) = seqIdx vs (c - 1) := by
        rw [hcast]
        exact seqIdx_mul_form vs sgn hsgn (c - 1)
      have hwEq : (⟨((vs.start_index : ℤ) + sgn * ((c : ℤ) - 1)).toNat,
          ! vs.positive_order⟩ : VerticesSequence) =
          ⟨(seqIdx vs (c - 1)).toNat, ! vs.positive_order⟩ := by rw [hstart]
      rw [hwEq]
      apply entry_good_of_span_rev verts2 msq h0 vi1 vi0 c (offN + 1) (c + 1) hc2 vi0 newi
        hlt1 h2a hnewi_lt (by omega) (by omega) htop2 hposn2
      intro j hj
      have hb1 : 0 ≤ seqIdx vs (c - 1) := hent.idx_nonneg _ (by rw [hc2]; omega)
      rw [seqIdx_rev vs (c - 1) j (by omega) hb1]
      have hjc : c - 1 - j < key_count verts2 msq (vi1, vi0) := by rw [hc2]; omega
      refine ⟨hent.idx_nonneg _ hjc, hent.idx_lt _ hjc, ?_⟩
      have h := hent.pos _ hjc
      rw [hc2] at h
      rw [h]
      congr 1
      omega
    have hreg3 : RegGood verts2 msq (if 0 < offZ then
        (if vi1 > newi then ed_insert_new ed2 (newi, vi1)
            ⟨((newi : ℤ) - sgn).toNat, ! vs.positive_order⟩
         else ed_insert_new ed2 (vi1, newi) vs)
        else ed2) := by
      by_cases h1 : 0 < offZ
      · rw [if_pos h1]
        by_cases h2 : vi1 > newi
        · rw [if_pos h2]
          exact RegGood.insert_new _ _ _ _ _ hreg2 (hE1r h2 h1)
        · rw [if_neg h2]
          exact RegGood.insert_new _ _ _ _ _ hreg2 (hE1f (by omega))
      · rw [if_neg h1]
        exact hreg2
    have hposn_out : verts2.getD newi default =
        grid_point (verts.getD vi0 default) (verts.getD vi1 default) c ((c - 1 - offN) + 1) := by
      rw [hposn2, grid_point_rev _ _ c (offN + 1) (c - offN) (by omega), hv0, hv1]
      congr 1
      omega
    refine ⟨⟨tail, htail⟩, ?_, ?_, ?_, ?_⟩
    · by_cases h3 : offZ < (c : ℤ) - 1
      · rw [if_pos h3]
        by_cases h4 : newi > vi0
        · rw [if_pos h4]
          exact RegGood.insert_new _ _ _ _ _ hreg3 (hE2r h4)
        · rw [if_neg h4]
          exact RegGood.insert_new _ _ _ _ _ hreg3 (hE2f (by omega))
      · rw [if_neg h3]
        exact hreg3
    · refine ⟨h2a, hnewi_lt, h2c, hchord1.symm, ?_, ?_⟩
      · exact (normSq_neg_sub _ _).symm
      · rw [hl2, hv0, hv2]
    · refine ⟨hnewi_lt, h2b, h2c, hchord2.symm, ?_, ?_⟩
      · rw [hl1, hv1, hv2]
      · rfl
    · exact ⟨c, c - 1 - offN, newi, hc, by omega, by omega, by omega, rfl, rfl, hposn_out⟩
  · -- vi0 < vi1, canonical key (vi0, vi1)
    have hAB : vi0 < vi1 := by omega
    set c := edge_count lsq msq with hc
    have hc1 : 1 ≤ c := edge_count_pos lsq msq h0 hgt
    have hkc : key_count verts msq (vi0, vi1) = c := by
      unfold key_count
      rw [hc, hlsq]
      congr 1
      exact (normSq_neg_sub _ _)
    have hesg := ensure_seq_good (vi0, vi1) msq verts ed hreg hAB h0a h0b (by rw [hkc]; exact hc1)
    rw [hkc] at hesg
    obtain ⟨⟨tail, htail⟩, hreg2, hent⟩ := hesg
    rw [divide_core_eq]
    simp only [hsw, decide_False, Bool.false_eq_true, if_false, ← hc]
    set es := ensure_seq (vi0, vi1) c verts ed with hes
    set vs := es.1 with hvs
    set verts2 := es.2.1 with hverts2
    set ed2 := es.2.2 with hed2
    obtain ⟨hmo0, hmoc, hmid1, hmid2⟩ := mid_offset_bounds c false l1 l2 hc1
    set offZ := mid_offset c false l1 l2 with hoZ0
    obtain ⟨offN, hoZ, hoffc⟩ : ∃ offN : ℕ, offZ = (offN : ℤ) ∧ offN < c :=
      ⟨offZ.toNat, by omega, by omega⟩
    set sgn : ℤ := if vs.positive_order = true then 1 else -1 with hsgn
    have hlen2 : verts.length ≤ verts2.length := by rw [htail]; simp
    have h2a : vi0 < verts2.length := by omega
    have h2b : vi1 < verts2.length := by omega
    have h2c : vi2 < verts2.length := by omega
    have hv0 : verts2.getD vi0 default = verts.getD vi0 default := by
      rw [htail]; exact getD_append_left _ _ _ h0a
    have hv1 : verts2.getD vi1 default = verts.getD vi1 default := by
      rw [htail]; exact getD_append_left _ _ _ h0b
    have hv2 : verts2.getD vi2 default = verts.getD vi2 default := by
      rw [htail]; exact getD_append_left _ _ _ h0c
    have hc2 : key_count verts2 msq (vi0, vi1) = c := by
      unfold key_count
      simp only
      rw [hv0, hv1, ← hkc]
      rfl
    have hseq_off : seqIdx vs offN = (vs.start_index : ℤ) + sgn * offZ := by
      rw [seqIdx, hoZ, hsgn]
    have hnn : 0 ≤ seqIdx vs offN := hent.idx_nonneg offN (by rw [hc2]; exact hoffc)
    have hltN : (seqIdx vs offN).toNat < verts2.length :=
      hent.idx_lt offN (by rw [hc2]; exact hoffc)
    have hnewi_eq : ((vs.start_index : ℤ) + sgn * offZ).toNat = (seqIdx vs offN).toNat := by
      rw [hseq_off]
    have hposN : verts2.getD (seqIdx vs offN).toNat default =
        grid_point (verts2.getD vi0 default) (verts2.getD vi1 default) c (offN + 1) := by
      have h := hent.pos offN (by rw [hc2]; exact hoffc)
      rw [hc2] at h
      exact h
    set newi := ((vs.start_index : ℤ) + sgn * offZ).toNat with hnewi
    have hnewi_lt : newi < verts2.length := by
      have h := hltN
      rw [← hnewi_eq] at h
      exact h
    have hkey0 : (newi : ℤ) = seqIdx vs offN := by
      have h1 : newi = (seqIdx vs offN).toNat := hnewi_eq
      rw [h1]
      exact Int.toNat_of_nonneg hnn
    have hposn2 : verts2.getD newi default =
        grid_point (verts2.getD vi0 default) (verts2.getD vi1 default) c (offN + 1) := by
      have h := hposN
      rw [← hnewi_eq] at h
      exact h
    have hposn : verts2.getD newi default =
        grid_point (verts.getD vi0 default) (verts.getD vi1 default) c (offN + 1) := by
      rw [hposn2, hv0, hv1]
    have htop2 : verts2.getD vi1 default =
        grid_point (verts2.getD vi0 default) (verts2.getD vi1 default) c (c + 1) :=
      (grid_point_top _ _ _).symm
    have hLSQ2 : normSq (verts2.getD vi1 default - verts2.getD vi0 default) = lsq := by
      rw [hv0, hv1, hlsq]
      exact (normSq_neg_sub _ _).symm
    have hcne : ((c : ℚ) + 1) ≠ 0 := by positivity
    have hoq : ((offZ : ℚ)) = (offN : ℚ) := by
      rw [hoZ]
      push_cast
      ring
    have hchord1 : normSq (verts2.getD vi0 default - verts2.getD newi default) =
        lsq * ((1 + (offZ : ℚ)) / ((c : ℚ) + 1) * ((1 + (offZ : ℚ)) / ((c : ℚ) + 1))) := by
      have hsub : verts2.getD vi0 default - verts2.getD newi default =
          grid_point (verts2.getD vi0 default) (verts2.getD vi1 default) c 0 -
          grid_point (verts2.getD vi0 default) (verts2.getD vi1 default) c (offN + 1) := by
        rw [grid_point_zero, hposn2]
      rw [hsub, grid_point_chordSq, hLSQ2, hoq]
      push_cast
      field_simp
      ring
    have hchord2 : normSq (verts2.getD newi default - verts2.getD vi1 default) =
        lsq * ((1 - (1 + (offZ : ℚ)) / ((c : ℚ) + 1)) *
          (1 - (1 + (offZ : ℚ)) / ((c : ℚ) + 1))) := by
      have hsub : verts2.getD newi default - verts2.getD vi1 default =
          grid_point (verts2.getD vi0 default) (verts2.getD vi1 default) c (offN + 1) -
          grid_point (verts2.getD vi0 default) (verts2.getD vi1 default) c (c + 1) := by
        rw [grid_point_top, hposn2]
      rw [hsub, grid_point_chordSq, hLSQ2, hoq]
      push_cast
      field_simp
      ring
    have hne0 : vi0 ≠ newi := by
      apply getD_ne_of_chord verts2 vi0 newi
      rw [hchord1]
      have hpos1 : (0 : ℚ) < (1 + (offZ : ℚ)) / ((c : ℚ) + 1) := by
        rw [hoq]
        positivity
      exact ne_of_gt (mul_pos hlsq0 (mul_pos hpos1 hpos1))
    have hnei1 : newi ≠ vi1 := by
      apply getD_ne_of_chord verts2 newi vi1
      rw [hchord2]
      have hlt2 : (1 + (offZ : ℚ)) / ((c : ℚ) + 1) < 1 := by
        rw [hoq]
        rw [div_lt_one (by positivity)]
        have h : (offN : ℚ) < c := by exact_mod_cast hoffc
        linarith
      have hpos1 : (0 : ℚ) < 1 - (1 + (offZ : ℚ)) / ((c : ℚ) + 1) := by linarith
      exact ne_of_gt (mul_pos hlsq0 (mul_pos hpos1 hpos1))
    have hE1f : vi0 < newi → EntryGood verts2 msq (vi0, newi) vs := by
      intro hlt1
      apply entry_good_of_span_fwd verts2 msq h0 vi0 vi1 c 0 (offN + 1) hc2 vi0 newi hlt1
        h2a hnewi_lt (by omega) (by omega) ((grid_point_zero _ _ _).symm) hposn2 vs
      intro j hj
      have hjc : j < key_count verts2 msq (vi0, vi1) := by rw [hc2]; omega
      refine ⟨hent.idx_nonneg j hjc, hent.idx_lt j hjc, ?_⟩
      have h := hent.pos j hjc
      rw [hc2] at h
      rw [h]
      congr 1
      omega
    have hE1r : newi < vi0 → 0 < offZ → EntryGood verts2 msq (newi, vi0)
        ⟨((newi : ℤ) - sgn).toNat, ! vs.positive_order⟩ := by
      intro hlt1 hpos1
      have hoff1 : 1 ≤ offN := by omega
      have hstart : ((newi : ℤ) - sgn) = seqIdx vs (offN - 1) := by
        rw [hkey0]
        exact seqIdx_pred vs sgn hsgn offN hoff1
      have hwEq : (⟨((newi : ℤ) - sgn).toNat, ! vs.positive_order⟩ : VerticesSequence) =
          ⟨(seqIdx vs (offN - 1)).toNat, ! vs.positive_order⟩ := by rw [hstart]
      rw [hwEq]
      apply entry_good_of_span_rev verts2 msq h0 vi0 vi1 c 0 (offN + 1) hc2 newi vi0 hlt1
        hnewi_lt h2a (by omega) (by omega) hposn2 ((grid_point_zero _ _ _).symm)
      intro j hj
      have hb1 : 0 ≤ seqIdx vs (offN - 1) := hent.idx_nonneg _ (by rw [hc2]; omega)
      rw [seqIdx_rev vs (offN - 1) j (by omega) hb1]
      have hjc : offN - 1 - j < key_count verts2 msq (vi0, vi1) := by rw [hc2]; omega
      refine ⟨hent.idx_nonneg _ hjc, hent.idx_lt _ hjc, ?_⟩
      have h := hent.pos _ hjc
      rw [hc2] at h
      rw [h]
      congr 1
      omega
    have hE2f : newi < vi1 → EntryGood verts2 msq (newi, vi1)
        ⟨((newi : ℤ) + sgn).toNat, vs.positive_order⟩ := by
      intro hlt1
      have hstart : ((newi : ℤ) + sgn) = seqIdx vs (offN + 1) := by
        rw [hkey0]
        exact seqIdx_succ vs sgn hsgn offN
      have hwEq : (⟨((newi : ℤ) + sgn).toNat, vs.positive_order⟩ : VerticesSequence) =
          ⟨(seqIdx vs (offN + 1)).toNat, vs.positive_order⟩ := by rw [hstart]
      rw [hwEq]
      apply entry_good_of_span_fwd verts2 msq h0 vi0 vi1 c (offN + 1) (c + 1) hc2 newi vi1
        hlt1 hnewi_lt h2b (by omega) (by omega) hposn2 htop2
      intro j hj
      have hb1 : 0 ≤ seqIdx vs (offN + 1) := hent.idx_nonneg _ (by rw [hc2]; omega)
      rw [seqIdx_fwd vs (offN + 1) j hb1]
      have hjc : offN + 1 + j < key_count verts2 msq (vi0, vi1) := by rw [hc2]; omega
      refine ⟨hent.idx_nonneg _ hjc, hent.idx_lt _ hjc, ?_⟩
      have h := hent.pos _ hjc
      rw [hc2] at h
      rw [h]
      congr 1
      omega
    have hE2r : vi1 < newi → EntryGood verts2 msq (vi1, newi)
        ⟨((vs.start_index : ℤ) + sgn * ((c : ℤ) - 1)).toNat, ! vs.positive_order⟩ := by
      intro hlt1
      have hcast : ((c : ℤ) - 1) = ((c - 1 : ℕ) : ℤ) := by omega
      have hstart : ((vs.start_index : ℤ) + sgn * ((c : ℤ) - 1)) = seqIdx vs (c - 1) := by
        rw [hcast]
        exact seqIdx_mul_form vs sgn hsgn (c - 1)
      have hwEq : (⟨((vs.start_index : ℤ) + sgn * ((c : ℤ) - 1)).toNat,
          ! vs.positive_order⟩ : VerticesSequence) =
          ⟨(seqIdx vs (c - 1)).toNat, ! vs.positive_order⟩ := by rw [hstart]
      rw [hwEq]
      apply entry_good_of_span_rev verts2 msq h0 vi0 vi1 c (offN + 1) (c + 1) hc2 vi1 newi
        hlt1 h2b hnewi_lt (by omega) (by omega) htop2 hposn2
      intro j hj
      have hb1 : 0 ≤ seqIdx vs (c - 1) := hent.idx_nonneg _ (by rw [hc2]; omega)
      rw [seqIdx_rev vs (c - 1) j (by omega) hb1]
      have hjc : c - 1 - j < key_count verts2 msq (vi0, vi1) := by rw [hc2]; omega
      refine ⟨hent.idx_nonneg _ hjc, hent.idx_lt _ hjc, ?_⟩
      have h := hent.pos _ hjc
      rw [hc2] at h
      rw [h]
      congr 1
      omega
    have hreg3 : RegGood verts2 msq (if 0 < offZ then
        (if vi0 > newi then ed_insert_new ed2 (newi, vi0)
            ⟨((newi : ℤ) - sgn).toNat, ! vs.positive_order⟩
         else ed_insert_new ed2 (vi0, newi) vs)
        else ed2) := by
      by_cases h1 : 0 < offZ
      · rw [if_pos h1]
        by_cases h2 : vi0 > newi
        · rw [if_pos h2]
          exact RegGood.insert_new _ _ _ _ _ hreg2 (hE1r h2 h1)
        · rw [if_neg h2]
          exact RegGood.insert_new _ _ _ _ _ hreg2 (hE1f (by omega))
      · rw [if_neg h1]
        exact hreg2
    refine ⟨⟨tail, htail⟩, ?_, ?_, ?_, ?_⟩
    · -- registry stays good through both registrations
      by_cases h3 : offZ < (c : ℤ) - 1
      · rw [if_pos h3]
        by_cases h4 : newi > vi1
        · rw [if_pos h4]
          exact RegGood.insert_new _ _ _ _ _ hreg3 (hE2r h4)
        · rw [if_neg h4]
          exact RegGood.insert_new _ _ _ _ _ hreg3 (hE2f (by omega))
      · rw [if_neg h3]
        exact hreg3
    · -- first child triangle
      refine ⟨h2a, hnewi_lt, h2c, hchord1.symm, ?_, ?_⟩
      · exact (normSq_neg_sub _ _).symm
      · rw [hl2, hv0, hv2]
    · -- second child triangle
      refine ⟨hnewi_lt, h2b, h2c, hchord2.symm, ?_, ?_⟩
      · rw [hl1, hv1, hv2]
      · rfl
    · exact ⟨c, offN, newi, hc, hoffc, by omega, by omega, rfl, rfl, hposn⟩


/-- A divide index of none means every tracked squared length is within
the bound. -/
theorem get_divide_index_none (l : ℚ × ℚ × ℚ) (msq : ℚ)
    (h : get_divide_index l msq = none) :
    l.1 ≤ msq ∧ l.2.1 ≤ msq ∧ l.2.2 ≤ msq := by
  unfold get_divide_index at h
  split_ifs at h with h1 h2 h3 h4 h5 <;> simp at h
  · exact ⟨le_of_not_lt h2, by linarith [h1.1, le_of_not_lt h2],
      by linarith [h1.2, le_of_not_lt h2]⟩
  · have hm1 : l.2.1 ≤ msq := le_of_not_lt h4
    have hm2 : l.2.2 ≤ msq := by linarith
    refine ⟨?_, hm1, hm2⟩
    by_cases hx : l.1 > l.2.1
    · push_neg at h1
      linarith [h1 hx]
    · linarith [le_of_not_lt hx]
  · have hm2 : l.2.2 ≤ msq := le_of_not_lt h5
    have hm1 : l.2.1 ≤ msq := by linarith [le_of_not_lt h3]
    refine ⟨?_, hm1, hm2⟩
    by_cases hx : l.1 > l.2.1
    · push_neg at h1
      linarith [h1 hx]
    · linarith [le_of_not_lt hx]

/-- A divide index points at an edge exceeding the bound, and is one of
0, 1, 2. -/
theorem get_divide_index_some (l : ℚ × ℚ × ℚ) (msq : ℚ) (di : ℕ)
    (h : get_divide_index l msq = some di) :
    di < 3 ∧ msq < get3 l di := by
  unfold get_divide_index at h
  split_ifs at h with h1 h2 h3 h4 h5 <;> simp at h <;> subst h <;>
    exact ⟨by norm_num, by simpa [get3] using by assumption⟩

theorem abs_sum_nonneg (v : Vec3) : 0 ≤ abs_sum v := by
  unfold abs_sum
  positivity

theorem normSq_le_abs_sum_sq (v : Vec3) : normSq v ≤ abs_sum v * abs_sum v := by
  unfold normSq abs_sum
  have hx : v.x * v.x = |v.x| * |v.x| := (abs_mul_abs_self v.x).symm
  have hy : v.y * v.y = |v.y| * |v.y| := (abs_mul_abs_self v.y).symm
  have hz : v.z * v.z = |v.z| * |v.z| := (abs_mul_abs_self v.z).symm
  nlinarith [abs_nonneg v.x, abs_nonneg v.y, abs_nonneg v.z,
    mul_nonneg (abs_nonneg v.x) (abs_nonneg v.y),
    mul_nonneg (abs_nonneg v.y) (abs_nonneg v.z),
    mul_nonneg (abs_nonneg v.x) (abs_nonneg v.z)]

/-- Reduction shapes of the index selectors at the three literal
indices. -/
theorem get3_zero (v : ℚ × ℚ × ℚ) : get3 v 0 = v.1 := rfl

theorem get3_one (v : ℚ × ℚ × ℚ) : get3 v 1 = v.2.1 := rfl

theorem get3_two (v : ℚ × ℚ × ℚ) : get3 v 2 = v.2.2 := rfl

theorem getV3_zero (d : Vec3 × Vec3 × Vec3) : getV3 d 0 = d.1 := rfl

theorem getV3_one (d : Vec3 × Vec3 × Vec3) : getV3 d 1 = d.2.1 := rfl

theorem getV3_two (d : Vec3 × Vec3 × Vec3) : getV3 d 2 = d.2.2 := rfl

/-- The dividability cascade on a descending triple: a false result
bounds all three squared norms. -/
theorem is_div_leaf (mx msq : ℚ) (hm : msq = mx * mx) (u v w : Vec3)
    (h1 : abs_sum v ≤ abs_sum u) (h2 : abs_sum w ≤ abs_sum v)
    (hh : (if abs_sum u ≤ mx then false
           else if normSq u ≤ msq then
             (if abs_sum v ≤ mx then false
              else if normSq v ≤ msq then
                (if abs_sum w ≤ mx then false
                 else if normSq w ≤ msq then false else true)
              else true)
           else true) = false) :
    normSq u ≤ msq ∧ normSq v ≤ msq ∧ normSq w ≤ msq := by
  have bnd : ∀ y : Vec3, abs_sum y ≤ mx → normSq y ≤ msq := by
    intro y hy
    have hb1 : normSq y ≤ abs_sum y * abs_sum y := normSq_le_abs_sum_sq y
    have hb2 : 0 ≤ abs_sum y := abs_sum_nonneg y
    nlinarith
  split_ifs at hh with a1 a2 a3 a4 a5 a6 <;> simp at hh <;>
    refine ⟨?_, ?_, ?_⟩ <;>
    first
      | assumption
      | (apply bnd; linarith)

/-- When the cheap dividability test fails, all three edges are within
the squared bound: the L1 pre-filter dominates the L2 norm. -/
theorem is_dividable_false_bounds (data : Vec3 × Vec3 × Vec3) (mx msq : ℚ)
    (hm : msq = mx * mx) (h : is_dividable data mx msq = false) :
    normSq data.1 ≤ msq ∧ normSq data.2.1 ≤ msq ∧ normSq data.2.2 ≤ msq := by
  simp only [is_dividable] at h
  by_cases c1 : abs_sum data.1 > abs_sum data.2.1
  · by_cases c2 : abs_sum data.1 > abs_sum data.2.2
    · by_cases c3 : abs_sum data.2.2 > abs_sum data.2.1
      · have hbig : biggest_index (abs_sum data.1, abs_sum data.2.1, abs_sum data.2.2) =
            (0, 2, 1) := by
          unfold biggest_index
          rw [if_pos c1, if_pos c2, if_pos c3]
        rw [hbig] at h
        simp only [get3_zero, get3_one, get3_two, getV3_zero, getV3_one, getV3_two] at h
        obtain ⟨p1, p2, p3⟩ := is_div_leaf mx msq hm _ _ _ (by linarith) (by linarith) h
        exact ⟨p1, p3, p2⟩
      · have hbig : biggest_index (abs_sum data.1, abs_sum data.2.1, abs_sum data.2.2) =
            (0, 1, 2) := by
          unfold biggest_index
          rw [if_pos c1, if_pos c2, if_neg c3]
        rw [hbig] at h
        simp only [get3_zero, get3_one, get3_two, getV3_zero, getV3_one, getV3_two] at h
        obtain ⟨p1, p2, p3⟩ := is_div_leaf mx msq hm _ _ _ (by linarith) (by linarith) h
        exact ⟨p1, p2, p3⟩
    · have hbig : biggest_index (abs_sum data.1, abs_sum data.2.1, abs_sum data.2.2) =
          (2, 0, 1) := by
        unfold biggest_index
        rw [if_pos c1, if_neg c2]
      rw [hbig] at h
      simp only [get3_zero, get3_one, get3_two, getV3_zero, getV3_one, getV3_two] at h
      obtain ⟨p1, p2, p3⟩ := is_div_leaf mx msq hm _ _ _ (by linarith) (by linarith) h
      exact ⟨p2, p3, p1⟩
  · by_cases c4 : abs_sum data.2.1 > abs_sum data.2.2
    · by_cases c5 : abs_sum data.2.2 > abs_sum data.1
      · have hbig : biggest_index (abs_sum data.1, abs_sum data.2.1, abs_sum data.2.2) =
            (1, 2, 0) := by
          unfold biggest_index
          rw [if_neg c1, if_pos c4, if_pos c5]
        rw [hbig] at h
        simp only [get3_zero, get3_one, get3_two, getV3_zero, getV3_one, getV3_two] at h
        obtain ⟨p1, p2, p3⟩ := is_div_leaf mx msq hm _ _ _ (by linarith) (by linarith) h
        exact ⟨p3, p1, p2⟩
      · have hbig : biggest_index (abs_sum data.1, abs_sum data.2.1, abs_sum data.2.2) =
            (1, 0, 2) := by
          unfold biggest_index
          rw [if_neg c1, if_pos c4, if_neg c5]
        rw [hbig] at h
        simp only [get3_zero, get3_one, get3_two, getV3_zero, getV3_one, getV3_two] at h
        obtain ⟨p1, p2, p3⟩ := is_div_leaf mx msq hm _ _ _ (by linarith) (by linarith) h
        exact ⟨p2, p1, p3⟩
    · have hbig : biggest_index (abs_sum data.1, abs_sum data.2.1, abs_sum data.2.2) =
          (2, 1, 0) := by
        unfold biggest_index
        rw [if_neg c1, if_neg c4]
      rw [hbig] at h
      simp only [get3_zero, get3_one, get3_two, getV3_zero, getV3_one, getV3_two] at h
      obtain ⟨p1, p2, p3⟩ := is_div_leaf mx msq hm _ _ _ (by linarith) (by linarith) h
      exact ⟨p3, p2, p1⟩

/-- divide reduced to the core body at each of the three divide
indices. -/
theorem divide_zero (tl : TriangleLengths) (msq : ℚ) (verts : List Vec3)
    (ed : EdgeDivides) :
    divide tl 0 msq verts ed =
      divide_core tl.indices.1 tl.indices.2.1 tl.indices.2.2
        tl.l.1 tl.l.2.1 tl.l.2.2 msq verts ed := rfl

theorem divide_one (tl : TriangleLengths) (msq : ℚ) (verts : List Vec3)
    (ed : EdgeDivides) :
    divide tl 1 msq verts ed =
      divide_core tl.indices.2.1 tl.indices.2.2 tl.indices.1
        tl.l.2.1 tl.l.2.2 tl.l.1 msq verts ed := rfl

theorem divide_two (tl : TriangleLengths) (msq : ℚ) (verts : List Vec3)
    (ed : EdgeDivides) :
    divide tl 2 msq verts ed =
      divide_core tl.indices.2.2 tl.indices.1 tl.indices.2.1
        tl.l.2.2 tl.l.1 tl.l.2.1 msq verts ed := rfl

/-- One divide step from a good state at any of the three divide indices
keeps the state good: the vertex list only grows, the registry stays
good, and both children are live triangles. -/
theorem divide_good (msq : ℚ) (h0 : 0 < msq) (verts : List Vec3) (ed : EdgeDivides)
    (tl : TriangleLengths) (di : ℕ) (hdi : di < 3)
    (hreg : RegGood verts msq ed) (htri : TriGood verts tl)
    (hgt : msq < get3 tl.l di) :
    (∃ tail, (divide tl di msq verts ed).2.1 = verts ++ tail) ∧
    RegGood (divide tl di msq verts ed).2.1 msq (divide tl di msq verts ed).2.2 ∧
    TriGood (divide tl di msq verts ed).2.1 (divide tl di msq verts ed).1.1 ∧
    TriGood (divide tl di msq verts ed).2.1 (divide tl di msq verts ed).1.2 := by
  obtain ⟨ha, hb, hc, hL1, hL2, hL3⟩ := htri
  interval_cases di
  · rw [divide_zero]
    have h := divide_core_good msq h0 verts ed tl.indices.1 tl.indices.2.1 tl.indices.2.2
      tl.l.1 tl.l.2.1 tl.l.2.2 hreg ha hb hc hL1 hL2 hL3 (by rw [← get3_zero tl.l]; exact hgt)
    exact ⟨h.1, h.2.1, h.2.2.1, h.2.2.2.1⟩
  · rw [divide_one]
    have h := divide_core_good msq h0 verts ed tl.indices.2.1 tl.indices.2.2 tl.indices.1
      tl.l.2.1 tl.l.2.2 tl.l.1 hreg hb hc ha hL2 hL3 hL1 (by rw [← get3_one tl.l]; exact hgt)
    exact ⟨h.1, h.2.1, h.2.2.1, h.2.2.2.1⟩
  · rw [divide_two]
    have h := divide_core_good msq h0 verts ed tl.indices.2.2 tl.indices.1 tl.indices.2.1
      tl.l.2.2 tl.l.1 tl.l.2.1 hreg hc ha hb hL3 hL1 hL2 (by rw [← get3_two tl.l]; exact hgt)
    exact ⟨h.1, h.2.1, h.2.2.1, h.2.2.2.1⟩

/-- An emitted triangle: indices in range and all three geometric squared
edge lengths within the bound. -/
def TriDone (msq : ℚ) (verts : List Vec3) (t : Tri) : Prop :=
  t.1 < verts.length ∧ t.2.1 < verts.length ∧ t.2.2 < verts.length ∧
  normSq (verts.getD t.1 default - verts.getD t.2.1 default) ≤ msq ∧
  normSq (verts.getD t.2.1 default - verts.getD t.2.2 default) ≤ msq ∧
  normSq (verts.getD t.2.2 default - verts.getD t.1 default) ≤ msq

theorem TriDone_extend (msq : ℚ) (verts tail : List Vec3) (t : Tri)
    (h : TriDone msq verts t) : TriDone msq (verts ++ tail) t := by
  obtain ⟨h1, h2, h3, e1, e2, e3⟩ := h
  refine ⟨by simp; omega, by simp; omega, by simp; omega, ?_, ?_, ?_⟩ <;>
    rw [getD_append_left _ _ _ (by omega), getD_append_left _ _ _ (by omega)] <;>
    assumption

theorem TriGood_extend (verts tail : List Vec3) (tl : TriangleLengths)
    (h : TriGood verts tl) : TriGood (verts ++ tail) tl := by
  obtain ⟨h1, h2, h3, e1, e2, e3⟩ := h
  refine ⟨by simp; omega, by simp; omega, by simp; omega, ?_, ?_, ?_⟩ <;>
    rw [getD_append_left _ _ _ (by omega), getD_append_left _ _ _ (by omega)] <;>
    assumption

/-- Unfolding equations for the fueled loops, by definitional
reduction. -/
theorem subdivide_one_zero (msq : ℚ) (tl : TriangleLengths) (queue : List TriangleLengths)
    (verts : List Vec3) (ed : EdgeDivides) :
    subdivide_one msq 0 tl queue verts ed = none := rfl

theorem subdivide_one_succ_none_nil (msq : ℚ) (n : ℕ) (tl : TriangleLengths)
    (verts : List Vec3) (ed : EdgeDivides) (h : get_divide_index tl.l msq = none) :
    subdivide_one msq (n + 1) tl [] verts ed = some ([tl.indices], verts, ed) := by
  have e : subdivide_one msq (n + 1) tl [] verts ed =
      match get_divide_index tl.l msq with
      | none => some ([tl.indices], verts, ed)
      | some di =>
        let d := divide tl di msq verts ed
        subdivide_one msq n d.1.1 ([] ++ [d.1.2]) d.2.1 d.2.2 := rfl
  rw [e, h]

theorem subdivide_one_succ_none_cons (msq : ℚ) (n : ℕ) (tl q : TriangleLengths)
    (qs : List TriangleLengths) (verts : List Vec3) (ed : EdgeDivides)
    (h : get_divide_index tl.l msq = none) :
    subdivide_one msq (n + 1) tl (q :: qs) verts ed =
      (subdivide_one msq n q qs verts ed).map (fun r => (tl.indices :: r.1, r.2)) := by
  have e : subdivide_one msq (n + 1) tl (q :: qs) verts ed =
      match get_divide_index tl.l msq with
      | none => (subdivide_one msq n q qs verts ed).map (fun r => (tl.indices :: r.1, r.2))
      | some di =>
        let d := divide tl di msq verts ed
        subdivide_one msq n d.1.1 ((q :: qs) ++ [d.1.2]) d.2.1 d.2.2 := rfl
  rw [e, h]

theorem subdivide_one_succ_some (msq : ℚ) (n : ℕ) (tl : TriangleLengths)
    (queue : List TriangleLengths) (verts : List Vec3) (ed : EdgeDivides) (di : ℕ)
    (h : get_divide_index tl.l msq = some di) :
    subdivide_one msq (n + 1) tl queue verts ed =
      subdivide_one msq n (divide tl di msq verts ed).1.1
        (queue ++ [(divide tl di msq verts ed).1.2])
        (divide tl di msq verts ed).2.1 (divide tl di msq verts ed).2.2 := by
  have e : subdivide_one msq (n + 1) tl queue verts ed =
      match get_divide_index tl.l msq with
      | none =>
        (match queue with
         | [] => some ([tl.indices], verts, ed)
         | q :: qs =>
           (subdivide_one msq n q qs verts ed).map (fun r => (tl.indices :: r.1, r.2)))
      | some di =>
        let d := divide tl di msq verts ed
        subdivide_one msq n d.1.1 (queue ++ [d.1.2]) d.2.1 d.2.2 := rfl
  rw [e, h]

theorem subdivide_go_nil (msq mx : ℚ) (fuel : ℕ) (verts : List Vec3) (ed : EdgeDivides) :
    subdivide_go msq mx fuel [] verts ed = some ([], verts, ed) := rfl

theorem subdivide_go_cons_skip (msq mx : ℚ) (fuel : ℕ) (t : Tri) (ts : List Tri)
    (verts : List Vec3) (ed : EdgeDivides)
    (h : is_dividable (edges_data t verts) mx msq = false) :
    subdivide_go msq mx fuel (t :: ts) verts ed =
      (subdivide_go msq mx fuel ts verts ed).map (fun r => (t :: r.1, r.2)) := by
  have e : subdivide_go msq mx fuel (t :: ts) verts ed =
      if is_dividable (edges_data t verts) mx msq = false then
        (subdivide_go msq mx fuel ts verts ed).map (fun r => (t :: r.1, r.2))
      else
        (subdivide_one msq fuel
          ⟨t, (normSq (edges_data t verts).1, normSq (edges_data t verts).2.1,
            normSq (edges_data t verts).2.2)⟩ [] verts ed).bind (fun r =>
          (subdivide_go msq mx fuel ts r.2.1 r.2.2).map
            (fun r2 => (r.1 ++ r2.1, r2.2))) := rfl
  rw [e, if_pos h]

theorem subdivide_go_cons_div (msq mx : ℚ) (fuel : ℕ) (t : Tri) (ts : List Tri)
    (verts : List Vec3) (ed : EdgeDivides)
    (h : ¬ is_dividable (edges_data t verts) mx msq = false) :
    subdivide_go msq mx fuel (t :: ts) verts ed =
      (subdivide_one msq fuel
        ⟨t, (normSq (edges_data t verts).1, normSq (edges_data t verts).2.1,
          normSq (edges_data t verts).2.2)⟩ [] verts ed).bind (fun r =>
        (subdivide_go msq mx fuel ts r.2.1 r.2.2).map
          (fun r2 => (r.1 ++ r2.1, r2.2))) := by
  have e : subdivide_go msq mx fuel (t :: ts) verts ed =
      if is_dividable (edges_data t verts) mx msq = false then
        (subdivide_go msq mx fuel ts verts ed).map (fun r => (t :: r.1, r.2))
      else
        (subdivide_one msq fuel
          ⟨t, (normSq (edges_data t verts).1, normSq (edges_data t verts).2.1,
            normSq (edges_data t verts).2.2)⟩ [] verts ed).bind (fun r =>
          (subdivide_go msq mx fuel ts r.2.1 r.2.2).map
            (fun r2 => (r.1 ++ r2.1, r2.2))) := rfl
  rw [e, if_neg h]

/-- Soundness of the inner queue loop: starting from a good state with a
good current triangle and queue, a successful run only appends vertices,
preserves the registry invariant, and emits only triangles whose indices
are in range and whose geometric edge lengths are all within the squared
bound. -/
theorem subdivide_one_good (msq : ℚ) (h0 : 0 < msq) :
    ∀ (fuel : ℕ) (tl : TriangleLengths) (queue : List TriangleLengths)
      (verts : List Vec3) (ed : EdgeDivides) (tris : List Tri) (verts2 : List Vec3)
      (ed2 : EdgeDivides),
      RegGood verts msq ed → TriGood verts tl → (∀ q ∈ queue, TriGood verts q) →
      subdivide_one msq fuel tl queue verts ed = some (tris, verts2, ed2) →
      (∃ tail, verts2 = verts ++ tail) ∧ RegGood verts2 msq ed2 ∧
        ∀ t ∈ tris, TriDone msq verts2 t := by
  intro fuel
  induction fuel with
  | zero =>
    intro tl queue verts ed tris verts2 ed2 _ _ _ hsome
    rw [subdivide_one_zero] at hsome
    simp at hsome
  | succ n ih =>
    intro tl queue verts ed tris verts2 ed2 hreg htri hq hsome
    cases hgd : get_divide_index tl.l msq with
    | none =>
      have hdone : TriDone msq verts tl.indices := by
        obtain ⟨h1, h2, h3, e1, e2, e3⟩ := htri
        have hbnd := get_divide_index_none tl.l msq hgd
        exact ⟨h1, h2, h3, by rw [← e1]; exact hbnd.1, by rw [← e2]; exact hbnd.2.1,
          by rw [← e3]; exact hbnd.2.2⟩
      cases queue with
      | nil =>
        rw [subdivide_one_succ_none_nil msq n tl verts ed hgd] at hsome
        simp only [Option.some.injEq, Prod.mk.injEq] at hsome
        obtain ⟨htris, hv, hed⟩ := hsome
        subst htris
        subst hv
        subst hed
        refine ⟨⟨[], by simp⟩, hreg, ?_⟩
        intro t ht
        simp at ht
        subst ht
        exact hdone
      | cons q qs =>
        rw [subdivide_one_succ_none_cons msq n tl q qs verts ed hgd] at hsome
        cases hrec : subdivide_one msq n q qs verts ed with
        | none => rw [hrec] at hsome; simp at hsome
        | some r =>
          rw [hrec] at hsome
          simp only [Option.map_some', Option.some.injEq, Prod.mk.injEq, Prod.ext_iff] at hsome
          obtain ⟨htris, hv, hed⟩ := hsome
          have hih := ih q qs verts ed r.1 r.2.1 r.2.2 hreg
            (hq q (List.mem_cons_self q qs)) (fun x hx => hq x (List.mem_cons_of_mem q hx))
            (by rw [hrec])
          obtain ⟨⟨tail, htail⟩, hreg2, hout⟩ := hih
          subst hv
          subst hed
          refine ⟨⟨tail, htail⟩, hreg2, ?_⟩
          intro t ht
          rw [← htris] at ht
          rcases List.mem_cons.mp ht with h | h
          · subst h
            rw [htail]
            exact TriDone_extend msq verts tail _ hdone
          · exact hout t h
    | some di =>
      rw [subdivide_one_succ_some msq n tl queue verts ed di hgd] at hsome
      have hdi := get_divide_index_some tl.l msq di hgd
      have hD := divide_good msq h0 verts ed tl di hdi.1 hreg htri hdi.2
      obtain ⟨⟨tail, htail⟩, hreg2, htg1, htg2⟩ := hD
      have hih := ih (divide tl di msq verts ed).1.1 (queue ++ [(divide tl di msq verts ed).1.2])
        (divide tl di msq verts ed).2.1 (divide tl di msq verts ed).2.2 tris verts2 ed2
        hreg2 htg1 ?_ hsome
      · obtain ⟨⟨tail2, ht2⟩, hreg3, hout⟩ := hih
        exact ⟨⟨tail ++ tail2, by rw [ht2, htail, List.append_assoc]⟩, hreg3, hout⟩
      · intro x hx
        rcases List.mem_append.mp hx with h | h
        · rw [htail]
          exact TriGood_extend verts tail x (hq x h)
        · simp at h
          subst h
          exact htg2

/-- Soundness of the outer triangle traversal: from a good registry and
in-range input triangles, a successful run only appends vertices and
every output triangle has in-range indices and all geometric edge
lengths within the squared bound. -/
theorem subdivide_go_good (msq mx : ℚ) (h0 : 0 < msq) (hm : msq = mx * mx) (fuel : ℕ) :
    ∀ (tris : List Tri) (verts : List Vec3) (ed : EdgeDivides)
      (out : List Tri) (verts2 : List Vec3) (ed2 : EdgeDivides),
      RegGood verts msq ed →
      (∀ t ∈ tris, t.1 < verts.length ∧ t.2.1 < verts.length ∧ t.2.2 < verts.length) →
      subdivide_go msq mx fuel tris verts ed = some (out, verts2, ed2) →
      (∃ tail, verts2 = verts ++ tail) ∧ ∀ t ∈ out, TriDone msq verts2 t := by
  intro tris
  induction tris with
  | nil =>
    intro verts ed out verts2 ed2 _ _ hsome
    rw [subdivide_go_nil] at hsome
    simp only [Option.some.injEq, Prod.mk.injEq] at hsome
    obtain ⟨hout, hv, _⟩ := hsome
    subst hout
    subst hv
    exact ⟨⟨[], by simp⟩, by simp⟩
  | cons t ts ih =>
    intro verts ed out verts2 ed2 hreg hin hsome
    by_cases hdiv : is_dividable (edges_data t verts) mx msq = false
    · rw [subdivide_go_cons_skip msq mx fuel t ts verts ed hdiv] at hsome
      cases hrec : subdivide_go msq mx fuel ts verts ed with
      | none => rw [hrec] at hsome; simp at hsome
      | some r =>
        rw [hrec] at hsome
        simp only [Option.map_some', Option.some.injEq, Prod.mk.injEq, Prod.ext_iff] at hsome
        obtain ⟨hout, hv, hed⟩ := hsome
        have hih := ih verts ed r.1 r.2.1 r.2.2 hreg
          (fun x hx => hin x (List.mem_cons_of_mem t hx)) (by rw [hrec])
        obtain ⟨⟨tail, htail⟩, hdone⟩ := hih
        subst hv
        subst hed
        refine ⟨⟨tail, htail⟩, ?_⟩
        intro x hx
        rw [← hout] at hx
        rcases List.mem_cons.mp hx with h | h
        · rw [h]
          obtain ⟨hb1, hb2, hb3⟩ := is_dividable_false_bounds (edges_data t verts) mx msq hm hdiv
          have hh := hin t (List.mem_cons_self t ts)
          rw [htail]
          apply TriDone_extend
          exact ⟨hh.1, hh.2.1, hh.2.2, hb1, hb2, hb3⟩
        · exact hdone x h
    · rw [subdivide_go_cons_div msq mx fuel t ts verts ed hdiv] at hsome
      cases hone : subdivide_one msq fuel
          ⟨t, (normSq (edges_data t verts).1, normSq (edges_data t verts).2.1,
            normSq (edges_data t verts).2.2)⟩ [] verts ed with
      | none => rw [hone] at hsome; simp at hsome
      | some r =>
        rw [hone] at hsome
        simp only [Option.some_bind] at hsome
        cases hrec : subdivide_go msq mx fuel ts r.2.1 r.2.2 with
        | none => rw [hrec] at hsome; simp at hsome
        | some r2 =>
          rw [hrec] at hsome
          simp only [Option.map_some', Option.some.injEq, Prod.mk.injEq, Prod.ext_iff] at hsome
          obtain ⟨hout, hv, hed⟩ := hsome
          have hh := hin t (List.mem_cons_self t ts)
          have htl : TriGood verts ⟨t, (normSq (edges_data t verts).1,
              normSq (edges_data t verts).2.1, normSq (edges_data t verts).2.2)⟩ :=
            ⟨hh.1, hh.2.1, hh.2.2, rfl, rfl, rfl⟩
          have h1 := subdivide_one_good msq h0 fuel _ [] verts ed r.1 r.2.1 r.2.2
            hreg htl (by simp) hone
          obtain ⟨⟨tail1, ht1⟩, hreg1, hdone1⟩ := h1
          have h2 := ih r.2.1 r.2.2 r2.1 r2.2.1 r2.2.2 hreg1 ?_ (by rw [hrec])
          · obtain ⟨⟨tail2, ht2⟩, hdone2⟩ := h2
            subst hv
            subst hed
            refine ⟨⟨tail1 ++ tail2, by rw [ht2, ht1, List.append_assoc]⟩, ?_⟩
            intro x hx
            rw [← hout] at hx
            rcases List.mem_append.mp hx with h | h
            · rw [ht2]
              exact TriDone_extend msq r.2.1 tail2 x (hdone1 x h)
            · exact hdone2 x h
          · intro x hx
            have := hin x (List.mem_cons_of_mem t hx)
            rw [ht1]
            simp
            omega

/-- ensure_seq on an unregistered key appends the evenly spaced interior
vertices and registers the fresh sequence. -/
theorem ensure_seq_fresh (key : ℕ × ℕ) (c : ℕ) (verts : List Vec3) (ed : EdgeDivides)
    (h : ed_find ed key = none) :
    ensure_seq key c verts ed =
      (⟨verts.length, true⟩,
       verts ++ (List.range c).map (fun (i : ℕ) =>
         verts.getD key.1 default +
           smul (((i : ℚ) + 1) / ((c : ℚ) + 1))
             (verts.getD key.2 default - verts.getD key.1 default)),
       (key, (⟨verts.length, true⟩ : VerticesSequence)) :: ed) := by
  have e : ensure_seq key c verts ed =
      match ed_find ed key with
      | some vs => (vs, verts, ed)
      | none =>
        (⟨verts.length, true⟩,
         verts ++ (List.range c).map (fun (i : ℕ) =>
           verts.getD key.1 default +
             smul (((i : ℚ) + 1) / ((c : ℚ) + 1))
               (verts.getD key.2 default - verts.getD key.1 default)),
         (key, (⟨verts.length, true⟩ : VerticesSequence)) :: ed) := rfl
  rw [e, h]

/-- Dividing an edge whose canonical key is not yet registered appends
exactly edge_count evenly spaced interior grid points of that edge. -/
theorem divide_core_fresh_insert (vi0 vi1 vi2 : ℕ) (lsq l1 l2 msq : ℚ)
    (verts : List Vec3) (ed : EdgeDivides)
    (hfresh : ed_find ed (if vi0 > vi1 then (vi1, vi0) else (vi0, vi1)) = none) :
    (divide_core vi0 vi1 vi2 lsq l1 l2 msq verts ed).2.1 =
      verts ++ (List.range (edge_count lsq msq)).map (fun (i : ℕ) =>
        grid_point (verts.getD (if vi0 > vi1 then vi1 else vi0) default)
          (verts.getD (if vi0 > vi1 then vi0 else vi1) default)
          (edge_count lsq msq) (i + 1)) := by
  by_cases hsw : vi0 > vi1
  · rw [if_pos hsw] at hfresh
    have e : (divide_core vi0 vi1 vi2 lsq l1 l2 msq verts ed).2.1 =
        (ensure_seq (vi1, vi0) (edge_count lsq msq) verts ed).2.1 := by
      rw [divide_core_eq]
      simp only [hsw, decide_True, if_true]
    rw [e, ensure_seq_fresh _ _ _ _ hfresh, if_pos hsw, if_pos hsw]
    simp only
    congr 1
    apply List.map_congr_left
    intro i hi
    rw [grid_point]
    congr 2
    push_cast
    ring
  · rw [if_neg hsw] at hfresh
    have e : (divide_core vi0 vi1 vi2 lsq l1 l2 msq verts ed).2.1 =
        (ensure_seq (vi0, vi1) (edge_count lsq msq) verts ed).2.1 := by
      rw [divide_core_eq]
      simp only [hsw, decide_False, Bool.false_eq_true, if_false]
    rw [e, ensure_seq_fresh _ _ _ _ hfresh, if_neg hsw, if_neg hsw]
    simp only
    congr 1
    apply List.map_congr_left
    intro i hi
    rw [grid_point]
    congr 2
    push_cast
    ring

/-- C2: for every input mesh with in-range indices and every
maxEdgeLength > 0, every triangle of the mesh returned by subdivide has
in-range indices and all three squared geometric edge lengths at most
maxEdgeLength squared (the exact-arithmetic form of the floating
tolerance); and each division of an edge whose canonical key is not yet
registered appends exactly edge_count(L squared, max squared) evenly
spaced interior grid points of that edge, edge_count being
floor(L / maxEdgeLength): it satisfies c·max ≤ L < (c+1)·max in squared
form. -/
theorem C2_subdivide_edge_bounds (mx : ℚ) (hmx : 0 < mx) (fuel : ℕ)
    (its out : indexed_triangle_set)
    (hin : ∀ t ∈ its.indices, t.1 < its.vertices.length ∧
      t.2.1 < its.vertices.length ∧ t.2.2 < its.vertices.length)
    (hsub : subdivide fuel its mx = some out) :
    (∀ t ∈ out.indices, TriDone (mx * mx) out.vertices t) ∧
    (∀ (verts : List Vec3) (ed : EdgeDivides) (vi0 vi1 vi2 : ℕ) (lsq l1 l2 : ℚ),
      ed_find ed (if vi0 > vi1 then (vi1, vi0) else (vi0, vi1)) = none →
      0 ≤ lsq →
      (divide_core vi0 vi1 vi2 lsq l1 l2 (mx * mx) verts ed).2.1 =
        verts ++ (List.range (edge_count lsq (mx * mx))).map (fun (i : ℕ) =>
          grid_point (verts.getD (if vi0 > vi1 then vi1 else vi0) default)
            (verts.getD (if vi0 > vi1 then vi0 else vi1) default)
            (edge_count lsq (mx * mx)) (i + 1)) ∧
      (edge_count lsq (mx * mx) : ℚ) * (edge_count lsq (mx * mx)) * (mx * mx) ≤ lsq ∧
      lsq < ((edge_count lsq (mx * mx) : ℚ) + 1) *
        ((edge_count lsq (mx * mx) : ℚ) + 1) * (mx * mx)) := by
  constructor
  · simp only [subdivide] at hsub
    cases hgo : subdivide_go (mx * mx) mx fuel its.indices its.vertices [] with
    | none => rw [hgo] at hsub; simp at hsub
    | some r =>
      rw [hgo] at hsub
      simp only [Option.map_some', Option.some.injEq] at hsub
      have h := subdivide_go_good (mx * mx) mx (by positivity) rfl fuel its.indices
        its.vertices [] r.1 r.2.1 r.2.2 (fun e he => absurd he (List.not_mem_nil e))
        hin (by rw [hgo])
      rw [← hsub]
      exact h.2
  · intro verts ed vi0 vi1 vi2 lsq l1 l2 hfresh hlsq
    have h0 : (0 : ℚ) < mx * mx := by positivity
    have hb := edge_count_bounds lsq (mx * mx) h0 hlsq
    exact ⟨divide_core_fresh_insert vi0 vi1 vi2 lsq l1 l2 (mx * mx) verts ed hfresh,
      hb.1, hb.2⟩

theorem C2_witness :
    (0 : ℚ) < 3 ∧
    subdivide 1 ⟨[⟨0, 0, 0⟩, ⟨1, 0, 0⟩, ⟨0, 1, 0⟩], [((0, 1, 2) : Tri)]⟩ 3 =
      some ⟨[⟨0, 0, 0⟩, ⟨1, 0, 0⟩, ⟨0, 1, 0⟩], [((0, 1, 2) : Tri)]⟩ ∧
    TriDone ((3 : ℚ) * 3) [⟨0, 0, 0⟩, ⟨1, 0, 0⟩, ⟨0, 1, 0⟩] (0, 1, 2) := by
  have hdiv : is_dividable
      (edges_data ((0, 1, 2) : Tri) [⟨0, 0, 0⟩, ⟨1, 0, 0⟩, ⟨0, 1, 0⟩]) 3 ((3 : ℚ) * 3) =
      false := by
    norm_num [is_dividable, biggest_index, edges_data, abs_sum, get3, getV3,
      List.getD_cons_zero, List.getD_cons_succ, sub_x, sub_y, sub_z]
  have hgo : subdivide_go ((3 : ℚ) * 3) 3 1 [((0, 1, 2) : Tri)]
      [⟨0, 0, 0⟩, ⟨1, 0, 0⟩, ⟨0, 1, 0⟩] [] =
      some ([((0, 1, 2) : Tri)], [⟨0, 0, 0⟩, ⟨1, 0, 0⟩, ⟨0, 1, 0⟩], []) := by
    rw [subdivide_go_cons_skip _ _ _ _ _ _ _ hdiv, subdivide_go_nil]
    rfl
  have hsub : subdivide 1 ⟨[⟨0, 0, 0⟩, ⟨1, 0, 0⟩, ⟨0, 1, 0⟩], [((0, 1, 2) : Tri)]⟩ 3 =
      some ⟨[⟨0, 0, 0⟩, ⟨1, 0, 0⟩, ⟨0, 1, 0⟩], [((0, 1, 2) : Tri)]⟩ := by
    simp only [subdivide]
    rw [hgo]
    rfl
  refine ⟨by norm_num, hsub, ?_⟩
  have h := C2_subdivide_edge_bounds 3 (by norm_num) 1 _ _
    (by intro t ht; simp at ht; subst ht; exact ⟨by norm_num, by norm_num, by norm_num⟩)
    hsub
  exact h.1 (0, 1, 2) (by simp)


/-- Stewart-type identity: the squared distance from C to the point at
parameter s on segment AB, in terms of the three squared side lengths. -/
theorem normSq_cevian (A B C : Vec3) (s : ℚ) :
    normSq (A + smul s (B - A) - C) =
      (1 - s) * normSq (C - A) + s * normSq (C - B) - s * (1 - s) * normSq (A - B) := by
  simp only [normSq, smul, add_x, add_y, add_z, sub_x, sub_y, sub_z]
  ring

/-- The divide index points at a maximal edge. -/
theorem get_divide_index_max (l : ℚ × ℚ × ℚ) (msq : ℚ) (di : ℕ)
    (h : get_divide_index l msq = some di) :
    get3 l (di + 1) ≤ get3 l di ∧ get3 l (di + 2) ≤ get3 l di := by
  unfold get_divide_index at h
  split_ifs at h with h1 h2 h3 h4 h5 <;> simp at h <;> subst h <;>
    simp only [get3_one, get3_two, get3_zero] <;>
    push_neg at *
  · exact ⟨le_of_lt h1.1, le_of_lt h1.2⟩
  · constructor
    · exact le_of_lt h3
    · rcases le_or_lt l.1 l.2.1 with hx | hx
      · exact hx
      · exact le_trans (h1 hx) (le_of_lt h3)
  · constructor
    · rcases le_or_lt l.1 l.2.1 with hx | hx
      · exact le_trans hx h3
      · exact h1 hx
    · exact h3

/-- `get3 v n` only depends on `n % 3`: the two shifted accessors used by
`get_divide_index_max` at the wrapped indices. -/
theorem get3_three (v : ℚ × ℚ × ℚ) : get3 v 3 = v.1 := rfl

theorem get3_four (v : ℚ × ℚ × ℚ) : get3 v 4 = v.2.1 := rfl

set_option maxHeartbeats 1000000 in
/-- Quantitative bounds of a divide step: both parts of the split edge
are at most 4/9 of it in squared length, the new cevian is at most 7/9 of
it in squared length when the split edge is maximal, and each child
inherits the corresponding remaining edge unchanged. -/
theorem divide_core_bounds (msq : ℚ) (h0 : 0 < msq) (verts : List Vec3) (ed : EdgeDivides)
    (vi0 vi1 vi2 : ℕ) (lsq l1 l2 : ℚ)
    (hreg : RegGood verts msq ed)
    (h0a : vi0 < verts.length) (h0b : vi1 < verts.length) (h0c : vi2 < verts.length)
    (hlsq : lsq = normSq (verts.getD vi0 default - verts.getD vi1 default))
    (hl1 : l1 = normSq (verts.getD vi1 default - verts.getD vi2 default))
    (hl2 : l2 = normSq (verts.getD vi2 default - verts.getD vi0 default))
    (hgt : msq < lsq) (hl1b : l1 ≤ lsq) (hl2b : l2 ≤ lsq) :
    (divide_core vi0 vi1 vi2 lsq l1 l2 msq verts ed).1.1.l.1 ≤ (4 / 9) * lsq ∧
    (divide_core vi0 vi1 vi2 lsq l1 l2 msq verts ed).1.1.l.2.1 ≤ (7 / 9) * lsq ∧
    (divide_core vi0 vi1 vi2 lsq l1 l2 msq verts ed).1.1.l.2.2 = l2 ∧
    (divide_core vi0 vi1 vi2 lsq l1 l2 msq verts ed).1.2.l.1 ≤ (4 / 9) * lsq ∧
    (divide_core vi0 vi1 vi2 lsq l1 l2 msq verts ed).1.2.l.2.1 = l1 ∧
    (divide_core vi0 vi1 vi2 lsq l1 l2 msq verts ed).1.2.l.2.2 ≤ (7 / 9) * lsq := by
  obtain ⟨⟨tail, htail⟩, hreg2, ht1, ht2, c, oo, newi, hc, hoo, hm1, hm2, hi1, hi2, hpos⟩ :=
    divide_core_good msq h0 verts ed vi0 vi1 vi2 lsq l1 l2 hreg h0a h0b h0c hlsq hl1 hl2 hgt
  have hlsq0 : (0 : ℚ) < lsq := lt_trans h0 hgt
  set verts2 := (divide_core vi0 vi1 vi2 lsq l1 l2 msq verts ed).2.1 with hverts2
  have hv0 : verts2.getD vi0 default = verts.getD vi0 default := by
    rw [htail]; exact getD_append_left _ _ _ h0a
  have hv1 : verts2.getD vi1 default = verts.getD vi1 default := by
    rw [htail]; exact getD_append_left _ _ _ h0b
  have hv2 : verts2.getD vi2 default = verts.getD vi2 default := by
    rw [htail]; exact getD_append_left _ _ _ h0c
  set vA := verts.getD vi0 default with hvA
  set vB := verts.getD vi1 default with hvB
  set vC := verts.getD vi2 default with hvC
  set s : ℚ := ((oo : ℚ) + 1) / ((c : ℚ) + 1) with hs
  have hcq : (0 : ℚ) < (c : ℚ) + 1 := by positivity
  have hs3 : 3 * ((oo : ℚ) + 1) ≤ 2 * ((c : ℚ) + 1) := by
    have : ((3 * (oo + 1) : ℕ) : ℚ) ≤ ((2 * (c + 1) : ℕ) : ℚ) := by exact_mod_cast hm1
    push_cast at this
    linarith
  have hs3' : 3 * (((c : ℚ) + 1) - ((oo : ℚ) + 1)) ≤ 2 * ((c : ℚ) + 1) := by
    have h1 : ((3 * (c - oo) : ℕ) : ℚ) ≤ ((2 * (c + 1) : ℕ) : ℚ) := by exact_mod_cast hm2
    have h2 : ((c - oo : ℕ) : ℚ) = (c : ℚ) - oo := by
      push_cast [Nat.cast_sub (le_of_lt hoo)]
      ring
    push_cast at h1
    rw [h2] at h1
    linarith
  have hsub : s ≤ 2 / 3 := by
    rw [hs, div_le_iff hcq]
    linarith
  have hslb : 1 / 3 ≤ s := by
    rw [hs, le_div_iff hcq]
    linarith
  have hs01 : 0 < s ∧ s < 1 := ⟨by linarith, by linarith⟩
  have hpos2 : verts2.getD newi default = vA + smul s (vB - vA) := by
    rw [hpos, grid_point]
    congr 2
    push_cast
    ring
  have hparts : s * s ≤ 4 / 9 ∧ (1 - s) * (1 - s) ≤ 4 / 9 := by
    constructor <;> nlinarith
  have hAB : normSq (vA - vB) = lsq := hlsq.symm
  have hCA : normSq (vC - vA) = l2 := hl2.symm
  have hCB : normSq (vC - vB) = l1 := by
    rw [normSq_neg_sub, ← hl1]
  have hcev : normSq (vA + smul s (vB - vA) - vC) ≤ (7 / 9) * lsq := by
    rw [normSq_cevian, hCA, hCB, hAB]
    have hq : 0 ≤ (3 * s - 1) * (2 - 3 * s) := mul_nonneg (by linarith) (by linarith)
    have hq1 : (1 - s) * l2 ≤ (1 - s) * lsq :=
      mul_le_mul_of_nonneg_left hl2b (by linarith)
    have hq2 : s * l1 ≤ s * lsq := mul_le_mul_of_nonneg_left hl1b (by linarith)
    have hq3 : (2 / 9) * lsq ≤ s * (1 - s) * lsq := by nlinarith
    linarith
  obtain ⟨h1a, h1b, h1c, e1a, e1b, e1c⟩ := ht1
  obtain ⟨h2a, h2b, h2c, e2a, e2b, e2c⟩ := ht2
  rw [hi1] at e1a e1b e1c
  rw [hi2] at e2a e2b e2c
  simp only at e1a e1b e1c e2a e2b e2c
  refine ⟨?_, ?_, ?_, ?_, ?_, ?_⟩
  · rw [e1a, hv0, hpos2]
    have : vA - (vA + smul s (vB - vA)) = smul (-s) (vB - vA) := by
      apply Vec3.ext3 <;> simp [smul] <;> ring
    rw [this]
    have hsm : normSq (smul (-s) (vB - vA)) = s * s * normSq (vB - vA) := by
      simp only [normSq, smul]
      ring
    rw [hsm, normSq_neg_sub, hAB]
    nlinarith
  · rw [e1b, hpos2, hv2]
    exact hcev
  · rw [e1c, hv2, hv0, ← hl2]
  · rw [e2a, hpos2, hv1]
    have : vA + smul s (vB - vA) - vB = smul (1 - s) (vA - vB) := by
      apply Vec3.ext3 <;> simp [smul] <;> ring
    rw [this]
    have hsm : normSq (smul (1 - s) (vA - vB)) = (1 - s) * (1 - s) * normSq (vA - vB) := by
      simp only [normSq, smul]
      ring
    rw [hsm, hAB]
    nlinarith
  · rw [e2b, hv1, hv2, ← hl1]
  · rw [e2c, hv2, hpos2]
    rw [← normSq_neg_sub]
    exact hcev

/-- Quantitative bounds of a divide step at any of the three divide
indices, in terms of the parent's selected edge. -/
theorem divide_bounds (msq : ℚ) (h0 : 0 < msq) (verts : List Vec3) (ed : EdgeDivides)
    (tl : TriangleLengths) (di : ℕ) (hdi : di < 3)
    (hreg : RegGood verts msq ed) (htri : TriGood verts tl)
    (hgt : msq < get3 tl.l di)
    (h1b : get3 tl.l (di + 1) ≤ get3 tl.l di) (h2b : get3 tl.l (di + 2) ≤ get3 tl.l di) :
    (divide tl di msq verts ed).1.1.l.1 ≤ (4 / 9) * get3 tl.l di ∧
    (divide tl di msq verts ed).1.1.l.2.1 ≤ (7 / 9) * get3 tl.l di ∧
    (divide tl di msq verts ed).1.1.l.2.2 = get3 tl.l (di + 2) ∧
    (divide tl di msq verts ed).1.2.l.1 ≤ (4 / 9) * get3 tl.l di ∧
    (divide tl di msq verts ed).1.2.l.2.1 = get3 tl.l (di + 1) ∧
    (divide tl di msq verts ed).1.2.l.2.2 ≤ (7 / 9) * get3 tl.l di := by
  obtain ⟨ha, hb, hc, hL1, hL2, hL3⟩ := htri
  interval_cases di
  · rw [divide_zero]
    simp only [get3_zero, get3_one, get3_two] at hgt h1b h2b ⊢
    exact divide_core_bounds msq h0 verts ed tl.indices.1 tl.indices.2.1 tl.indices.2.2
      tl.l.1 tl.l.2.1 tl.l.2.2 hreg ha hb hc hL1 hL2 hL3 hgt h1b h2b
  · rw [divide_one]
    simp only [get3_one, get3_two, get3_three] at hgt h1b h2b ⊢
    exact divide_core_bounds msq h0 verts ed tl.indices.2.1 tl.indices.2.2 tl.indices.1
      tl.l.2.1 tl.l.2.2 tl.l.1 hreg hb hc ha hL2 hL3 hL1 hgt h1b h2b
  · rw [divide_two]
    simp only [get3_two, get3_three, get3_four] at hgt h1b h2b ⊢
    exact divide_core_bounds msq h0 verts ed tl.indices.2.2 tl.indices.1 tl.indices.2.1
      tl.l.2.2 tl.l.1 tl.l.2.1 hreg hc ha hb hL3 hL1 hL2 hgt h1b h2b

/-- A potential certificate for one triangle: exponents witnessing that
each tracked squared length is below msq·(9/7)^n, with total weight
5^n0+5^n1+5^n2 at most p. -/
def TriCert (msq : ℚ) (tl : TriangleLengths) (p : ℕ) : Prop :=
  ∃ n0 n1 n2 : ℕ, tl.l.1 ≤ msq * (9 / 7) ^ n0 ∧ tl.l.2.1 ≤ msq * (9 / 7) ^ n1 ∧
    tl.l.2.2 ≤ msq * (9 / 7) ^ n2 ∧ 5 ^ n0 + 5 ^ n1 + 5 ^ n2 ≤ p

/-- Total potential certificate for a triangle list. -/
def QCert (msq : ℚ) : List TriangleLengths → ℕ → Prop
  | [], _ => True
  | t :: ts, P => ∃ p q, TriCert msq t p ∧ QCert msq ts q ∧ p + q ≤ P

theorem TriCert_mono (msq : ℚ) (tl : TriangleLengths) (p p' : ℕ) (h : p ≤ p')
    (hc : TriCert msq tl p) : TriCert msq tl p' := by
  obtain ⟨n0, n1, n2, c0, c1, c2, hp⟩ := hc
  exact ⟨n0, n1, n2, c0, c1, c2, le_trans hp h⟩

theorem TriCert_weight_pos (msq : ℚ) (tl : TriangleLengths) (p : ℕ)
    (hc : TriCert msq tl p) : 3 ≤ p := by
  obtain ⟨n0, n1, n2, _, _, _, hp⟩ := hc
  have h0 : 1 ≤ 5 ^ n0 := Nat.one_le_pow n0 5 (by norm_num)
  have h1 : 1 ≤ 5 ^ n1 := Nat.one_le_pow n1 5 (by norm_num)
  have h2 : 1 ≤ 5 ^ n2 := Nat.one_le_pow n2 5 (by norm_num)
  omega

theorem QCert_mono (msq : ℚ) (ts : List TriangleLengths) (P P' : ℕ) (h : P ≤ P') :
    QCert msq ts P → QCert msq ts P' := by
  cases ts with
  | nil => intro _; trivial
  | cons t ts =>
    intro hc
    obtain ⟨p, q, h1, h2, h3⟩ := hc
    exact ⟨p, q, h1, h2, by omega⟩

theorem QCert_append_singleton (msq : ℚ) (ts : List TriangleLengths) (t : TriangleLengths) :
    ∀ (q p : ℕ), QCert msq ts q → TriCert msq t p → QCert msq (ts ++ [t]) (q + p) := by
  induction ts with
  | nil =>
    intro q p _ hc
    exact ⟨p, 0, hc, trivial, by omega⟩
  | cons u us ih =>
    intro q p hq hc
    obtain ⟨pu, qs, h1, h2, h3⟩ := hq
    exact ⟨pu, qs + p, h1, ih qs p h2 hc, by omega⟩

/-- Rotated view of a certificate through the modulo-3 accessor. -/
theorem TriCert_rotate (msq : ℚ) (tl : TriangleLengths) (p : ℕ) (di : ℕ) (hdi : di < 3)
    (h : TriCert msq tl p) :
    ∃ m0 m1 m2 : ℕ, get3 tl.l di ≤ msq * (9 / 7) ^ m0 ∧
      get3 tl.l (di + 1) ≤ msq * (9 / 7) ^ m1 ∧
      get3 tl.l (di + 2) ≤ msq * (9 / 7) ^ m2 ∧ 5 ^ m0 + 5 ^ m1 + 5 ^ m2 ≤ p := by
  obtain ⟨n0, n1, n2, c0, c1, c2, hp⟩ := h
  interval_cases di
  · exact ⟨n0, n1, n2, by rwa [get3_zero], by rwa [get3_one], by rwa [get3_two], hp⟩
  · exact ⟨n1, n2, n0, by rwa [get3_one], by rwa [get3_two], by rwa [get3_three], by omega⟩
  · exact ⟨n2, n0, n1, by rwa [get3_two], by rwa [get3_three], by rwa [get3_four], by omega⟩

/-- Contraction of the exponent by two on the split parts. -/
theorem cert_part_step (msq X : ℚ) (h0 : 0 < msq) (m : ℕ) (hX : X ≤ msq * (9 / 7) ^ m) :
    (4 / 9) * X ≤ msq * (9 / 7) ^ (m - 2) := by
  match m with
  | 0 =>
    simp only [Nat.zero_sub, pow_zero] at hX ⊢
    linarith
  | 1 =>
    simp only [pow_one] at hX
    simp only [Nat.reduceSub, pow_zero]
    linarith
  | k + 2 =>
    have he : (m : ℕ) + 0 = m := rfl
    have hp : (0 : ℚ) < (9 / 7 : ℚ) ^ k := by positivity
    have : ((9 : ℚ) / 7) ^ (k + 2) = (81 / 49) * (9 / 7) ^ k := by ring
    rw [this] at hX
    simp only [Nat.add_sub_cancel]
    nlinarith

/-- Contraction of the exponent by one on the new cevian. -/
theorem cert_cev_step (msq X : ℚ) (h0 : 0 < msq) (m : ℕ) (hX : X ≤ msq * (9 / 7) ^ m) :
    (7 / 9) * X ≤ msq * (9 / 7) ^ (m - 1) := by
  match m with
  | 0 =>
    simp only [Nat.zero_sub, pow_zero] at hX ⊢
    linarith
  | k + 1 =>
    have hp : (0 : ℚ) < (9 / 7 : ℚ) ^ k := by positivity
    have : ((9 : ℚ) / 7) ^ (k + 1) = (9 / 7) * (9 / 7) ^ k := by ring
    rw [this] at hX
    simp only [Nat.add_sub_cancel]
    nlinarith

/-- A split edge has a positive exponent. -/
theorem cert_exp_pos (msq X : ℚ) (h0 : 0 < msq) (m : ℕ) (hX : X ≤ msq * (9 / 7) ^ m)
    (hgt : msq < X) : 1 ≤ m := by
  by_contra hcon
  push_neg at hcon
  interval_cases m
  simp only [pow_zero, mul_one] at hX
  linarith

/-- The potential strictly decreases across a split. -/
theorem pot_step (m : ℕ) (hm : 1 ≤ m) :
    2 * 5 ^ (m - 2) + 2 * 5 ^ (m - 1) + 1 ≤ 5 ^ m := by
  match m with
  | 1 => norm_num
  | k + 2 =>
    have h1 : 1 ≤ 5 ^ k := Nat.one_le_pow k 5 (by norm_num)
    have e1 : (k + 2) - 2 = k := by omega
    have e2 : (k + 2) - 1 = k + 1 := by omega
    rw [e1, e2, pow_succ, pow_succ, pow_succ]
    omega

/-- Termination of the inner queue loop: a potential certificate for the
current triangle and queue bounds the fuel the loop needs. -/
theorem subdivide_one_terminates (msq : ℚ) (h0 : 0 < msq) :
    ∀ (P : ℕ) (tl : TriangleLengths) (queue : List TriangleLengths)
      (verts : List Vec3) (ed : EdgeDivides),
      RegGood verts msq ed → TriGood verts tl → (∀ q ∈ queue, TriGood verts q) →
      QCert msq (tl :: queue) P →
      ∃ r, subdivide_one msq P tl queue verts ed = some r := by
  intro P
  induction P using Nat.strong_induction_on with
  | _ P ih =>
    intro tl queue verts ed hreg htri hq hcert
    obtain ⟨p, rest, hp, hrest, hPsum⟩ := hcert
    have hp3 : 3 ≤ p := TriCert_weight_pos msq tl p hp
    obtain ⟨P', rfl⟩ : ∃ P', P = P' + 1 := ⟨P - 1, by omega⟩
    cases hgd : get_divide_index tl.l msq with
    | none =>
      cases queue with
      | nil => exact ⟨_, subdivide_one_succ_none_nil msq P' tl verts ed hgd⟩
      | cons q qs =>
        obtain ⟨pq, rest2, hpq, hrest2, hsum2⟩ := hrest
        have hrec := ih P' (by omega) q qs verts ed hreg
          (hq q (List.mem_cons_self q qs)) (fun x hx => hq x (List.mem_cons_of_mem q hx))
          ⟨pq, rest2, hpq, hrest2, by omega⟩
        obtain ⟨r, hr⟩ := hrec
        refine ⟨(tl.indices :: r.1, r.2), ?_⟩
        rw [subdivide_one_succ_none_cons msq P' tl q qs verts ed hgd, hr]
        rfl
    | some di =>
      have hdi := get_divide_index_some tl.l msq di hgd
      have hmax := get_divide_index_max tl.l msq di hgd
      have hD := divide_good msq h0 verts ed tl di hdi.1 hreg htri hdi.2
      obtain ⟨⟨tail, htail⟩, hreg2, htg1, htg2⟩ := hD
      have hB := divide_bounds msq h0 verts ed tl di hdi.1 hreg
        ⟨(by obtain ⟨a, _⟩ := htg1; exact htri.1), htri.2.1, htri.2.2.1, htri.2.2.2.1,
          htri.2.2.2.2.1, htri.2.2.2.2.2⟩ hdi.2 hmax.1 hmax.2
      obtain ⟨hb1, hb2, hb3, hb4, hb5, hb6⟩ := hB
      obtain ⟨m0, m1, m2, c0, c1, c2, hps⟩ := TriCert_rotate msq tl p di hdi.1 hp
      have hm1 : 1 ≤ m0 := cert_exp_pos msq (get3 tl.l di) h0 m0 c0 hdi.2
      have hX0 : (0 : ℚ) ≤ get3 tl.l di := le_of_lt (lt_trans h0 hdi.2)
      have hcert1 : TriCert msq (divide tl di msq verts ed).1.1
          (5 ^ (m0 - 2) + 5 ^ (m0 - 1) + 5 ^ m2) :=
        ⟨m0 - 2, m0 - 1, m2,
          le_trans hb1 (cert_part_step msq _ h0 m0 c0),
          le_trans hb2 (cert_cev_step msq _ h0 m0 c0),
          by rw [hb3]; exact c2, le_refl _⟩
      have hcert2 : TriCert msq (divide tl di msq verts ed).1.2
          (5 ^ (m0 - 2) + 5 ^ m1 + 5 ^ (m0 - 1)) :=
        ⟨m0 - 2, m1, m0 - 1,
          le_trans hb4 (cert_part_step msq _ h0 m0 c0),
          by rw [hb5]; exact c1,
          le_trans hb6 (cert_cev_step msq _ h0 m0 c0), le_refl _⟩
      have hqcert : QCert msq ((divide tl di msq verts ed).1.1 ::
          (queue ++ [(divide tl di msq verts ed).1.2])) P' := by
        refine ⟨5 ^ (m0 - 2) + 5 ^ (m0 - 1) + 5 ^ m2,
          rest + (5 ^ (m0 - 2) + 5 ^ m1 + 5 ^ (m0 - 1)), hcert1,
          QCert_append_singleton msq queue _ rest _ hrest hcert2, ?_⟩
        have hpot := pot_step m0 hm1
        omega
      have hrec := ih P' (by omega) (divide tl di msq verts ed).1.1
        (queue ++ [(divide tl di msq verts ed).1.2])
        (divide tl di msq verts ed).2.1 (divide tl di msq verts ed).2.2
        hreg2 htg1 ?_ hqcert
      · obtain ⟨r, hr⟩ := hrec
        refine ⟨r, ?_⟩
        rw [subdivide_one_succ_some msq P' tl queue verts ed di hgd]
        exact hr
      · intro x hx
        rcases List.mem_append.mp hx with h | h
        · rw [htail]
          exact TriGood_extend verts tail x (hq x h)
        · simp at h
          subst h
          exact htg2

/-- Extra fuel never changes a successful run of the inner loop. -/
theorem subdivide_one_mono (msq : ℚ) :
    ∀ (f f' : ℕ), f ≤ f' → ∀ (tl : TriangleLengths) (queue : List TriangleLengths)
      (verts : List Vec3) (ed : EdgeDivides) (r : List Tri × List Vec3 × EdgeDivides),
      subdivide_one msq f tl queue verts ed = some r →
      subdivide_one msq f' tl queue verts ed = some r := by
  intro f
  induction f with
  | zero =>
    intro f' _ tl queue verts ed r h
    rw [subdivide_one_zero] at h
    simp at h
  | succ n ihn =>
    intro f' hff tl queue verts ed r h
    obtain ⟨f2, rfl⟩ : ∃ f2, f' = f2 + 1 := ⟨f' - 1, by omega⟩
    cases hgd : get_divide_index tl.l msq with
    | none =>
      cases queue with
      | nil =>
        rw [subdivide_one_succ_none_nil _ _ _ _ _ hgd] at h
        rw [subdivide_one_succ_none_nil _ _ _ _ _ hgd]
        exact h
      | cons q qs =>
        rw [subdivide_one_succ_none_cons _ _ _ _ _ _ _ hgd] at h
        rw [subdivide_one_succ_none_cons _ _ _ _ _ _ _ hgd]
        cases hrec : subdivide_one msq n q qs verts ed with
        | none => rw [hrec] at h; simp at h
        | some r0 =>
          rw [hrec] at h
          rw [ihn f2 (by omega) q qs verts ed r0 hrec]
          exact h
    | some di =>
      rw [subdivide_one_succ_some _ _ _ _ _ _ _ hgd] at h
      rw [subdivide_one_succ_some _ _ _ _ _ _ _ hgd]
      exact ihn f2 (by omega) _ _ _ _ r h

/-- Every triangle has a potential certificate. -/
theorem TriCert_exists (msq : ℚ) (h0 : 0 < msq) (tl : TriangleLengths) :
    ∃ p, TriCert msq tl p := by
  have hg : ∀ x : ℚ, ∃ n : ℕ, x ≤ msq * (9 / 7) ^ n := by
    intro x
    obtain ⟨n, hn⟩ := pow_unbounded_of_one_lt (x / msq) (by norm_num : (1 : ℚ) < 9 / 7)
    refine ⟨n, ?_⟩
    rw [div_lt_iff h0] at hn
    linarith [hn]
  obtain ⟨n0, h0'⟩ := hg tl.l.1
  obtain ⟨n1, h1'⟩ := hg tl.l.2.1
  obtain ⟨n2, h2'⟩ := hg tl.l.2.2
  exact ⟨5 ^ n0 + 5 ^ n1 + 5 ^ n2, n0, n1, n2, h0', h1', h2', le_refl _⟩

/-- Termination of the outer traversal: some fuel (and any larger fuel)
makes subdivide_go succeed. -/
theorem subdivide_go_terminates (msq mx : ℚ) (h0 : 0 < msq) (hm : msq = mx * mx) :
    ∀ (tris : List Tri) (verts : List Vec3) (ed : EdgeDivides),
      RegGood verts msq ed →
      (∀ t ∈ tris, t.1 < verts.length ∧ t.2.1 < verts.length ∧ t.2.2 < verts.length) →
      ∃ fuel, ∀ fuel', fuel ≤ fuel' →
        ∃ r, subdivide_go msq mx fuel' tris verts ed = some r := by
  intro tris
  induction tris with
  | nil =>
    intro verts ed _ _
    exact ⟨0, fun f' _ => ⟨([], verts, ed), subdivide_go_nil msq mx f' verts ed⟩⟩
  | cons t ts ih =>
    intro verts ed hreg hin
    by_cases hdiv : is_dividable (edges_data t verts) mx msq = false
    · obtain ⟨fuel, hfuel⟩ := ih verts ed hreg (fun x hx => hin x (List.mem_cons_of_mem t hx))
      refine ⟨fuel, fun f' hf => ?_⟩
      obtain ⟨r, hr⟩ := hfuel f' hf
      refine ⟨(t :: r.1, r.2), ?_⟩
      rw [subdivide_go_cons_skip msq mx f' t ts verts ed hdiv, hr]
      rfl
    · have hh := hin t (List.mem_cons_self t ts)
      have htl : TriGood verts ⟨t, (normSq (edges_data t verts).1,
          normSq (edges_data t verts).2.1, normSq (edges_data t verts).2.2)⟩ :=
        ⟨hh.1, hh.2.1, hh.2.2, rfl, rfl, rfl⟩
      obtain ⟨p, hcert⟩ := TriCert_exists msq h0
        ⟨t, (normSq (edges_data t verts).1, normSq (edges_data t verts).2.1,
          normSq (edges_data t verts).2.2)⟩
      obtain ⟨r1, hone⟩ := subdivide_one_terminates msq h0 p _ [] verts ed hreg htl
        (by simp) ⟨p, 0, hcert, trivial, by omega⟩
      obtain ⟨⟨tail1, ht1⟩, hreg1, _⟩ := subdivide_one_good msq h0 p _ [] verts ed
        r1.1 r1.2.1 r1.2.2 hreg htl (by simp) (by rw [hone])
      have hin2 : ∀ x ∈ ts, x.1 < r1.2.1.length ∧ x.2.1 < r1.2.1.length ∧
          x.2.2 < r1.2.1.length := by
        intro x hx
        have := hin x (List.mem_cons_of_mem t hx)
        rw [ht1]
        simp
        omega
      obtain ⟨fuel2, hfuel2⟩ := ih r1.2.1 r1.2.2 hreg1 hin2
      refine ⟨max p fuel2, fun f' hf => ?_⟩
      have hone' := subdivide_one_mono msq p f' (le_trans (le_max_left p fuel2) hf)
        _ [] verts ed r1 hone
      obtain ⟨r2, hr2⟩ := hfuel2 f' (le_trans (le_max_right p fuel2) hf)
      refine ⟨(r1.1 ++ r2.1, r2.2), ?_⟩
      rw [subdivide_go_cons_div msq mx f' t ts verts ed hdiv, hone']
      simp only [Option.some_bind]
      rw [hr2]
      rfl

/-- Termination of subdivide: for every valid mesh and positive maximum
edge length some fuel suffices. -/
theorem subdivide_terminates (mx : ℚ) (hmx : 0 < mx) (its : indexed_triangle_set)
    (hin : ∀ t ∈ its.indices, t.1 < its.vertices.length ∧
      t.2.1 < its.vertices.length ∧ t.2.2 < its.vertices.length) :
    ∃ fuel out, subdivide fuel its mx = some out := by
  obtain ⟨fuel, hfuel⟩ := subdivide_go_terminates (mx * mx) mx (by positivity) rfl
    its.indices its.vertices [] (fun e he => absurd he (List.not_mem_nil e)) hin
  obtain ⟨r, hr⟩ := hfuel fuel (le_refl fuel)
  refine ⟨fuel, ⟨r.2.1, r.1⟩, ?_⟩
  simp only [subdivide]
  rw [hr]
  rfl

/-- C8 counterexample: an isoceles triangle with the two long edges tied
(squared lengths 1369/16, 1369/16, 36) against squared threshold 49: the
divide step splits edge 1, and its first child keeps the tied longest
edge unchanged, so the split does not strictly shorten the longest edge
of the triangles it produces. -/
theorem C8_strict_shortening_counterexample :
    ∃ (tl : TriangleLengths) (di : ℕ) (verts : List Vec3),
      TriGood verts tl ∧
      get_divide_index tl.l 49 = some di ∧
      max (divide tl di 49 verts []).1.1.l.1
        (max (divide tl di 49 verts []).1.1.l.2.1
          (divide tl di 49 verts []).1.1.l.2.2) =
      max tl.l.1 (max tl.l.2.1 tl.l.2.2) := by
  refine ⟨⟨(0, 1, 2), (1369/16, 1369/16, 36)⟩, 1,
    [⟨-3, 0, 0⟩, ⟨0, 35/4, 0⟩, ⟨3, 0, 0⟩], ?_, ?_, ?_⟩
  · refine ⟨by norm_num, by norm_num, by norm_num, ?_, ?_, ?_⟩ <;>
      norm_num [normSq, List.getD_cons_zero, List.getD_cons_succ, sub_x, sub_y, sub_z]
  · norm_num [get_divide_index]
  · have hc : edge_count ((1369 : ℚ)/16) 49 = 1 :=
      edge_count_eq _ _ 1 (by norm_num) (by norm_num) (by norm_num)
    rw [divide_one, divide_core_eq]
    norm_num [hc, ensure_seq, ed_find, mid_offset, normSq, smul,
      List.getD_cons_zero, List.getD_cons_succ, List.cons_append, List.nil_append,
      List.range_succ, List.range_zero, show ((3 : ℤ)).toNat = 3 from rfl,
      sub_x, sub_y, sub_z, add_x, add_y, add_z]

/-- Edges all within the bound yield no divide index. -/
theorem get_divide_index_none_of_le (l : ℚ × ℚ × ℚ) (msq : ℚ)
    (h1 : l.1 ≤ msq) (h2 : l.2.1 ≤ msq) (h3 : l.2.2 ≤ msq) :
    get_divide_index l msq = none := by
  unfold get_divide_index
  split_ifs with c1 c2 c3 c4 c5 <;> first | rfl | linarith

/-- C8: for every mesh with in-range indices and every positive maximum
edge length, the queue-driven subdivision loop of subdivide terminates
for sufficient fuel with every output edge within the bound, and a
triangle whose tracked edge lengths are already within the squared bound
is emitted unchanged by the inner loop, touching neither vertices nor
registry.  (The strict-shortening justification is a separate, refuted
statement: see C8_strict_shortening_counterexample.) -/
theorem C8_subdivide_terminates (mx : ℚ) (hmx : 0 < mx) (its : indexed_triangle_set)
    (hin : ∀ t ∈ its.indices, t.1 < its.vertices.length ∧
      t.2.1 < its.vertices.length ∧ t.2.2 < its.vertices.length) :
    (∃ fuel out, subdivide fuel its mx = some out ∧
      ∀ t ∈ out.indices, TriDone (mx * mx) out.vertices t) ∧
    (∀ (tl : TriangleLengths) (verts : List Vec3) (ed : EdgeDivides) (n : ℕ),
      tl.l.1 ≤ mx * mx → tl.l.2.1 ≤ mx * mx → tl.l.2.2 ≤ mx * mx →
      subdivide_one (mx * mx) (n + 1) tl [] verts ed = some ([tl.indices], verts, ed)) := by
  constructor
  · obtain ⟨fuel, out, hsub⟩ := subdivide_terminates mx hmx its hin
    refine ⟨fuel, out, hsub, ?_⟩
    simp only [subdivide] at hsub
    cases hgo : subdivide_go (mx * mx) mx fuel its.indices its.vertices [] with
    | none => rw [hgo] at hsub; simp at hsub
    | some r =>
      rw [hgo] at hsub
      simp only [Option.map_some', Option.some.injEq] at hsub
      have h := subdivide_go_good (mx * mx) mx (by positivity) rfl fuel its.indices
        its.vertices [] r.1 r.2.1 r.2.2 (fun e he => absurd he (List.not_mem_nil e))
        hin (by rw [hgo])
      rw [← hsub]
      exact h.2
  · intro tl verts ed n h1 h2 h3
    exact subdivide_one_succ_none_nil (mx * mx) n tl verts ed
      (get_divide_index_none_of_le tl.l (mx * mx) h1 h2 h3)

theorem C8_witness :
    (0 : ℚ) < 3 ∧
    (∃ fuel out,
      subdivide fuel ⟨[⟨0, 0, 0⟩, ⟨1, 0, 0⟩, ⟨0, 1, 0⟩], [((0, 1, 2) : Tri)]⟩ 3 = some out ∧
      ∀ t ∈ out.indices, TriDone ((3 : ℚ) * 3) out.vertices t) ∧
    subdivide_one ((3 : ℚ) * 3) 1 ⟨(0, 1, 2), (1, 4, 1)⟩ [] [] [] =
      some ([((0, 1, 2) : Tri)], [], []) := by
  have h := C8_subdivide_terminates 3 (by norm_num)
    ⟨[⟨0, 0, 0⟩, ⟨1, 0, 0⟩, ⟨0, 1, 0⟩], [((0, 1, 2) : Tri)]⟩
    (by intro t ht; simp at ht; subst ht; exact ⟨by norm_num, by norm_num, by norm_num⟩)
  exact ⟨by norm_num, h.1,
    h.2 ⟨(0, 1, 2), (1, 4, 1)⟩ [] [] 0 (by norm_num) (by norm_num) (by norm_num)⟩


/-- ensure_seq on a registered key returns the stored sequence and leaves
vertices and registry untouched. -/
theorem ensure_seq_found (key : ℕ × ℕ) (c : ℕ) (verts : List Vec3) (ed : EdgeDivides)
    (vs : VerticesSequence) (h : ed_find ed key = some vs) :
    ensure_seq key c verts ed = (vs, verts, ed) := by
  have e : ensure_seq key c verts ed =
      match ed_find ed key with
      | some vs => (vs, verts, ed)
      | none =>
        (⟨verts.length, true⟩,
         verts ++ (List.range c).map (fun (i : ℕ) =>
           verts.getD key.1 default +
             smul (((i : ℚ) + 1) / ((c : ℚ) + 1))
               (verts.getD key.2 default - verts.getD key.1 default)),
         (key, (⟨verts.length, true⟩ : VerticesSequence)) :: ed) := rfl
  rw [e, h]

/-- A guarded insertion never disturbs an existing registry entry. -/
theorem ed_find_insert_preserve (ed : EdgeDivides) (k key : ℕ × ℕ)
    (w vs : VerticesSequence) (h : ed_find ed key = some vs) :
    ed_find (ed_insert_new ed k w) key = some vs := by
  unfold ed_insert_new
  by_cases hk : (ed_find ed k).isNone
  · rw [if_pos hk]
    have hne : k ≠ key := by
      intro he
      subst he
      rw [h] at hk
      simp at hk
    have e2 : ed_find ((k, w) :: ed) key =
        if (k, w).1 = key then some (k, w).2 else ed_find ed key := rfl
    rw [e2, if_neg hne]
    exact h
  · rw [if_neg hk]
    exact h

/-- ensure_seq never disturbs an existing registry entry. -/
theorem ensure_seq_find_preserve (k0 : ℕ × ℕ) (c : ℕ) (verts : List Vec3)
    (ed : EdgeDivides) (key : ℕ × ℕ) (vs : VerticesSequence)
    (h : ed_find ed key = some vs) :
    ed_find (ensure_seq k0 c verts ed).2.2 key = some vs := by
  cases hf : ed_find ed k0 with
  | some w =>
    rw [ensure_seq_found k0 c verts ed w hf]
    exact h
  | none =>
    rw [ensure_seq_fresh k0 c verts ed hf]
    have hne : k0 ≠ key := by
      intro he
      subst he
      rw [h] at hf
      simp at hf
    have e2 : ed_find ((k0, (⟨verts.length, true⟩ : VerticesSequence)) :: ed) key =
        if (k0, (⟨verts.length, true⟩ : VerticesSequence)).1 = key
        then some (k0, (⟨verts.length, true⟩ : VerticesSequence)).2
        else ed_find ed key := rfl
    rw [e2, if_neg hne]
    exact h

/-- A divide step never disturbs an existing registry entry: looked-up
sub-sequences are only ever added under absent keys. -/
theorem divide_core_find_preserve (vi0 vi1 vi2 : ℕ) (lsq l1 l2 msq : ℚ)
    (verts : List Vec3) (ed : EdgeDivides) (key : ℕ × ℕ) (vs : VerticesSequence)
    (h : ed_find ed key = some vs) :
    ed_find (divide_core vi0 vi1 vi2 lsq l1 l2 msq verts ed).2.2 key = some vs := by
  rw [divide_core_eq]
  simp only
  split_ifs <;>
    (repeat' apply ed_find_insert_preserve) <;>
    exact ensure_seq_find_preserve _ _ _ _ _ _ h

/-- divide never disturbs an existing registry entry. -/
theorem divide_find_preserve (tl : TriangleLengths) (di : ℕ) (msq : ℚ)
    (verts : List Vec3) (ed : EdgeDivides) (key : ℕ × ℕ) (vs : VerticesSequence)
    (h : ed_find ed key = some vs) :
    ed_find (divide tl di msq verts ed).2.2 key = some vs :=
  divide_core_find_preserve _ _ _ _ _ _ _ _ _ _ _ h

/-- A divide step on an already-registered edge reuses the stored
sequence: it appends no vertices and keeps the canonical entry. -/
theorem divide_core_reuse (vi0 vi1 vi2 : ℕ) (lsq l1 l2 msq : ℚ)
    (verts : List Vec3) (ed : EdgeDivides) (vs : VerticesSequence)
    (hfound : ed_find ed (if vi0 > vi1 then (vi1, vi0) else (vi0, vi1)) = some vs) :
    (divide_core vi0 vi1 vi2 lsq l1 l2 msq verts ed).2.1 = verts ∧
    ed_find (divide_core vi0 vi1 vi2 lsq l1 l2 msq verts ed).2.2
      (if vi0 > vi1 then (vi1, vi0) else (vi0, vi1)) = some vs := by
  refine ⟨?_, divide_core_find_preserve _ _ _ _ _ _ _ _ _ _ _ hfound⟩
  by_cases hsw : vi0 > vi1
  · rw [if_pos hsw] at hfound
    have e : (divide_core vi0 vi1 vi2 lsq l1 l2 msq verts ed).2.1 =
        (ensure_seq (vi1, vi0) (edge_count lsq msq) verts ed).2.1 := by
      rw [divide_core_eq]
      simp only [hsw, decide_True, if_true]
    rw [e, ensure_seq_found _ _ _ _ _ hfound]
  · rw [if_neg hsw] at hfound
    have e : (divide_core vi0 vi1 vi2 lsq l1 l2 msq verts ed).2.1 =
        (ensure_seq (vi0, vi1) (edge_count lsq msq) verts ed).2.1 := by
      rw [divide_core_eq]
      simp only [hsw, decide_False, Bool.false_eq_true, if_false]
    rw [e, ensure_seq_found _ _ _ _ _ hfound]

/-- The canonical key of an edge does not depend on the winding. -/
theorem key_comm (a b : ℕ) :
    (if b > a then (a, b) else (b, a)) = (if a > b then (b, a) else (a, b)) := by
  rcases lt_trichotomy a b with h | h | h
  · rw [if_pos h, if_neg (by omega)]
  · subst h
    rw [if_neg (lt_irrefl a)]
  · rw [if_neg (by omega), if_pos h]

/-- Registered entries survive the whole inner queue loop. -/
theorem subdivide_one_find_preserve (msq : ℚ) :
    ∀ (fuel : ℕ) (tl : TriangleLengths) (queue : List TriangleLengths)
      (verts : List Vec3) (ed : EdgeDivides) (tris : List Tri) (verts2 : List Vec3)
      (ed2 : EdgeDivides) (key : ℕ × ℕ) (vs : VerticesSequence),
      subdivide_one msq fuel tl queue verts ed = some (tris, verts2, ed2) →
      ed_find ed key = some vs → ed_find ed2 key = some vs := by
  intro fuel
  induction fuel with
  | zero =>
    intro tl queue verts ed tris verts2 ed2 key vs hsome _
    rw [subdivide_one_zero] at hsome
    simp at hsome
  | succ n ih =>
    intro tl queue verts ed tris verts2 ed2 key vs hsome hfind
    cases hgd : get_divide_index tl.l msq with
    | none =>
      cases queue with
      | nil =>
        rw [subdivide_one_succ_none_nil msq n tl verts ed hgd] at hsome
        simp only [Option.some.injEq, Prod.mk.injEq] at hsome
        rw [← hsome.2.2]
        exact hfind
      | cons q qs =>
        rw [subdivide_one_succ_none_cons msq n tl q qs verts ed hgd] at hsome
        cases hrec : subdivide_one msq n q qs verts ed with
        | none => rw [hrec] at hsome; simp at hsome
        | some r =>
          rw [hrec] at hsome
          simp only [Option.map_some', Option.some.injEq, Prod.mk.injEq,
            Prod.ext_iff] at hsome
          have := ih q qs verts ed r.1 r.2.1 r.2.2 key vs (by rw [hrec]) hfind
          rw [← hsome.2.2]
          exact this
    | some di =>
      rw [subdivide_one_succ_some msq n tl queue verts ed di hgd] at hsome
      exact ih _ _ _ _ _ _ _ key vs hsome
        (divide_find_preserve tl di msq verts ed key vs hfind)

/-- The split vertex lies at an interior grid slot of the canonical
(order-independent) subdivision of the split edge. -/
theorem divide_core_split_on_canonical_grid (msq : ℚ) (h0 : 0 < msq)
    (verts : List Vec3) (ed : EdgeDivides) (vi0 vi1 vi2 : ℕ) (lsq l1 l2 : ℚ)
    (hreg : RegGood verts msq ed)
    (h0a : vi0 < verts.length) (h0b : vi1 < verts.length) (h0c : vi2 < verts.length)
    (hlsq : lsq = normSq (verts.getD vi0 default - verts.getD vi1 default))
    (hl1 : l1 = normSq (verts.getD vi1 default - verts.getD vi2 default))
    (hl2 : l2 = normSq (verts.getD vi2 default - verts.getD vi0 default))
    (hgt : msq < lsq) :
    ∃ c j : ℕ, c = edge_count lsq msq ∧ j < c ∧
      (divide_core vi0 vi1 vi2 lsq l1 l2 msq verts ed).2.1.getD
        (divide_core vi0 vi1 vi2 lsq l1 l2 msq verts ed).1.1.indices.2.1 default =
      grid_point (verts.getD (min vi0 vi1) default)
        (verts.getD (max vi0 vi1) default) c (j + 1) := by
  obtain ⟨_, _, _, _, c, oo, newi, hc, hoo, _, _, hi1, _, hpos⟩ :=
    divide_core_good msq h0 verts ed vi0 vi1 vi2 lsq l1 l2 hreg h0a h0b h0c hlsq hl1 hl2 hgt
  have hnewi : (divide_core vi0 vi1 vi2 lsq l1 l2 msq verts ed).1.1.indices.2.1 = newi := by
    rw [hi1]
  rw [hnewi]
  rcases le_or_lt vi0 vi1 with hle | hlt
  · refine ⟨c, oo, hc, hoo, ?_⟩
    rw [min_eq_left hle, max_eq_right hle]
    exact hpos
  · refine ⟨c, c - 1 - oo, hc, by omega, ?_⟩
    rw [min_eq_right (le_of_lt hlt), max_eq_left (le_of_lt hlt), hpos]
    have he : (c - 1 - oo) + 1 = c - oo := by omega
    rw [he]
    exact grid_point_rev _ _ c (oo + 1) (c - oo) (by omega)

/-- C1: the subdivision resolves a shared edge identically for the two
triangles adjoining it, regardless of order and winding.  (i) The
canonical key is winding independent, and dividing an edge whose
canonical key is registered reuses the stored vertex sequence exactly:
neither winding appends any vertex (no duplicate coincident vertices) and
both leave the canonical entry untouched.  (ii) The split vertex always
sits at an interior slot of the canonical evenly spaced subdivision of
the edge, determined only by the unordered endpoint pair, so both
triangles draw their inserted vertices from the identical set.
(iii) Registered entries survive the whole inner loop, and in the final
vertex list the stored sequence still points at exactly the evenly
spaced interior vertices of its edge — the identical inserted vertex
indices seen by every triangle that touches the edge. -/
theorem C1_shared_edge_consistency (msq : ℚ) (h0 : 0 < msq) :
    (∀ (verts : List Vec3) (ed : EdgeDivides) (a b x y : ℕ)
       (lsq la1 la2 lb1 lb2 : ℚ) (vs : VerticesSequence),
      ed_find ed (if a > b then (b, a) else (a, b)) = some vs →
      (divide_core a b x lsq la1 la2 msq verts ed).2.1 = verts ∧
      (divide_core b a y lsq lb1 lb2 msq verts ed).2.1 = verts ∧
      ed_find (divide_core a b x lsq la1 la2 msq verts ed).2.2
        (if a > b then (b, a) else (a, b)) = some vs ∧
      ed_find (divide_core b a y lsq lb1 lb2 msq verts ed).2.2
        (if a > b then (b, a) else (a, b)) = some vs) ∧
    (∀ (verts : List Vec3) (ed : EdgeDivides) (vi0 vi1 vi2 : ℕ) (lsq l1 l2 : ℚ),
      RegGood verts msq ed →
      vi0 < verts.length → vi1 < verts.length → vi2 < verts.length →
      lsq = normSq (verts.getD vi0 default - verts.getD vi1 default) →
      l1 = normSq (verts.getD vi1 default - verts.getD vi2 default) →
      l2 = normSq (verts.getD vi2 default - verts.getD vi0 default) →
      msq < lsq →
      ∃ c j : ℕ, c = edge_count lsq msq ∧ j < c ∧
        (divide_core vi0 vi1 vi2 lsq l1 l2 msq verts ed).2.1.getD
          (divide_core vi0 vi1 vi2 lsq l1 l2 msq verts ed).1.1.indices.2.1 default =
        grid_point (verts.getD (min vi0 vi1) default)
          (verts.getD (max vi0 vi1) default) c (j + 1)) ∧
    (∀ (fuel : ℕ) (tl : TriangleLengths) (queue : List TriangleLengths)
       (verts : List Vec3) (ed : EdgeDivides) (tris : List Tri) (verts2 : List Vec3)
       (ed2 : EdgeDivides) (key : ℕ × ℕ) (vs : VerticesSequence),
      RegGood verts msq ed → TriGood verts tl → (∀ q ∈ queue, TriGood verts q) →
      subdivide_one msq fuel tl queue verts ed = some (tris, verts2, ed2) →
      ed_find ed key = some vs →
      ed_find ed2 key = some vs ∧ EntryGood verts2 msq key vs) := by
  refine ⟨?_, ?_, ?_⟩
  · intro verts ed a b x y lsq la1 la2 lb1 lb2 vs hfound
    have h1 := divide_core_reuse a b x lsq la1 la2 msq verts ed vs hfound
    have hfound2 : ed_find ed (if b > a then (a, b) else (b, a)) = some vs := by
      rw [key_comm a b]
      exact hfound
    have h2 := divide_core_reuse b a y lsq lb1 lb2 msq verts ed vs hfound2
    refine ⟨h1.1, h2.1, h1.2, ?_⟩
    rw [← key_comm a b]
    exact h2.2
  · intro verts ed vi0 vi1 vi2 lsq l1 l2 hreg h0a h0b h0c hlsq hl1 hl2 hgt
    exact divide_core_split_on_canonical_grid msq h0 verts ed vi0 vi1 vi2 lsq l1 l2
      hreg h0a h0b h0c hlsq hl1 hl2 hgt
  · intro fuel tl queue verts ed tris verts2 ed2 key vs hreg htri hq hsome hfind
    have hpres := subdivide_one_find_preserve msq fuel tl queue verts ed tris verts2 ed2
      key vs hsome hfind
    have hgood := subdivide_one_good msq h0 fuel tl queue verts ed tris verts2 ed2
      hreg htri hq hsome
    exact ⟨hpres, hgood.2.1 (key, vs) (ed_find_mem ed2 key vs hpres)⟩

theorem C1_witness :
    (0 : ℚ) < 9 ∧
    ((divide_core 1 2 0 0 0 0 9 [] [((1, 2), (⟨7, true⟩ : VerticesSequence))]).2.1 = [] ∧
     (divide_core 2 1 0 0 0 0 9 [] [((1, 2), (⟨7, true⟩ : VerticesSequence))]).2.1 = [] ∧
     ed_find (divide_core 1 2 0 0 0 0 9 [] [((1, 2), (⟨7, true⟩ : VerticesSequence))]).2.2
       (if 1 > 2 then (2, 1) else (1, 2)) = some ⟨7, true⟩ ∧
     ed_find (divide_core 2 1 0 0 0 0 9 [] [((1, 2), (⟨7, true⟩ : VerticesSequence))]).2.2
       (if 1 > 2 then (2, 1) else (1, 2)) = some ⟨7, true⟩) ∧
    (∃ c j : ℕ, c = edge_count (1369 / 16) 9 ∧ j < c ∧
      (divide_core 0 1 2 (1369 / 16) (1369 / 16) 36 9
        [⟨-3, 0, 0⟩, ⟨0, 35/4, 0⟩, ⟨3, 0, 0⟩] []).2.1.getD
        (divide_core 0 1 2 (1369 / 16) (1369 / 16) 36 9
          [⟨-3, 0, 0⟩, ⟨0, 35/4, 0⟩, ⟨3, 0, 0⟩] []).1.1.indices.2.1 default =
      grid_point ([⟨-3, 0, 0⟩, ⟨0, 35/4, 0⟩, ⟨3, 0, 0⟩].getD (min 0 1) default)
        ([⟨-3, 0, 0⟩, ⟨0, 35/4, 0⟩, ⟨3, 0, 0⟩].getD (max 0 1) default) c (j + 1)) ∧
    (ed_find [(((0, 1) : ℕ × ℕ), (⟨5, true⟩ : VerticesSequence))] (0, 1) =
        some ⟨5, true⟩ ∧
      EntryGood [⟨0, 0, 0⟩, ⟨1, 0, 0⟩, ⟨0, 1, 0⟩] 9 (0, 1) ⟨5, true⟩) := by
  have hck : key_count [(⟨0, 0, 0⟩ : Vec3), ⟨1, 0, 0⟩, ⟨0, 1, 0⟩] 9 ((0, 1) : ℕ × ℕ) = 0 := by
    unfold key_count
    have he : normSq (([(⟨0, 0, 0⟩ : Vec3), ⟨1, 0, 0⟩, ⟨0, 1, 0⟩].getD 1 default) -
        ([(⟨0, 0, 0⟩ : Vec3), ⟨1, 0, 0⟩, ⟨0, 1, 0⟩].getD 0 default)) = 1 := by
      norm_num [normSq, List.getD_cons_zero, List.getD_cons_succ]
    rw [he]
    exact edge_count_eq 1 9 0 (by norm_num) (by norm_num) (by norm_num)
  have hreg : RegGood [(⟨0, 0, 0⟩ : Vec3), ⟨1, 0, 0⟩, ⟨0, 1, 0⟩] 9
      [(((0, 1) : ℕ × ℕ), (⟨5, true⟩ : VerticesSequence))] := by
    intro e he
    simp at he
    subst he
    refine ⟨by norm_num, by norm_num, by norm_num, ?_, ?_, ?_⟩ <;>
      (intro j hj; rw [hck] at hj; omega)
  have htri : TriGood [(⟨0, 0, 0⟩ : Vec3), ⟨1, 0, 0⟩, ⟨0, 1, 0⟩]
      ⟨(0, 1, 2), (1, 2, 1)⟩ := by
    refine ⟨by norm_num, by norm_num, by norm_num, ?_, ?_, ?_⟩ <;>
      norm_num [normSq, List.getD_cons_zero, List.getD_cons_succ]
  have hsome : subdivide_one 9 1 ⟨(0, 1, 2), (1, 2, 1)⟩ []
      [(⟨0, 0, 0⟩ : Vec3), ⟨1, 0, 0⟩, ⟨0, 1, 0⟩]
      [(((0, 1) : ℕ × ℕ), (⟨5, true⟩ : VerticesSequence))] =
      some ([((0, 1, 2) : Tri)],
        [(⟨0, 0, 0⟩ : Vec3), ⟨1, 0, 0⟩, ⟨0, 1, 0⟩],
        [(((0, 1) : ℕ × ℕ), (⟨5, true⟩ : VerticesSequence))]) :=
    subdivide_one_succ_none_nil 9 0 _ _ _
      (get_divide_index_none_of_le _ 9 (by norm_num) (by norm_num) (by norm_num))
  have h := C1_shared_edge_consistency 9 (by norm_num)
  refine ⟨by norm_num, h.1 [] [((1, 2), ⟨7, true⟩)] 1 2 0 0 0 0 0 0 0 ⟨7, true⟩ rfl,
    h.2.1 [⟨-3, 0, 0⟩, ⟨0, 35/4, 0⟩, ⟨3, 0, 0⟩] [] 0 1 2 (1369 / 16) (1369 / 16) 36
      (fun e he => absurd he (List.not_mem_nil e)) (by norm_num) (by norm_num) (by norm_num)
      (by norm_num [normSq, List.getD_cons_zero, List.getD_cons_succ])
      (by norm_num [normSq, List.getD_cons_zero, List.getD_cons_succ])
      (by norm_num [normSq, List.getD_cons_zero, List.getD_cons_succ])
      (by norm_num),
    h.2.2 1 ⟨(0, 1, 2), (1, 2, 1)⟩ [] _ _ _ _ _ (0, 1) ⟨5, true⟩ hreg htri
      (by intro q hq; simp at hq) hsome rfl⟩

end SDF
